import Mathlib

set_option linter.unusedSectionVars false

/-!
Verification of the left-leaning red-black BST implementation
(`search/red_black_bst.go`, package `search`) of the `inpour/algorithms`
repository, against its natural-language specification.

The Go data model is embedded shallowly:

* `redBlackBSTNode[K, V]` (a nullable pointer to a node with key, value,
  left/right children, a boolean color and a cached subtree size) becomes
  the inductive type `RBNode K V`, with constructor `nil` for the nil
  pointer.
* The `RedBlackBST[K, V]` struct holds the root pointer and a caller
  supplied three-way comparator.  The embedding represents the struct by
  the root tree alone and instantiates the comparator with the canonical
  lawful comparator of a `LinearOrder` (`compare a b` is `-1/0/1` exactly
  as documented in the Go source).
* Go functions that mutate `node.left`, `node.key`, … and return the new
  subtree root are translated to pure functions returning the new tree.
* A Go `error` result becomes an `Option STError` / `Except STError`
  component.
* The deletion helpers (`delete`, `delMin`, `delMax`, `moveRedLeft`,
  `moveRedRight`) dereference child pointers without nil checks; each
  such unguarded dereference is embedded as an `Option` failure (`none` =
  the Go code panics with a nil-pointer dereference at that spot).
  Helpers whose dereferences are all syntactically guarded in the Go
  source (`rotateLeft`, `rotateRight`, `flipColors`, `balance` on a
  non-nil argument, `min`, `max`) are embedded as total functions whose
  fall-through cases are unreachable at every call site.
-/

namespace Search

/-- colors of parent link (Go: `red = true`). -/
def red : Bool := true

/-- colors of parent link (Go: `black = false`). -/
def black : Bool := false

/-- Embedding of `redBlackBSTNode[K, V]`: `nil` is the nil pointer, and
`node key val left right color size` is a node with the five fields of the
Go struct (`size` is the cached subtree-size field, not a computed count). -/
inductive RBNode (K V : Type) where
  | nil : RBNode K V
  | node (key : K) (val : V) (left right : RBNode K V) (color : Bool) (size : Nat) : RBNode K V
deriving Repr

namespace RBNode

variable {K V : Type}

/-- Go `size(node)`: the cached `size` field, `0` for nil. -/
def size : RBNode K V → Nat
  | .nil => 0
  | .node _ _ _ _ _ sz => sz

/-- Go `Size()`: size of the root. -/
def Size (t : RBNode K V) : Nat := size t

/-- Go `IsEmpty()`: `Size() == 0`. -/
def IsEmpty (t : RBNode K V) : Bool := Size t == 0

/-- Go `isRed(node)`: false for nil, otherwise the color field. -/
def isRed : RBNode K V → Bool
  | .nil => false
  | .node _ _ _ _ c _ => c

/-- Left child (the Go field access `node.left`; callers in this file only
use it where the Go code's access is known to be on a non-nil node). -/
def left : RBNode K V → RBNode K V
  | .nil => .nil
  | .node _ _ l _ _ _ => l

/-- Right child (the Go field access `node.right`). -/
def right : RBNode K V → RBNode K V
  | .nil => .nil
  | .node _ _ _ r _ _ => r

/-- Whether the tree is the nil pointer (Go: `node == nil`). -/
def isNil : RBNode K V → Bool
  | .nil => true
  | .node _ _ _ _ _ _ => false

/-- Number of actual nodes in the tree (used as the termination measure for
the deletion helpers; distinct from the cached `size` field). -/
def numNodes : RBNode K V → Nat
  | .nil => 0
  | .node _ _ l r _ _ => 1 + numNodes l + numNodes r

/-- The error values of `search/symbol_table.go`. -/
inductive STError where
  | absentKey
  | invalidRank
  | emptySymbolTable
  | tooSmallFloorKey
  | tooLargeCeilingKey
deriving DecidableEq, Repr

/-- Go `rotateRight(node)`: `x := node.left; node.left = x.right;
x.right = node; x.color = node.color; node.color = red; x.size = node.size;
node.size = 1 + size(node.left) + size(node.right)`.  The fall-through case
is the nil dereference of `x`; every call in the source is guarded by an
`isRed` test on `node.left`, so it is never reached. -/
def rotateRight : RBNode K V → RBNode K V
  | .node k v (.node lk lv ll lr _ _) r c sz =>
      .node lk lv ll (.node k v lr r red (1 + size lr + size r)) c sz
  | n => n

/-- Go `rotateLeft(node)`, symmetric to `rotateRight`. -/
def rotateLeft : RBNode K V → RBNode K V
  | .node k v l (.node rk rv rl rr _ _) c sz =>
      .node rk rv (.node k v l rl red (1 + size l + size rl)) rr c sz
  | n => n

/-- Go `flipColors(node)`: toggles the color of a node and its two
children.  The fall-through case is the nil dereference of a child; calls
from `balance` are guarded by `isRed` on both children, and calls from
`moveRedLeft`/`moveRedRight` are embedded so that this case is a monadic
failure of the caller. -/
def flipColors : RBNode K V → RBNode K V
  | .node k v (.node lk lv ll lr lc ls) (.node rk rv rl rr rc rs) c sz =>
      .node k v (.node lk lv ll lr (!lc) ls) (.node rk rv rl rr (!rc) rs) (!c) sz
  | n => n

/-- Overwrite the cached root size field (the Go assignment
`node.size = ...` at the end of `balance`). -/
def withSize : RBNode K V → Nat → RBNode K V
  | .nil, _ => .nil
  | .node k v l r c _, sz => .node k v l r c sz

/-- Go `balance(node)`: rotate left if the right link is red and the left
is not; rotate right if the left child and left-left grandchild are red;
flip colors if both children are red; finally recompute `node.size`.
`balance` is only invoked on non-nil nodes in the source; the nil case
(where Go would dereference nil) is never reached. -/
def balance (n : RBNode K V) : RBNode K V :=
  match n with
  | .nil => .nil
  | .node _ _ _ _ _ _ =>
    let n1 := if isRed (right n) && !(isRed (left n)) then rotateLeft n else n
    let n2 := if isRed (left n1) && isRed (left (left n1)) then rotateRight n1 else n1
    let n3 := if isRed (left n2) && isRed (right n2) then flipColors n2 else n2
    withSize n3 (1 + size (left n3) + size (right n3))

/-- Force the root color to black (the Go assignment
`b.root.color = black`; its receiver is non-nil at every occurrence). -/
def blacken : RBNode K V → RBNode K V
  | .nil => .nil
  | .node k v l r _ sz => .node k v l r black sz

/-- Go `min(node)`: leftmost node.  Only invoked on non-nil nodes in the
source; the nil case (a Go nil dereference) is never reached. -/
def min : RBNode K V → RBNode K V
  | .nil => .nil
  | .node k v .nil r c sz => .node k v .nil r c sz
  | .node _ _ (.node lk lv ll lr lc ls) _ _ _ => min (.node lk lv ll lr lc ls)

/-- Go `max(node)`, symmetric to `min`. -/
def max : RBNode K V → RBNode K V
  | .nil => .nil
  | .node k v l .nil c sz => .node k v l .nil c sz
  | .node _ _ _ (.node rk rv rl rr rc rs) _ _ => max (.node rk rv rl rr rc rs)

/-- Go `Min()`: `ErrEmptySymbolTable` on an empty table, otherwise the key
of the leftmost node.  (`Size t ≠ 0` forces `t` to be a node, and `min` of
a node is a node, so the fall-through `.nil` case never fires.) -/
def Min (t : RBNode K V) : Except STError K :=
  if IsEmpty t then .error .emptySymbolTable
  else match min t with
    | .node k _ _ _ _ _ => .ok k
    | .nil => .error .emptySymbolTable

/-- Go `Max()`. -/
def Max (t : RBNode K V) : Except STError K :=
  if IsEmpty t then .error .emptySymbolTable
  else match max t with
    | .node k _ _ _ _ _ => .ok k
    | .nil => .error .emptySymbolTable

/-- The Go assignment `node.left = x` (receiver non-nil at every use). -/
def setLeft : RBNode K V → RBNode K V → RBNode K V
  | .nil, _ => .nil
  | .node k v _ r c sz, l => .node k v l r c sz

/-- The Go assignment `node.right = x` (receiver non-nil at every use). -/
def setRight : RBNode K V → RBNode K V → RBNode K V
  | .nil, _ => .nil
  | .node k v l _ c sz, r => .node k v l r c sz

/-- Go `moveRedLeft(node)`: `flipColors(node)`, then if
`isRed(node.right.left)` rotate the right child right, rotate the node
left, and flip again.  The fall-through `none` is the nil dereference Go
performs (inside `flipColors`, or at `node.right.left`) when the node or
one of its children is nil. -/
def moveRedLeft : RBNode K V → Option (RBNode K V)
  | .node k v (.node lk lv ll lr lc ls) (.node rk rv rl rr rc rs) c sz =>
    if isRed rl then
      some (flipColors (rotateLeft (.node k v (.node lk lv ll lr (!lc) ls)
        (rotateRight (.node rk rv rl rr (!rc) rs)) (!c) sz)))
    else
      some (.node k v (.node lk lv ll lr (!lc) ls) (.node rk rv rl rr (!rc) rs) (!c) sz)
  | _ => none

/-- Go `moveRedRight(node)`: `flipColors(node)`, then if
`isRed(node.left.left)` rotate the node right and flip again.  `none` is
the nil dereference on a nil node or child. -/
def moveRedRight : RBNode K V → Option (RBNode K V)
  | .node k v (.node lk lv ll lr lc ls) (.node rk rv rl rr rc rs) c sz =>
    if isRed ll then
      some (flipColors (rotateRight (.node k v (.node lk lv ll lr (!lc) ls)
        (.node rk rv rl rr (!rc) rs) (!c) sz)))
    else
      some (.node k v (.node lk lv ll lr (!lc) ls) (.node rk rv rl rr (!rc) rs) (!c) sz)
  | _ => none

theorem numNodes_rotateRight (t : RBNode K V) : numNodes (rotateRight t) = numNodes t := by
  rcases t with _ | ⟨k, v, l, r, c, sz⟩
  · rfl
  rcases l with _ | ⟨lk, lv, ll, lr, lc, ls⟩
  · rfl
  simp [rotateRight, numNodes]; omega

theorem numNodes_rotateLeft (t : RBNode K V) : numNodes (rotateLeft t) = numNodes t := by
  rcases t with _ | ⟨k, v, l, r, c, sz⟩
  · rfl
  rcases r with _ | ⟨rk, rv, rl, rr, rc, rs⟩
  · rfl
  simp [rotateLeft, numNodes]; omega

theorem numNodes_flipColors (t : RBNode K V) : numNodes (flipColors t) = numNodes t := by
  rcases t with _ | ⟨k, v, _ | ⟨lk, lv, ll, lr, lc, ls⟩, _ | ⟨rk, rv, rl, rr, rc, rs⟩, c, sz⟩ <;>
    simp [flipColors, numNodes]

theorem numNodes_moveRedLeft (t m : RBNode K V) (h : moveRedLeft t = some m) :
    numNodes m = numNodes t := by
  rcases t with _ | ⟨k, v, _ | ⟨lk, lv, ll, lr, lc, ls⟩, _ | ⟨rk, rv, rl, rr, rc, rs⟩, c, sz⟩ <;>
    simp only [moveRedLeft] at h <;> try exact absurd h (by simp)
  split at h <;> cases h <;>
    simp [numNodes_flipColors, numNodes_rotateLeft, numNodes, numNodes_rotateRight] <;> omega

theorem numNodes_moveRedRight (t m : RBNode K V) (h : moveRedRight t = some m) :
    numNodes m = numNodes t := by
  rcases t with _ | ⟨k, v, _ | ⟨lk, lv, ll, lr, lc, ls⟩, _ | ⟨rk, rv, rl, rr, rc, rs⟩, c, sz⟩ <;>
    simp only [moveRedRight] at h <;> try exact absurd h (by simp)
  split at h <;> cases h <;>
    simp [numNodes_flipColors, numNodes_rotateRight, numNodes] <;> omega

theorem moveRedLeft_ne_nil (t m : RBNode K V) (h : moveRedLeft t = some m) : m ≠ .nil := by
  rcases t with _ | ⟨k, v, _ | ⟨lk, lv, ll, lr, lc, ls⟩, _ | ⟨rk, rv, rl, rr, rc, rs⟩, c, sz⟩ <;>
    simp only [moveRedLeft] at h <;> try exact absurd h (by simp)
  split at h <;> cases h
  · rename_i hred
    rcases rl with _ | ⟨a, b, x, y, z, w⟩
    · exact absurd hred (by simp [isRed])
    · simp [rotateRight, rotateLeft, flipColors]
  · simp

theorem moveRedRight_ne_nil (t m : RBNode K V) (h : moveRedRight t = some m) : m ≠ .nil := by
  rcases t with _ | ⟨k, v, _ | ⟨lk, lv, ll, lr, lc, ls⟩, _ | ⟨rk, rv, rl, rr, rc, rs⟩, c, sz⟩ <;>
    simp only [moveRedRight] at h <;> try exact absurd h (by simp)
  split at h <;> cases h
  · rename_i hred
    rcases ll with _ | ⟨a, b, x, y, z, w⟩
    · exact absurd hred (by simp [isRed])
    · simp [rotateRight, flipColors]
  · simp

theorem left_numNodes_lt_of_ne (t : RBNode K V) (h : t ≠ .nil) :
    numNodes (left t) < numNodes t := by
  rcases t with _ | ⟨k, v, l, r, c, sz⟩
  · exact absurd rfl h
  simp only [left, numNodes]
  omega

theorem right_numNodes_lt_of_ne (t : RBNode K V) (h : t ≠ .nil) :
    numNodes (right t) < numNodes t := by
  rcases t with _ | ⟨k, v, l, r, c, sz⟩
  · exact absurd rfl h
  simp only [right, numNodes]
  omega

/-- Go `delMin(node)`: if `node.left == nil` return nil; otherwise push red
left when `node.left` and `node.left.left` are both black, recurse on the
left child and re-balance.  `none` is a Go nil dereference (`node.left` on
a nil node, or inside `moveRedLeft`). -/
def delMin : RBNode K V → Option (RBNode K V)
  | .nil => none
  | .node _ _ .nil _ _ _ => some .nil
  | .node k v (.node lk lv ll lr lc ls) r c sz =>
    match h1 : (if !(isRed (RBNode.node lk lv ll lr lc ls)) && !(isRed ll) then
                  moveRedLeft (.node k v (.node lk lv ll lr lc ls) r c sz)
                else some (.node k v (.node lk lv ll lr lc ls) r c sz)) with
    | none => none
    | some n1 =>
      match delMin (left n1) with
      | none => none
      | some l2 => some (balance (setLeft n1 l2))
termination_by t => numNodes t
decreasing_by
  split at h1
  · have e := numNodes_moveRedLeft _ _ h1
    have h2 := left_numNodes_lt_of_ne _ (moveRedLeft_ne_nil _ _ h1)
    omega
  · cases h1
    exact left_numNodes_lt_of_ne _ (by simp)

/-- Go `delMax(node)`: rotate right when the left child is red, return nil
when `node.right == nil`, push red right when `node.right` and
`node.right.left` are both black, recurse on the right child, re-balance.
`none` is a Go nil dereference. -/
def delMax : RBNode K V → Option (RBNode K V)
  | .nil => none
  | .node k v l r c sz =>
    match h0 : (if isRed l then rotateRight (.node k v l r c sz) else .node k v l r c sz) with
    | .nil => none
    | .node k0 v0 l0 r0 c0 s0 =>
      match r0 with
      | .nil => some .nil
      | .node rk rv rl rr rc rs =>
        match h1 : (if !(isRed (RBNode.node rk rv rl rr rc rs)) && !(isRed rl) then
                      moveRedRight (.node k0 v0 l0 (.node rk rv rl rr rc rs) c0 s0)
                    else some (.node k0 v0 l0 (.node rk rv rl rr rc rs) c0 s0)) with
        | none => none
        | some n1 =>
          match delMax (right n1) with
          | none => none
          | some r2 => some (balance (setRight n1 r2))
termination_by t => numNodes t
decreasing_by
  split at h0
  case _ =>
    have e0 := (congrArg numNodes h0).symm.trans (numNodes_rotateRight _)
    split at h1
    · have e1 := numNodes_moveRedRight _ _ h1
      have h2 := right_numNodes_lt_of_ne _ (moveRedRight_ne_nil _ _ h1)
      omega
    · cases h1
      have h2 := right_numNodes_lt_of_ne
        (RBNode.node k0 v0 l0 (RBNode.node rk rv rl rr rc rs) c0 s0) (by simp)
      omega
  case _ =>
    have e0 := (congrArg numNodes h0).symm
    split at h1
    · have e1 := numNodes_moveRedRight _ _ h1
      have h2 := right_numNodes_lt_of_ne _ (moveRedRight_ne_nil _ _ h1)
      omega
    · cases h1
      have h2 := right_numNodes_lt_of_ne
        (RBNode.node k0 v0 l0 (RBNode.node rk rv rl rr rc rs) c0 s0) (by simp)
      omega

variable [LinearOrder K]

/-- The canonical three-way comparator used to instantiate the Go
`compare func(a, b K) int` field: `-1` if `a < b`, `1` if `a > b`, `0`
otherwise, exactly as documented on `RedBlackBST`. -/
def compare (a b : K) : Int :=
  if a < b then -1 else if a > b then 1 else 0

/-- Go `get(node, key)`: iterative descent, `ErrAbsentKey` past a leaf. -/
def get : RBNode K V → K → Except STError V
  | .nil, _ => .error .absentKey
  | .node k v l r _ _, key =>
    if compare key k < 0 then get l key
    else if compare key k > 0 then get r key
    else .ok v

/-- Go `Get(key)`. -/
def Get (t : RBNode K V) (key : K) : Except STError V := get t key

/-- Go `Contains(key)`: `Get` succeeds. -/
def Contains (t : RBNode K V) (key : K) : Bool :=
  match Get t key with
  | .ok _ => true
  | .error _ => false

/-- Go `put(node, key, val)`: create a red size-1 leaf at nil; otherwise
descend by comparison (overwriting the value on equality) and call
`balance` on the way back up. -/
def put : RBNode K V → K → V → RBNode K V
  | .nil, key, val => .node key val .nil .nil red 1
  | .node k v l r c sz, key, val =>
    if compare key k < 0 then balance (.node k v (put l key val) r c sz)
    else if compare key k > 0 then balance (.node k v l (put r key val) c sz)
    else balance (.node k val l r c sz)

/-- Go `Put(key, val)`: `b.root = put(b.root, key, val); b.root.color = black`. -/
def Put (t : RBNode K V) (key : K) (val : V) : RBNode K V :=
  blacken (put t key val)

/-- Go `delete(node, key)`: steer by key comparison; push red into the
subtree about to be visited; a node whose key matches and whose right
child is nil is dropped; a matching node with a right child adopts the
key/value of the successor `min(node.right)` and the successor is removed
with `delMin`; every frame re-balances.  `none` is a Go nil dereference
(on a nil node, at `node.left.left` / `node.right.left` under a nil child,
or inside `moveRedLeft` / `moveRedRight` / `min` / `delMin`). -/
def delete : RBNode K V → K → Option (RBNode K V)
  | .nil, _ => none
  | .node k v l r c sz, key =>
    match decide (compare key k < 0) with
    | true =>
      match h1 : (if !(isRed l) then
                    if isNil l then none
                    else if !(isRed (left l)) then moveRedLeft (.node k v l r c sz)
                    else some (.node k v l r c sz)
                  else some (.node k v l r c sz)) with
      | none => none
      | some n1 =>
        match delete (left n1) key with
        | none => none
        | some l2 => some (balance (setLeft n1 l2))
    | false =>
      match h2 : (if isRed l then rotateRight (.node k v l r c sz) else .node k v l r c sz) with
      | .nil => none
      | .node k1 v1 l1 r1 c1 s1 =>
        match compare key k1 == 0 && isNil r1 with
        | true => some .nil
        | false =>
          match h3 : (if !(isRed r1) then
                        if isNil r1 then none
                        else if !(isRed (left r1)) then moveRedRight (.node k1 v1 l1 r1 c1 s1)
                        else some (.node k1 v1 l1 r1 c1 s1)
                      else some (.node k1 v1 l1 r1 c1 s1)) with
          | none => none
          | some RBNode.nil => none
          | some (RBNode.node k2 v2 l2 r2 c2 s2) =>
            match compare key k2 == 0 with
            | true =>
              match r2 with
              | .nil => none
              | .node rk2 rv2 rl2 rr2 rc2 rs2 =>
                match min (.node rk2 rv2 rl2 rr2 rc2 rs2) with
                | .nil => none
                | .node xk xv _ _ _ _ =>
                  match delMin (.node rk2 rv2 rl2 rr2 rc2 rs2) with
                  | none => none
                  | some r3 => some (balance (.node xk xv l2 r3 c2 s2))
            | false =>
              match delete r2 key with
              | none => none
              | some r3 => some (balance (.node k2 v2 l2 r3 c2 s2))
termination_by t _ => numNodes t
decreasing_by
  · split at h1
    · split at h1
      · exact absurd h1 (by simp)
      · split at h1
        · have e := numNodes_moveRedLeft _ _ h1
          have h4 := left_numNodes_lt_of_ne _ (moveRedLeft_ne_nil _ _ h1)
          omega
        · cases h1
          exact left_numNodes_lt_of_ne _ (by simp)
    · cases h1
      exact left_numNodes_lt_of_ne _ (by simp)
  · split at h2
    case _ =>
      have e2 := (congrArg numNodes h2).symm.trans (numNodes_rotateRight _)
      split at h3
      · split at h3
        · exact absurd h3 (by simp)
        · split at h3
          · have e3 := numNodes_moveRedRight _ _ h3
            simp only [numNodes] at e2 e3 ⊢
            omega
          · have e3 := h3
            simp only [Option.some.injEq] at e3
            cases e3
            simp only [numNodes] at e2 ⊢
            omega
      · have e3 := h3
        simp only [Option.some.injEq] at e3
        cases e3
        simp only [numNodes] at e2 ⊢
        omega
    case _ =>
      have e2 := (congrArg numNodes h2).symm
      split at h3
      · split at h3
        · exact absurd h3 (by simp)
        · split at h3
          · have e3 := numNodes_moveRedRight _ _ h3
            simp only [numNodes] at e2 e3 ⊢
            omega
          · have e3 := h3
            simp only [Option.some.injEq] at e3
            cases e3
            simp only [numNodes] at e2 ⊢
            omega
      · have e3 := h3
        simp only [Option.some.injEq] at e3
        cases e3
        simp only [numNodes] at e2 ⊢
        omega

/-- Go `Delete(key)`: fail fast with `ErrAbsentKey` when the key is not
present; otherwise color the root red when both its children are black and
run the recursive `delete`.  The result pairs the post-state tree with the
returned error.  NOTE: unlike `Put`, `DelMin` and `DelMax`, the Go
`Delete` does NOT force the root back to black afterwards; the embedding
mirrors that.  (`Contains` succeeding forces the tree to be a node, so the
fall-through `.nil` case never fires.) -/
def Delete (t : RBNode K V) (key : K) : Option (RBNode K V × Option STError) :=
  if !(Contains t key) then some (t, some .absentKey)
  else match t with
    | .nil => none
    | .node k v l r c sz =>
      match delete (if !(isRed l) && !(isRed r) then RBNode.node k v l r red sz
                    else RBNode.node k v l r c sz) key with
      | none => none
      | some t2 => some (t2, none)

/-- Go `DelMin()`: `ErrEmptySymbolTable` on an empty table; otherwise color
the root red when both children are black, run `delMin`, and force the root
black when the result is non-empty. -/
def DelMin (t : RBNode K V) : Option (RBNode K V × Option STError) :=
  if IsEmpty t then some (t, some .emptySymbolTable)
  else match t with
    | .nil => none
    | .node k v l r c sz =>
      match delMin (if !(isRed l) && !(isRed r) then RBNode.node k v l r red sz
                    else RBNode.node k v l r c sz) with
      | none => none
      | some t2 => some (if IsEmpty t2 then t2 else blacken t2, none)

/-- Go `DelMax()`: symmetric to `DelMin`. -/
def DelMax (t : RBNode K V) : Option (RBNode K V × Option STError) :=
  if IsEmpty t then some (t, some .emptySymbolTable)
  else match t with
    | .nil => none
    | .node k v l r c sz =>
      match delMax (if !(isRed l) && !(isRed r) then RBNode.node k v l r red sz
                    else RBNode.node k v l r c sz) with
      | none => none
      | some t2 => some (if IsEmpty t2 then t2 else blacken t2, none)

/-- Go `rank(node, key)`: `(0, ErrAbsentKey)` at nil; accumulate
`1 + size(node.left)` across right turns; note that the error of the
recursive call is propagated alongside the accumulated count. -/
def rank : RBNode K V → K → Nat × Option STError
  | .nil, _ => (0, some .absentKey)
  | .node k _ l r _ _, key =>
    if compare key k < 0 then rank l key
    else if compare key k > 0 then
      (1 + size l + (rank r key).1, (rank r key).2)
    else (size l, none)

/-- Go `Rank(key)`. -/
def Rank (t : RBNode K V) (key : K) : Nat × Option STError := rank t key

/-- Go `selectRecursive(node, k)`: navigate by the cached left-subtree
size.  `none` is the Go nil dereference of `node.left` on a nil node.
(The Go signature also carries an `error` that is never non-nil on any
path, so the embedding returns the key alone.)  Go's `k` is an `int`;
`Select` only passes values in `[0, size)`, on which `Nat` subtraction
agrees with Go's. -/
def selectRecursive : RBNode K V → Nat → Option K
  | .nil, _ => none
  | .node k _ l r _ _, kk =>
    if size l > kk then selectRecursive l kk
    else if size l < kk then selectRecursive r (kk - size l - 1)
    else some k

/-- Go `Select(k)`: `ErrInvalidRank` when `k` is outside `[0, Size())`
(`k` is an `int`, so the embedding takes an `Int`). -/
def Select (t : RBNode K V) (k : Int) : Option (Except STError K) :=
  if k < 0 || k ≥ (Size t : Int) then some (.error .invalidRank)
  else (selectRecursive t k.toNat).map .ok

/-- Go `iterator(yield, node, lo, hi)`: pruned in-order traversal.  The
embedding takes a pure `yield` predicate and returns the list of key-value
pairs passed to `yield`, in invocation order.  NOTE (faithful to the
source): when `yield` returns false, only the *current* frame returns;
enclosing frames continue and may invoke `yield` again. -/
def iterator (yield : K → V → Bool) : RBNode K V → K → K → List (K × V)
  | .nil, _, _ => []
  | .node k v l r _ _, lo, hi =>
    let cmpLo := compare lo k
    let cmpHi := compare hi k
    let leftCalls := if cmpLo < 0 then iterator yield l lo hi else []
    if cmpLo ≤ 0 ∧ cmpHi ≥ 0 then
      if yield k v then
        leftCalls ++ (k, v) :: (if cmpHi > 0 then iterator yield r lo hi else [])
      else leftCalls ++ [(k, v)]
    else leftCalls ++ (if cmpHi > 0 then iterator yield r lo hi else [])

/-- Go `Iterator()`: iterate from `Min()` to `Max()`; an empty table yields
nothing.  (`Min` succeeding forces `Max` to succeed — both test
`IsEmpty` — so the fall-through case never fires.) -/
def Iterator (yield : K → V → Bool) (t : RBNode K V) : List (K × V) :=
  match Min t, Max t with
  | .ok lo, .ok hi => iterator yield t lo hi
  | _, _ => []

/-- Go `RangeIterator(lo, hi)`: nothing when `lo > hi`, else the pruned
in-order traversal over `[lo, hi]`. -/
def RangeIterator (yield : K → V → Bool) (t : RBNode K V) (lo hi : K) : List (K × V) :=
  if compare lo hi > 0 then [] else iterator yield t lo hi

/-- Go `RangeSize(lo, hi)`: `0` when `lo > hi`, else
`Rank(hi) - Rank(lo)`, plus one when `hi` is present (the error returned
by `Rank(hi)` is nil).  Result is `Int` like the Go `int`. -/
def RangeSize (t : RBNode K V) (lo hi : K) : Int :=
  if compare lo hi > 0 then 0
  else
    ((Rank t hi).1 : Int) - ((Rank t lo).1 : Int) +
      (if (Rank t hi).2 = none then 1 else 0)

/-- In-order listing of the key-value pairs of a tree (specification-side
abstraction used to state functional-correctness properties). -/
def inorder : RBNode K V → List (K × V)
  | .nil => []
  | .node k v l r _ _ => inorder l ++ (k, v) :: inorder r

/-- Keys of a tree in in-order. -/
def keys (t : RBNode K V) : List K := (inorder t).map Prod.fst

/-- All keys of the tree satisfy `p` (helper for the BST-order checker). -/
def allKeys (p : K → Bool) : RBNode K V → Bool
  | .nil => true
  | .node k _ l r _ _ => p k && allKeys p l && allKeys p r

/-- §3 invariant "binary-search-tree order": for every node, all keys in
its left subtree compare less than the node's key, all keys in its right
subtree compare greater. -/
def ordered : RBNode K V → Bool
  | .nil => true
  | .node k _ l r _ _ =>
    allKeys (fun x => x < k) l && allKeys (fun x => k < x) r && ordered l && ordered r

/-- §3 invariant "size consistency":
`size(node) == 1 + size(node.left) + size(node.right)` at every node, with
`size(absent) == 0`. -/
def sizeOk : RBNode K V → Bool
  | .nil => true
  | .node _ _ l r _ sz => (sz == 1 + size l + size r) && sizeOk l && sizeOk r

/-- §3 balance invariant, part 1: no node has a red right link. -/
def noRedRight : RBNode K V → Bool
  | .nil => true
  | .node _ _ l r _ _ => !(isRed r) && noRedRight l && noRedRight r

/-- §3 balance invariant, part 2: no red node has a red left child (no two
consecutive red links on a left spine). -/
def noRedRedLeft : RBNode K V → Bool
  | .nil => true
  | .node _ _ l r c _ => !(c && isRed l) && noRedRedLeft l && noRedRedLeft r

/-- Number of black links on the path from a node down through left
children to an absent child (links to nil count as black). -/
def blackHeight : RBNode K V → Nat
  | .nil => 0
  | .node _ _ l _ _ _ => blackHeight l + (if isRed l then 0 else 1)

/-- §3 balance invariant, part 3: black-height uniformity — at every node,
the number of black links is the same along every path to an absent
child. -/
def bhOk : RBNode K V → Bool
  | .nil => true
  | .node _ _ l r _ _ =>
    bhOk l && bhOk r &&
      (blackHeight l + (if isRed l then 0 else 1) ==
       blackHeight r + (if isRed r then 0 else 1))

/-- The §3 data-model invariants taken together (root color excluded; it
is the subject of claim C2 separately). -/
def invariants (t : RBNode K V) : Bool :=
  ordered t && sizeOk t && noRedRight t && noRedRedLeft t && bhOk t

/-- A mutating public operation of the symbol table. -/
inductive Op (K V : Type) where
  | put (key : K) (val : V)
  | delete (key : K)
  | delMin
  | delMax

/-- Apply one public mutating operation to the tree; `none` means the Go
code panics (nil dereference). -/
def runOp (t : RBNode K V) : Op K V → Option (RBNode K V)
  | .put key val => some (Put t key val)
  | .delete key => (Delete t key).map Prod.fst
  | .delMin => (DelMin t).map Prod.fst
  | .delMax => (DelMax t).map Prod.fst

/-- Run a sequence of public mutating operations starting from the empty
tree produced by `NewRedBlackBST`. -/
def run (ops : List (Op K V)) : Option (RBNode K V) :=
  ops.foldlM runOp .nil

/-- Value-erasing skeleton of a tree: keys, colors, cached sizes and shape
only (the specification-side notion "nothing but a stored value changes",
used for the frame property of `put`). -/
def strip : RBNode K V → RBNode K Unit
  | .nil => .nil
  | .node k _ l r c sz => .node k () (strip l) (strip r) c sz

/-!  Left-leaning red-black validity (§3 of the spec, root color excluded),
as an inductive predicate indexed by root color and black-height: a red
node has two black children of equal index; a black node has a black right
child, a left child of either color, and increments the index.  `Bal`
ignores values and cached sizes (those are covered by `ordered`/`sizeOk`). -/

inductive Bal : RBNode K V → Bool → Nat → Prop where
  | nil : Bal .nil false 0
  | red {l r : RBNode K V} {k : K} {v : V} {n : Nat} {sz : Nat} :
      Bal l false n → Bal r false n → Bal (.node k v l r true sz) true n
  | black {l r : RBNode K V} {k : K} {v : V} {n : Nat} {cl : Bool} {sz : Nat} :
      Bal l cl n → Bal r false n → Bal (.node k v l r false sz) false (n + 1)

/-- A red-rooted tree whose left child is a valid red tree and whose right
child is a valid black tree of the same index: the transient shape produced
by `put` below a red parent, repaired by the caller's `balance`. -/
def RedRed (t : RBNode K V) (n : Nat) : Prop :=
  ∃ k v a b sz, t = RBNode.node k v a b true sz ∧ Bal a true n ∧ Bal b false n

theorem isRed_eq {t : RBNode K V} {c : Bool} {n : Nat} (h : Bal t c n) : isRed t = c := by
  cases h <;> rfl

@[simp] theorem red_eq_true : red = true := rfl

@[simp] theorem black_eq_false : black = false := rfl

@[simp] theorem isRed_nil : isRed (RBNode.nil : RBNode K V) = false := rfl

@[simp] theorem isRed_node {l r : RBNode K V} {k : K} {v : V} {c : Bool} {sz : Nat} :
    isRed (RBNode.node k v l r c sz) = c := rfl

@[simp] theorem left_nil : left (RBNode.nil : RBNode K V) = RBNode.nil := rfl

@[simp] theorem left_node {l r : RBNode K V} {k : K} {v : V} {c : Bool} {sz : Nat} :
    left (RBNode.node k v l r c sz) = l := rfl

@[simp] theorem right_nil : right (RBNode.nil : RBNode K V) = RBNode.nil := rfl

@[simp] theorem right_node {l r : RBNode K V} {k : K} {v : V} {c : Bool} {sz : Nat} :
    right (RBNode.node k v l r c sz) = r := rfl

@[simp] theorem withSize_node {l r : RBNode K V} {k : K} {v : V} {c : Bool} {sz m : Nat} :
    withSize (RBNode.node k v l r c sz) m = RBNode.node k v l r c m := rfl

theorem balance_node {l r : RBNode K V} {k : K} {v : V} {c : Bool} {sz : Nat} :
    balance (RBNode.node k v l r c sz) =
      (let n1 := if isRed r && !(isRed l) then rotateLeft (RBNode.node k v l r c sz)
                 else RBNode.node k v l r c sz
       let n2 := if isRed (left n1) && isRed (left (left n1)) then rotateRight n1 else n1
       let n3 := if isRed (left n2) && isRed (right n2) then flipColors n2 else n2
       withSize n3 (1 + size (left n3) + size (right n3))) := by
  simp only [balance, left_node, right_node]

theorem balance_rr {l r : RBNode K V} {k : K} {v : V} {n sz : Nat}
    (hl : Bal l false n) (hr : Bal r false n) :
    Bal (balance (.node k v l r true sz)) true n := by
  rw [balance_node]
  simp [isRed_eq hl, isRed_eq hr]
  exact Bal.red hl hr

theorem balance_bb {l r : RBNode K V} {k : K} {v : V} {cl : Bool} {n sz : Nat}
    (hl : Bal l cl n) (hr : Bal r false n) :
    Bal (balance (.node k v l r false sz)) false (n + 1) := by
  have h2 : (isRed l && isRed (left l)) = false := by
    cases hl with
    | nil => rfl
    | red hll hlr => simp [isRed_eq hll]
    | black hll hlr => simp
  rw [balance_node]
  simp [isRed_eq hr, h2]
  exact Bal.black hl hr

theorem balance_b_redright {l r : RBNode K V} {k : K} {v : V} {n sz : Nat}
    (hl : Bal l false n) (hr : Bal r true n) :
    Bal (balance (.node k v l r false sz)) false (n + 1) := by
  cases hr with
  | red hrl hrr =>
    rw [balance_node]
    simp [isRed_eq hl, isRed_eq hrl, isRed_eq hrr, rotateLeft]
    exact Bal.black (Bal.red hl hrl) hrr

theorem balance_b_redred {l r : RBNode K V} {k : K} {v : V} {n sz : Nat}
    (hl : Bal l true n) (hr : Bal r true n) :
    Bal (balance (.node k v l r false sz)) true (n + 1) := by
  cases hl with
  | red hll hlr =>
    cases hr with
    | red hrl hrr =>
      rw [balance_node]
      simp [isRed_eq hll, flipColors]
      exact Bal.red (Bal.black hll hlr) (Bal.black hrl hrr)

theorem balance_b_rrleft {l r : RBNode K V} {k : K} {v : V} {n sz : Nat}
    (hl : RedRed l n) (hr : Bal r false n) :
    Bal (balance (.node k v l r false sz)) true (n + 1) := by
  obtain ⟨lk, lv, a, b, ls, rfl, ha, hb⟩ := hl
  cases ha with
  | red hal har =>
    rw [balance_node]
    simp [isRed_eq hr, rotateRight, flipColors]
    exact Bal.red (Bal.black hal har) (Bal.black hb hr)

theorem balance_r_redleft {l r : RBNode K V} {k : K} {v : V} {n sz : Nat}
    (hl : Bal l true n) (hr : Bal r false n) :
    RedRed (balance (.node k v l r true sz)) n := by
  cases hl with
  | red hll hlr =>
    rw [balance_node]
    simp [isRed_eq hr, isRed_eq hll]
    exact ⟨_, _, _, _, _, rfl, Bal.red hll hlr, hr⟩

theorem balance_r_redright {l r : RBNode K V} {k : K} {v : V} {n sz : Nat}
    (hl : Bal l false n) (hr : Bal r true n) :
    RedRed (balance (.node k v l r true sz)) n := by
  cases hr with
  | red hrl hrr =>
    rw [balance_node]
    simp [isRed_eq hl, isRed_eq hrl, isRed_eq hrr, rotateLeft]
    exact ⟨_, _, _, _, _, rfl, Bal.red hl hrl, hrr⟩

theorem blacken_bal_black {t : RBNode K V} {n : Nat} (h : Bal t false n) : blacken t = t := by
  cases h <;> rfl

theorem blacken_bal_red {t : RBNode K V} {n : Nat} (h : Bal t true n) :
    Bal (blacken t) false (n + 1) := by
  cases h with
  | red hl hr => exact Bal.black hl hr

theorem blacken_redred {t : RBNode K V} {n : Nat} (h : RedRed t n) :
    Bal (blacken t) false (n + 1) := by
  obtain ⟨k, v, a, b, sz, rfl, ha, hb⟩ := h
  exact Bal.black ha hb

/-!  In-order listings: the structural transformations of the source
(`rotateLeft`, `rotateRight`, `flipColors`, `balance`, `moveRedLeft`,
`moveRedRight`) preserve the in-order listing of key-value pairs. -/

@[simp] theorem inorder_nil : inorder (RBNode.nil : RBNode K V) = [] := rfl

@[simp] theorem inorder_node {l r : RBNode K V} {k : K} {v : V} {c : Bool} {sz : Nat} :
    inorder (RBNode.node k v l r c sz) = inorder l ++ (k, v) :: inorder r := rfl

theorem inorder_withSize (t : RBNode K V) (m : Nat) : inorder (withSize t m) = inorder t := by
  cases t <;> rfl

theorem inorder_rotateLeft (t : RBNode K V) : inorder (rotateLeft t) = inorder t := by
  rcases t with _ | ⟨k, v, l, _ | ⟨rk, rv, rl, rr, rc, rs⟩, c, sz⟩ <;> simp [rotateLeft]

theorem inorder_rotateRight (t : RBNode K V) : inorder (rotateRight t) = inorder t := by
  rcases t with _ | ⟨k, v, _ | ⟨lk, lv, ll, lr, lc, ls⟩, r, c, sz⟩ <;> simp [rotateRight]

theorem inorder_flipColors (t : RBNode K V) : inorder (flipColors t) = inorder t := by
  rcases t with _ | ⟨k, v, _ | ⟨lk, lv, ll, lr, lc, ls⟩, _ | ⟨rk, rv, rl, rr, rc, rs⟩, c, sz⟩ <;>
    simp [flipColors]

theorem inorder_balance (t : RBNode K V) : inorder (balance t) = inorder t := by
  cases t with
  | nil => rfl
  | node k v l r c sz =>
    rw [balance_node]
    simp only [inorder_withSize, apply_ite inorder, inorder_rotateLeft, inorder_rotateRight,
      inorder_flipColors, ite_self]

theorem inorder_moveRedLeft {t m : RBNode K V} (h : moveRedLeft t = some m) :
    inorder m = inorder t := by
  rcases t with _ | ⟨k, v, _ | ⟨lk, lv, ll, lr, lc, ls⟩, _ | ⟨rk, rv, rl, rr, rc, rs⟩, c, sz⟩ <;>
    simp only [moveRedLeft] at h <;> try exact absurd h (by simp)
  split at h <;> cases h
  · rename_i hred
    rcases rl with _ | ⟨a, b, x, y, z, w⟩
    · exact absurd hred (by simp)
    · simp [rotateRight, rotateLeft, flipColors]
  · simp

theorem inorder_moveRedRight {t m : RBNode K V} (h : moveRedRight t = some m) :
    inorder m = inorder t := by
  rcases t with _ | ⟨k, v, _ | ⟨lk, lv, ll, lr, lc, ls⟩, _ | ⟨rk, rv, rl, rr, rc, rs⟩, c, sz⟩ <;>
    simp only [moveRedRight] at h <;> try exact absurd h (by simp)
  split at h <;> cases h
  · rename_i hred
    rcases ll with _ | ⟨a, b, x, y, z, w⟩
    · exact absurd hred (by simp)
    · simp [rotateRight, flipColors]
  · simp

theorem ne_nil_of_isRed {t : RBNode K V} (h : isRed t = true) : t ≠ .nil := by
  intro hq
  rw [hq] at h
  simp at h

theorem inorder_ne_nil {t : RBNode K V} (h : t ≠ .nil) : inorder t ≠ [] := by
  rcases t with _ | ⟨k, v, l, r, c, sz⟩
  · exact absurd rfl h
  · simp

/-- `min` returns the leftmost node; its key-value pair heads the in-order
listing. -/
theorem min_spec (t : RBNode K V) (ht : t ≠ .nil) :
    ∃ mk mv ml mr mc ms, min t = .node mk mv ml mr mc ms ∧
      (inorder t).head? = some (mk, mv) := by
  induction t with
  | nil => exact absurd rfl ht
  | node k v l r c sz ihl ihr =>
    rcases l with _ | ⟨lk, lv, ll, lr, lc, ls⟩
    · exact ⟨k, v, .nil, r, c, sz, rfl, rfl⟩
    · obtain ⟨mk, mv, ml, mr, mc, ms, hmin, hhead⟩ := ihl (by simp)
      refine ⟨mk, mv, ml, mr, mc, ms, ?_, ?_⟩
      · rw [show min (RBNode.node k v (RBNode.node lk lv ll lr lc ls) r c sz) =
            min (RBNode.node lk lv ll lr lc ls) from rfl]
        exact hmin
      · rw [inorder_node, List.head?_append_of_ne_nil]
        · exact hhead
        · exact inorder_ne_nil (by simp)

/-- Remove the first pair carrying the given key (specification-side; used
to state the effect of `delete` on the in-order listing). -/
def eraseKey (key : K) : List (K × V) → List (K × V)
  | [] => []
  | p :: rest => if p.1 = key then rest else p :: eraseKey key rest

/-!  Size-consistency is preserved by the structural transformations:
rotations and `balance` recompute the affected cached sizes. -/

@[simp] theorem sizeOk_nil : sizeOk (RBNode.nil : RBNode K V) = true := rfl

@[simp] theorem sizeOk_node {l r : RBNode K V} {k : K} {v : V} {c : Bool} {sz : Nat} :
    sizeOk (RBNode.node k v l r c sz) =
      ((sz == 1 + size l + size r) && sizeOk l && sizeOk r) := rfl

@[simp] theorem size_nil : size (RBNode.nil : RBNode K V) = 0 := rfl

@[simp] theorem size_node {l r : RBNode K V} {k : K} {v : V} {c : Bool} {sz : Nat} :
    size (RBNode.node k v l r c sz) = sz := rfl

/-- The children of the tree are size-consistent (the root's cached size is
unconstrained): the state of a node mid-rebalance. -/
def sizeOkBelow : RBNode K V → Prop
  | .nil => True
  | .node _ _ l r _ _ => sizeOk l = true ∧ sizeOk r = true

theorem sizeOkBelow_rotateLeft {t : RBNode K V} (h : sizeOkBelow t) :
    sizeOkBelow (rotateLeft t) := by
  rcases t with _ | ⟨k, v, l, _ | ⟨rk, rv, rl, rr, rc, rs⟩, c, sz⟩ <;>
    simp_all [rotateLeft, sizeOkBelow, sizeOk]

theorem sizeOkBelow_rotateRight {t : RBNode K V} (h : sizeOkBelow t) :
    sizeOkBelow (rotateRight t) := by
  rcases t with _ | ⟨k, v, _ | ⟨lk, lv, ll, lr, lc, ls⟩, r, c, sz⟩ <;>
    simp_all [rotateRight, sizeOkBelow, sizeOk]

theorem sizeOkBelow_flipColors {t : RBNode K V} (h : sizeOkBelow t) :
    sizeOkBelow (flipColors t) := by
  rcases t with _ | ⟨k, v, _ | ⟨lk, lv, ll, lr, lc, ls⟩, _ | ⟨rk, rv, rl, rr, rc, rs⟩, c, sz⟩ <;>
    simp_all [flipColors, sizeOkBelow, sizeOk]

theorem sizeOk_withSize_recompute {t : RBNode K V} (h : sizeOkBelow t) :
    sizeOk (withSize t (1 + size (left t) + size (right t))) = true := by
  rcases t with _ | ⟨k, v, l, r, c, sz⟩
  · rfl
  · simp_all [withSize, sizeOkBelow]

theorem sizeOkBelow_ite {c : Prop} [Decidable c] {f : RBNode K V → RBNode K V}
    (hf : ∀ t, sizeOkBelow t → sizeOkBelow (f t)) {t : RBNode K V} (h : sizeOkBelow t) :
    sizeOkBelow (if c then f t else t) := by
  split
  · exact hf t h
  · exact h

theorem sizeOk_balance {l r : RBNode K V} {k : K} {v : V} {c : Bool} {sz : Nat}
    (hl : sizeOk l = true) (hr : sizeOk r = true) :
    sizeOk (balance (.node k v l r c sz)) = true := by
  rw [balance_node]
  apply sizeOk_withSize_recompute
  exact sizeOkBelow_ite (fun _ => sizeOkBelow_flipColors)
    (sizeOkBelow_ite (fun _ => sizeOkBelow_rotateRight)
      (sizeOkBelow_ite (fun _ => sizeOkBelow_rotateLeft) ⟨hl, hr⟩))

theorem sizeOk_moveRedLeft {t m : RBNode K V} (h : moveRedLeft t = some m)
    (ht : sizeOk t = true) : sizeOk m = true := by
  rcases t with _ | ⟨k, v, _ | ⟨lk, lv, ll, lr, lc, ls⟩, _ | ⟨rk, rv, rl, rr, rc, rs⟩, c, sz⟩ <;>
    simp only [moveRedLeft] at h <;> try exact absurd h (by simp)
  split at h <;> cases h
  · rename_i hred
    rcases rl with _ | ⟨a, b, x, y, z, w⟩
    · exact absurd hred (by simp)
    · simp at ht
      simp [rotateRight, rotateLeft, flipColors, sizeOk]
      obtain ⟨⟨h1, ⟨h2, h3⟩, h4⟩, ⟨h5, ⟨h6, h7⟩, h8⟩, h9⟩ := ht
      exact ⟨⟨by omega, ⟨⟨h2, h3⟩, h4⟩, h7⟩, h8, h9⟩
  · simp at ht
    simp [sizeOk]
    exact ht

theorem sizeOk_moveRedRight {t m : RBNode K V} (h : moveRedRight t = some m)
    (ht : sizeOk t = true) : sizeOk m = true := by
  rcases t with _ | ⟨k, v, _ | ⟨lk, lv, ll, lr, lc, ls⟩, _ | ⟨rk, rv, rl, rr, rc, rs⟩, c, sz⟩ <;>
    simp only [moveRedRight] at h <;> try exact absurd h (by simp)
  split at h <;> cases h
  · rename_i hred
    rcases ll with _ | ⟨a, b, x, y, z, w⟩
    · exact absurd hred (by simp)
    · simp at ht
      simp [rotateRight, flipColors, sizeOk]
      obtain ⟨⟨h1, ⟨h2, ⟨h3, h4⟩, h5⟩, h6⟩, ⟨h7, h8⟩, h9⟩ := ht
      exact ⟨⟨by omega, ⟨h3, h4⟩, h5⟩, h6, ⟨h7, h8⟩, h9⟩
  · simp at ht
    simp [sizeOk]
    exact ht

/-!  The canonical comparator decides the order. -/

theorem compare_lt_iff [LinearOrder K] {a b : K} : compare a b < 0 ↔ a < b := by
  unfold compare
  split_ifs with h1 h2
  · simp [h1]
  · simp [h1]
  · simp [h1]

theorem compare_gt_iff [LinearOrder K] {a b : K} : compare a b > 0 ↔ b < a := by
  unfold compare
  split_ifs with h1 h2
  · simp [lt_asymm h1]
  · simp [gt_iff_lt] at h2
    simp [h2]
  · simp [gt_iff_lt] at h2
    simp [h2]

theorem compare_eq_zero_iff [LinearOrder K] {a b : K} : compare a b = 0 ↔ a = b := by
  unfold compare
  split_ifs with h1 h2
  · simp [ne_of_lt h1]
  · simp [gt_iff_lt] at h2
    simp [(ne_of_lt h2).symm]
  · simp [gt_iff_lt] at h2
    simp [le_antisymm h2 (not_lt.mp h1)]

/-!  List helpers for sorted in-order listings. -/

theorem tail_append {A B : List (K × V)} (h : A ≠ []) : (A ++ B).tail = A.tail ++ B := by
  cases A with
  | nil => exact absurd rfl h
  | cons p rest => simp

theorem dropLast_append {A B : List (K × V)} (h : B ≠ []) :
    (A ++ B).dropLast = A ++ B.dropLast := by
  induction A with
  | nil => rfl
  | cons p rest ih =>
    cases rest with
    | nil =>
      cases B with
      | nil => exact absurd rfl h
      | cons q B2 => simp
    | cons q rest2 => simpa using ih

theorem eraseKey_append_left [DecidableEq K] {key : K} {A B : List (K × V)}
    (h : key ∈ A.map Prod.fst) : eraseKey key (A ++ B) = eraseKey key A ++ B := by
  induction A with
  | nil => simp at h
  | cons p rest ih =>
    by_cases hp : p.1 = key
    · simp [eraseKey, hp]
    · simp only [List.map_cons, List.mem_cons] at h
      rcases h with h | h
      · exact absurd h.symm hp
      · simp [eraseKey, hp, ih h]

theorem eraseKey_append_right [DecidableEq K] {key : K} {A B : List (K × V)}
    (h : ∀ p ∈ A, p.1 ≠ key) : eraseKey key (A ++ B) = A ++ eraseKey key B := by
  induction A with
  | nil => simp
  | cons p rest ih =>
    simp only [List.mem_cons] at h
    simp [eraseKey, h p (Or.inl rfl), ih fun q hq => h q (Or.inr hq)]

/-!  `Bal` inversion helpers. -/

theorem bal_black_zero {t : RBNode K V} (h : Bal t false 0) : t = .nil := by
  cases h
  rfl

theorem bal_node_black_pos {l r : RBNode K V} {k : K} {v : V} {sz : Nat} {n : Nat}
    (h : Bal (RBNode.node k v l r false sz) false n) : ∃ m, n = m + 1 := by
  cases h
  exact ⟨_, rfl⟩

theorem bal_black_succ_shape {t : RBNode K V} {n : Nat} (h : Bal t false (n + 1)) :
    ∃ k v l r sz, t = RBNode.node k v l r false sz := by
  cases h
  exact ⟨_, _, _, _, _, rfl⟩

theorem bal_red_shape {t : RBNode K V} {n : Nat} (h : Bal t true n) :
    ∃ k v l r sz, t = RBNode.node k v l r true sz ∧ Bal l false n ∧ Bal r false n := by
  cases h with
  | red hl hr => exact ⟨_, _, _, _, _, rfl, hl, hr⟩

theorem bal_black_node_inv {l r : RBNode K V} {k : K} {v : V} {sz n : Nat}
    (h : Bal (RBNode.node k v l r false sz) false n) :
    ∃ m cl, n = m + 1 ∧ Bal l cl m ∧ Bal r false m := by
  cases h with
  | black hl hr => exact ⟨_, _, rfl, hl, hr⟩

theorem bal_red_node_inv {l r : RBNode K V} {k : K} {v : V} {c : Bool} {sz n : Nat}
    (h : Bal (RBNode.node k v l r c sz) true n) :
    c = true ∧ Bal l false n ∧ Bal r false n := by
  cases h with
  | red hl hr => exact ⟨rfl, hl, hr⟩

/-!  The effect of `moveRedLeft` / `moveRedRight` on a valid red-rooted
tree whose about-to-be-visited child is a 2-node.  The result `m` is either
a black-rooted node with two valid red children of index `n` (from a color
flip alone, temporarily violating the no-red-right rule at the root), or a
valid red-rooted node of index `n+1` whose left child has a red left child
(after rotating through the sibling). -/

/-- Black root with two valid red children of equal index (flip result). -/
def CfgFlip (m : RBNode K V) (n : Nat) : Prop :=
  ∃ k1 v1 l1 r1 s1, m = RBNode.node k1 v1 l1 r1 false s1 ∧ Bal l1 true n ∧ Bal r1 true n

/-- Valid red root whose left child is black with a red left child. -/
def CfgRedLL (m : RBNode K V) (n : Nat) : Prop :=
  ∃ k1 v1 l1 r1 s1, m = RBNode.node k1 v1 l1 r1 true s1 ∧
    Bal l1 false n ∧ isRed (left l1) = true ∧ Bal r1 false n

/-- Black root whose left child is valid black and whose right child is
valid red, of equal index (the `rotateRight` shape fed to the right-hand
recursion of `delMax`/`delete`). -/
def CfgD3 (m : RBNode K V) (n : Nat) : Prop :=
  ∃ k1 v1 l1 r1 s1, m = RBNode.node k1 v1 l1 r1 false s1 ∧ Bal l1 false n ∧ Bal r1 true n

/-- Valid red root whose right child is a `CfgD3` shape one index down
(produced by `moveRedRight` when the left-left grandchild is red). -/
def CfgRedD3 (m : RBNode K V) (n : Nat) : Prop :=
  ∃ k1 v1 l1 r1 s1, m = RBNode.node k1 v1 l1 r1 true s1 ∧
    Bal l1 false n ∧ CfgD3 r1 (n - 1) ∧ 1 ≤ n

theorem moveRedLeft_bal (k : K) (v : V) (sz : Nat) {l r : RBNode K V} {n : Nat}
    (hl : Bal l false (n + 1)) (hr : Bal r false (n + 1)) (hll : isRed (left l) = false) :
    ∃ m, moveRedLeft (.node k v l r true sz) = some m ∧
      inorder m = inorder (RBNode.node k v l r true sz) ∧
      (∃ E, inorder (left m) = inorder l ++ E) ∧
      (CfgFlip m n ∨ CfgRedLL m (n + 1)) := by
  obtain ⟨lk, lv, ll, lr, ls, rfl⟩ := bal_black_succ_shape hl
  obtain ⟨rk, rv, rl, rr, rs, rfl⟩ := bal_black_succ_shape hr
  obtain ⟨m1, cl, hn1, hbll, hblr⟩ := bal_black_node_inv hl
  obtain ⟨m2, cr, hn2, hbrl, hbrr⟩ := bal_black_node_inv hr
  have e1 := Nat.succ_injective hn1
  subst e1
  have e2 := Nat.succ_injective hn2
  subst e2
  obtain rfl : cl = false := by simpa [isRed_eq hbll] using hll
  rcases cr with _ | _
  · -- node.right.left is black: flip only
    refine ⟨RBNode.node k v (RBNode.node lk lv ll lr true ls)
      (RBNode.node rk rv rl rr true rs) false sz, ?_, by simp, ⟨[], by simp⟩, Or.inl ?_⟩
    · simp [moveRedLeft, isRed_eq hbrl]
    · exact ⟨_, _, _, _, _, rfl, Bal.red hbll hblr, Bal.red hbrl hbrr⟩
  · -- node.right.left is red: rotate through
    obtain ⟨rlk, rlv, rll, rlr, rls, rfl, hbrll, hbrlr⟩ := bal_red_shape hbrl
    refine ⟨flipColors (rotateLeft (.node k v (.node lk lv ll lr true ls)
        (rotateRight (.node rk rv (.node rlk rlv rll rlr true rls) rr true rs)) false sz)),
      ?_, ?_, ⟨(k, v) :: inorder rll, by simp [rotateRight, rotateLeft, flipColors]⟩,
      Or.inr ?_⟩
    · simp [moveRedLeft]
    · simp [rotateRight, rotateLeft, flipColors]
    · exact ⟨_, _, _, _, _, rfl,
        Bal.black (Bal.red hbll hblr) hbrll, by simp, Bal.black hbrlr hbrr⟩

theorem moveRedRight_bal (k : K) (v : V) (sz : Nat) {l r : RBNode K V} {n : Nat}
    (hl : Bal l false (n + 1)) (hr : Bal r false (n + 1)) (hrl : isRed (left r) = false) :
    ∃ m, moveRedRight (.node k v l r true sz) = some m ∧
      inorder m = inorder (RBNode.node k v l r true sz) ∧
      (CfgFlip m n ∨ CfgRedD3 m (n + 1)) := by
  obtain ⟨lk, lv, ll, lr, ls, rfl⟩ := bal_black_succ_shape hl
  obtain ⟨rk, rv, rl, rr, rs, rfl⟩ := bal_black_succ_shape hr
  obtain ⟨m1, cl, hn1, hbll, hblr⟩ := bal_black_node_inv hl
  obtain ⟨m2, cr, hn2, hbrl, hbrr⟩ := bal_black_node_inv hr
  have e1 := Nat.succ_injective hn1
  subst e1
  have e2 := Nat.succ_injective hn2
  subst e2
  obtain rfl : cr = false := by simpa [isRed_eq hbrl] using hrl
  rcases cl with _ | _
  · -- node.left.left is black: flip only
    refine ⟨RBNode.node k v (RBNode.node lk lv ll lr true ls)
      (RBNode.node rk rv rl rr true rs) false sz, ?_, by simp, Or.inl ?_⟩
    · simp [moveRedRight, isRed_eq hbll]
    · exact ⟨_, _, _, _, _, rfl, Bal.red hbll hblr, Bal.red hbrl hbrr⟩
  · -- node.left.left is red: rotate right and flip again
    obtain ⟨llk, llv, lll, llr, lls, rfl, hblll, hbllr⟩ := bal_red_shape hbll
    refine ⟨flipColors (rotateRight (.node k v
        (.node lk lv (.node llk llv lll llr true lls) lr true ls)
        (.node rk rv rl rr true rs) false sz)), ?_, ?_, Or.inr ?_⟩
    · simp [moveRedRight]
    · simp [rotateRight, flipColors]
    · refine ⟨_, _, _, _, _, rfl, Bal.black hblll hbllr, ?_, by omega⟩
      show CfgD3 _ (n + 1 - 1)
      have he : n + 1 - 1 = n := rfl
      rw [he]
      exact ⟨_, _, _, _, _, rfl, hblr, Bal.red hbrl hbrr⟩

/-!  Reduction lemmas: resolve the guards of `delMin` so that the main
induction can rewrite with hypothesis equations. -/

theorem delMin_step_skip {k : K} {v : V} {lk : K} {lv : V} {ll lr r : RBNode K V}
    {lc : Bool} {ls sz : Nat} {c : Bool}
    (hcond : (!(isRed (RBNode.node lk lv ll lr lc ls)) && !(isRed ll)) = false) :
    delMin (.node k v (.node lk lv ll lr lc ls) r c sz) =
      match delMin (RBNode.node lk lv ll lr lc ls) with
      | none => none
      | some l2 => some (balance (.node k v l2 r c sz)) := by
  have hcond2 : ¬((!(isRed (RBNode.node lk lv ll lr lc ls)) && !(isRed ll)) = true) := by
    rw [hcond]
    simp
  rw [delMin]
  split
  · rename_i h1
    rw [if_neg hcond2] at h1
    exact absurd h1 (by simp)
  · rename_i n1 h1
    rw [if_neg hcond2] at h1
    cases h1
    simp only [left_node, setLeft]

theorem delMin_step_mrl {k : K} {v : V} {lk : K} {lv : V} {ll lr r : RBNode K V}
    {lc : Bool} {ls sz : Nat} {c : Bool} {n1 : RBNode K V}
    (hcond : (!(isRed (RBNode.node lk lv ll lr lc ls)) && !(isRed ll)) = true)
    (hmrl : moveRedLeft (.node k v (.node lk lv ll lr lc ls) r c sz) = some n1) :
    delMin (.node k v (.node lk lv ll lr lc ls) r c sz) =
      match delMin (left n1) with
      | none => none
      | some l2 => some (balance (setLeft n1 l2)) := by
  rw [delMin]
  split
  · rename_i h1
    rw [if_pos hcond] at h1
    rw [hmrl] at h1
    exact absurd h1 (by simp)
  · rename_i n1' h1
    rw [if_pos hcond, hmrl] at h1
    cases h1
    rfl

/--  The central invariant-preservation property of `delMin`: on a valid
red-rooted tree of index `n` it succeeds and returns a valid tree of index
`n` (either color), and on a valid black-rooted tree with a red left child
it succeeds and returns a valid black-rooted tree of the same index; in
both cases the smallest pair is removed. -/
theorem delMin_bal : ∀ (N : Nat) (t : RBNode K V), numNodes t ≤ N → ∀ n : Nat,
    (Bal t true n → ∃ t', delMin t = some t' ∧ (∃ c', Bal t' c' n) ∧
      inorder t' = (inorder t).tail) ∧
    (Bal t false n → isRed (left t) = true → ∃ t', delMin t = some t' ∧ Bal t' false n ∧
      inorder t' = (inorder t).tail) := by
  intro N
  induction N with
  | zero =>
    intro t hle n
    have ht : t = .nil := by
      rcases t with _ | ⟨k, v, l, r, c, sz⟩
      · rfl
      · simp [numNodes] at hle
    subst ht
    constructor
    · intro h
      cases h
    · intro h hred
      simp at hred
  | succ N ihN =>
    intro t hle n
    constructor
    · -- part 1: valid red root
      intro h
      obtain ⟨k, v, l, r, sz, rfl, hl, hr⟩ := bal_red_shape h
      rcases l with _ | ⟨lk, lv, ll, lr, lc, ls⟩
      · -- left nil forces n = 0 and right nil
        cases hl
        have hrnil := bal_black_zero hr
        subst hrnil
        exact ⟨.nil, by rw [delMin], ⟨false, Bal.nil⟩, by simp⟩
      · obtain rfl : lc = false := by simpa using isRed_eq hl
        obtain ⟨m, clc, hn, hbll, hblr⟩ := bal_black_node_inv hl
        subst hn
        have hlsize : numNodes (RBNode.node lk lv ll lr false ls) ≤ N := by
          simp only [numNodes] at hle ⊢
          omega
        rcases hll : isRed ll with _ | _
        · -- left child and its left child are black: moveRedLeft
          have hcond : (!(isRed (RBNode.node lk lv ll lr false ls)) && !(isRed ll)) = true := by
            simp [hll]
          obtain ⟨m1, hmrl, hio1, hEx, hcfg⟩ :=
            moveRedLeft_bal k v sz hl hr hll
          rw [delMin_step_mrl hcond hmrl]
          rcases hcfg with ⟨k1, v1, l1, r1, s1, rfl, hbl1, hbr1⟩ |
            ⟨k1, v1, l1, r1, s1, rfl, hbl1, hredl1, hbr1⟩
          · -- flip configuration: recurse into a valid red left child
            have hsz1 : numNodes l1 ≤ N := by
              have e := numNodes_moveRedLeft _ _ hmrl
              simp only [numNodes] at e hle ⊢
              omega
            obtain ⟨l2, hdl, ⟨c2, hbl2⟩, hio2⟩ := ((ihN l1 hsz1 m).1 hbl1)
            simp only [left_node]
            rw [hdl]
            simp only [setLeft]
            refine ⟨_, rfl, ?_, ?_⟩
            · rcases c2 with _ | _
              · exact ⟨_, balance_b_redright hbl2 hbr1⟩
              · exact ⟨_, balance_b_redred hbl2 hbr1⟩
            · rw [inorder_balance, inorder_node, hio2]
              conv_rhs => rw [← hio1, inorder_node]
              rw [tail_append (inorder_ne_nil (ne_nil_of_isRed (isRed_eq hbl1)))]
          · -- rotate-through configuration: valid red root, left child black
            -- with a red left child
            have hsz1 : numNodes l1 ≤ N := by
              have e := numNodes_moveRedLeft _ _ hmrl
              simp only [numNodes] at e hle ⊢
              omega
            obtain ⟨l2, hdl, hbl2, hio2⟩ := ((ihN l1 hsz1 (m + 1)).2 hbl1 hredl1)
            simp only [left_node]
            rw [hdl]
            simp only [setLeft]
            refine ⟨_, rfl, ⟨true, balance_rr hbl2 hbr1⟩, ?_⟩
            have hl1nil : l1 ≠ RBNode.nil := by
              intro hq
              rw [hq] at hredl1
              simp at hredl1
            rw [inorder_balance, inorder_node, hio2]
            conv_rhs => rw [← hio1, inorder_node]
            rw [tail_append (inorder_ne_nil hl1nil)]
        · -- left child black but its left child red: no moveRedLeft
          have hcond : (!(isRed (RBNode.node lk lv ll lr false ls)) && !(isRed ll)) = false := by
            simp [hll]
          rw [delMin_step_skip hcond]
          obtain ⟨l2, hdl, hbl2, hio2⟩ :=
            ((ihN (RBNode.node lk lv ll lr false ls) hlsize (m + 1)).2 hl (by simp [hll]))
          rw [hdl]
          refine ⟨_, rfl, ⟨true, balance_rr hbl2 hr⟩, ?_⟩
          rw [inorder_balance, inorder_node, hio2]
          conv_rhs => rw [inorder_node]
          rw [tail_append (inorder_ne_nil (by simp))]
    · -- part 2: valid black root with red left child
      intro h hred
      rcases t with _ | ⟨k, v, l, r, c, sz⟩
      · simp at hred
      obtain rfl : c = false := by simpa using isRed_eq h
      obtain ⟨m, clc, hn, hbl, hbr⟩ := bal_black_node_inv h
      subst hn
      obtain rfl : clc = true := by simpa [isRed_eq hbl] using hred
      obtain ⟨lk, lv, ll, lr, ls, rfl, hbll, hblr⟩ := bal_red_shape hbl
      have hcond : (!(isRed (RBNode.node lk lv ll lr true ls)) && !(isRed ll)) = false := by
        simp
      rw [delMin_step_skip hcond]
      have hlsize : numNodes (RBNode.node lk lv ll lr true ls) ≤ N := by
        simp only [numNodes] at hle ⊢
        omega
      obtain ⟨l2, hdl, ⟨c2, hbl2⟩, hio2⟩ :=
        ((ihN (RBNode.node lk lv ll lr true ls) hlsize m).1 hbl)
      rw [hdl]
      refine ⟨_, rfl, balance_bb hbl2 hbr, ?_⟩
      rw [inorder_balance, inorder_node, hio2]
      conv_rhs => rw [inorder_node]
      rw [tail_append (inorder_ne_nil (by simp))]

theorem dropLast_cons_of_ne_nil {p : K × V} {L : List (K × V)} (h : L ≠ []) :
    (p :: L).dropLast = p :: L.dropLast := by
  cases L with
  | nil => exact absurd rfl h
  | cons q M => rfl

/-!  Reduction lemmas for `delMax`. -/

theorem delMax_eq_rightnil {l r : RBNode K V} {k : K} {v : V} {c : Bool} {sz : Nat}
    {k0 : K} {v0 : V} {l0 : RBNode K V} {c0 : Bool} {s0 : Nat}
    (hrot : (if isRed l then rotateRight (RBNode.node k v l r c sz)
             else RBNode.node k v l r c sz) = RBNode.node k0 v0 l0 .nil c0 s0) :
    delMax (RBNode.node k v l r c sz) = some .nil := by
  rw [delMax]
  split
  · rename_i h0
    rw [hrot] at h0
    exact absurd h0 (by simp)
  · rename_i k0' v0' l0' r0' c0' s0' h0
    rw [hrot] at h0
    injection h0 with e1 e2 e3 e4 e5 e6
    subst e4
    rfl

theorem delMax_step {l r : RBNode K V} {k : K} {v : V} {c : Bool} {sz : Nat}
    {k0 rk : K} {v0 rv : V} {l0 rl rr : RBNode K V} {c0 rc : Bool} {s0 rs : Nat}
    {n1 : RBNode K V}
    (hrot : (if isRed l then rotateRight (RBNode.node k v l r c sz)
             else RBNode.node k v l r c sz) =
      RBNode.node k0 v0 l0 (RBNode.node rk rv rl rr rc rs) c0 s0)
    (hif : (if !(isRed (RBNode.node rk rv rl rr rc rs)) && !(isRed rl) then
              moveRedRight (.node k0 v0 l0 (.node rk rv rl rr rc rs) c0 s0)
            else some (.node k0 v0 l0 (.node rk rv rl rr rc rs) c0 s0)) = some n1) :
    delMax (RBNode.node k v l r c sz) =
      match delMax (right n1) with
      | none => none
      | some r2 => some (balance (setRight n1 r2)) := by
  rw [delMax]
  split
  · rename_i h0
    rw [hrot] at h0
    exact absurd h0 (by simp)
  · rename_i k0' v0' l0' r0' c0' s0' h0
    rw [hrot] at h0
    injection h0 with e1 e2 e3 e4 e5 e6
    subst e1
    subst e2
    subst e3
    subst e5
    subst e6
    subst e4
    split
    · rename_i heq hh
      exact absurd heq (by simp)
    · rename_i rk2 rv2 rl2 rr2 rc2 rs2 h02 heq hh
      injection heq with f1 f2 f3 f4 f5 f6
      subst f1
      subst f2
      subst f3
      subst f4
      subst f5
      subst f6
      split
      · rename_i h1
        rw [hif] at h1
        exact absurd h1 (by simp)
      · rename_i n1' h1
        rw [hif] at h1
        cases h1
        rfl

/--  The central invariant-preservation property of `delMax`: as for
`delMin`, plus a third mode for the transient shape with a black root, a
valid black left child and a valid red right child of equal index. -/
theorem delMax_bal : ∀ (N : Nat) (t : RBNode K V), numNodes t ≤ N → ∀ n : Nat,
    (Bal t true n → ∃ t', delMax t = some t' ∧ (∃ c', Bal t' c' n) ∧
      inorder t' = (inorder t).dropLast) ∧
    (Bal t false n → isRed (left t) = true → ∃ t', delMax t = some t' ∧ Bal t' false n ∧
      inorder t' = (inorder t).dropLast) ∧
    (∀ (k : K) (v : V) (a b : RBNode K V) (sz : Nat), t = RBNode.node k v a b false sz →
      Bal a false n → Bal b true n → ∃ t', delMax t = some t' ∧ Bal t' false (n + 1) ∧
      inorder t' = (inorder t).dropLast) := by
  intro N
  induction N with
  | zero =>
    intro t hle n
    have ht : t = .nil := by
      rcases t with _ | ⟨k, v, l, r, c, sz⟩
      · rfl
      · simp [numNodes] at hle
    subst ht
    refine ⟨?_, ?_, ?_⟩
    · intro h
      cases h
    · intro h hred
      simp at hred
    · intro k v a b sz he
      cases he
  | succ N ihN =>
    intro t hle n
    refine ⟨?_, ?_, ?_⟩
    · -- part 1: valid red root
      intro h
      obtain ⟨k, v, l, r, sz, rfl, hl, hr⟩ := bal_red_shape h
      have hlred : isRed l = false := isRed_eq hl
      have hrot : (if isRed l then rotateRight (RBNode.node k v l r true sz)
          else RBNode.node k v l r true sz) = RBNode.node k v l r true sz := by
        rw [hlred]
        simp
      rcases r with _ | ⟨rk, rv, rl, rr, rc, rs⟩
      · -- right nil forces n = 0 and left nil
        cases hr
        have hlnil := bal_black_zero hl
        subst hlnil
        exact ⟨.nil, delMax_eq_rightnil hrot, ⟨false, Bal.nil⟩, by simp⟩
      · obtain rfl : rc = false := by simpa using isRed_eq hr
        obtain ⟨m, crl, hn, hbrl, hbrr⟩ := bal_black_node_inv hr
        subst hn
        have hrsize : numNodes (RBNode.node rk rv rl rr false rs) ≤ N := by
          simp only [numNodes] at hle ⊢
          omega
        rcases hrl : isRed rl with _ | _
        · -- right child and its left child black: moveRedRight
          have hcond : (!(isRed (RBNode.node rk rv rl rr false rs)) && !(isRed rl)) = true := by
            simp [hrl]
          obtain ⟨m1, hmrr, hio1, hcfg⟩ := moveRedRight_bal k v sz hl hr hrl
          have hif : (if !(isRed (RBNode.node rk rv rl rr false rs)) && !(isRed rl) then
              moveRedRight (.node k v l (.node rk rv rl rr false rs) true sz)
            else some (.node k v l (.node rk rv rl rr false rs) true sz)) = some m1 := by
            rw [if_pos hcond, hmrr]
          rw [delMax_step hrot hif]
          rcases hcfg with ⟨k1, v1, l1, r1, s1, rfl, hbl1, hbr1⟩ |
            ⟨k1, v1, l1, r1, s1, rfl, hbl1, hd3, hge⟩
          · -- flip configuration: recurse into a valid red right child
            have hsz1 : numNodes r1 ≤ N := by
              have e := numNodes_moveRedRight _ _ hmrr
              simp only [numNodes] at e hle ⊢
              omega
            obtain ⟨r2, hdr, ⟨c2, hbr2⟩, hio2⟩ := ((ihN r1 hsz1 m).1 hbr1)
            simp only [right_node]
            rw [hdr]
            simp only [setRight]
            have hr1ne : r1 ≠ RBNode.nil := ne_nil_of_isRed (isRed_eq hbr1)
            refine ⟨_, rfl, ?_, ?_⟩
            · rcases c2 with _ | _
              · exact ⟨_, balance_bb hbl1 hbr2⟩
              · exact ⟨_, balance_b_redred hbl1 hbr2⟩
            · rw [inorder_balance, inorder_node, hio2]
              conv_rhs => rw [← hio1, inorder_node,
                dropLast_append (List.cons_ne_nil _ _),
                dropLast_cons_of_ne_nil (inorder_ne_nil hr1ne)]
          · -- rotate configuration: valid red root over a D3 right child
            obtain ⟨k2, v2, a2, b2, s2, rfl, ha2, hb2⟩ := hd3
            have hsz1 : numNodes (RBNode.node k2 v2 a2 b2 false s2) ≤ N := by
              have e := numNodes_moveRedRight _ _ hmrr
              simp only [numNodes] at e hle ⊢
              omega
            have hmm : m + 1 - 1 = m := rfl
            rw [hmm] at ha2 hb2
            obtain ⟨r2, hdr, hbr2, hio2⟩ :=
              ((ihN (RBNode.node k2 v2 a2 b2 false s2) hsz1 m).2.2 k2 v2 a2 b2 s2 rfl ha2 hb2)
            simp only [right_node]
            rw [hdr]
            simp only [setRight]
            refine ⟨_, rfl, ⟨true, balance_rr hbl1 hbr2⟩, ?_⟩
            rw [inorder_balance, inorder_node, hio2]
            conv_rhs => rw [← hio1, inorder_node,
              dropLast_append (List.cons_ne_nil _ _),
              dropLast_cons_of_ne_nil (inorder_ne_nil (by simp))]
        · -- right child black but its left child red: no moveRedRight
          have hif : (if !(isRed (RBNode.node rk rv rl rr false rs)) && !(isRed rl) then
              moveRedRight (.node k v l (.node rk rv rl rr false rs) true sz)
            else some (.node k v l (.node rk rv rl rr false rs) true sz)) =
              some (.node k v l (.node rk rv rl rr false rs) true sz) := by
            rw [if_neg (by simp [hrl])]
          rw [delMax_step hrot hif]
          obtain ⟨r2, hdr, hbr2, hio2⟩ :=
            ((ihN (RBNode.node rk rv rl rr false rs) hrsize (m + 1)).2.1 hr (by simp [hrl]))
          simp only [right_node]
          rw [hdr]
          simp only [setRight]
          refine ⟨_, rfl, ⟨true, balance_rr hl hbr2⟩, ?_⟩
          rw [inorder_balance, inorder_node, hio2]
          conv_rhs => rw [inorder_node,
            dropLast_append (List.cons_ne_nil _ _),
            dropLast_cons_of_ne_nil (inorder_ne_nil (by simp))]
    · -- part 2: valid black root with red left child
      intro h hred
      rcases t with _ | ⟨k, v, l, r, c, sz⟩
      · simp at hred
      obtain rfl : c = false := by simpa using isRed_eq h
      obtain ⟨m, clc, hn, hbl, hbr⟩ := bal_black_node_inv h
      subst hn
      obtain rfl : clc = true := by simpa [isRed_eq hbl] using hred
      obtain ⟨lk, lv, ll, lr, ls, rfl, hbll, hblr⟩ := bal_red_shape hbl
      have hrot : (if isRed (RBNode.node lk lv ll lr true ls) then
          rotateRight (RBNode.node k v (RBNode.node lk lv ll lr true ls) r false sz)
          else RBNode.node k v (RBNode.node lk lv ll lr true ls) r false sz) =
          RBNode.node lk lv ll
            (RBNode.node k v lr r true (1 + size lr + size r)) false sz := by
        simp [rotateRight]
      have hif : (if !(isRed (RBNode.node k v lr r true (1 + size lr + size r))) &&
            !(isRed lr) then
          moveRedRight (.node lk lv ll
            (.node k v lr r true (1 + size lr + size r)) false sz)
        else some (.node lk lv ll
            (.node k v lr r true (1 + size lr + size r)) false sz)) =
          some (.node lk lv ll
            (.node k v lr r true (1 + size lr + size r)) false sz) := by
        rw [if_neg (by simp)]
      rw [delMax_step hrot hif]
      have hinner : Bal (RBNode.node k v lr r true (1 + size lr + size r)) true m :=
        Bal.red hblr hbr
      have hsz1 : numNodes (RBNode.node k v lr r true (1 + size lr + size r)) ≤ N := by
        simp only [numNodes] at hle ⊢
        omega
      obtain ⟨r2, hdr, ⟨c2, hbr2⟩, hio2⟩ :=
        ((ihN (RBNode.node k v lr r true (1 + size lr + size r)) hsz1 m).1 hinner)
      simp only [right_node]
      rw [hdr]
      simp only [setRight]
      refine ⟨_, rfl, ?_, ?_⟩
      · rcases c2 with _ | _
        · exact balance_bb hbll hbr2
        · exact balance_b_redright hbll hbr2
      · rw [inorder_node] at hio2
        rw [inorder_balance, inorder_node, hio2]
        conv_rhs => rw [inorder_node, inorder_node, List.append_assoc, List.cons_append,
          dropLast_append (List.cons_ne_nil _ _), dropLast_cons_of_ne_nil (by simp)]
    · -- part 3: black root, valid black left child, valid red right child
      intro k v a b sz he ha hb
      subst he
      have hrot : (if isRed a then rotateRight (RBNode.node k v a b false sz)
          else RBNode.node k v a b false sz) = RBNode.node k v a b false sz := by
        rw [isRed_eq ha]
        simp
      obtain ⟨bk, bv, bl, br, bs, rfl, hbbl, hbbr⟩ := bal_red_shape hb
      have hif : (if !(isRed (RBNode.node bk bv bl br true bs)) && !(isRed bl) then
          moveRedRight (.node k v a (.node bk bv bl br true bs) false sz)
        else some (.node k v a (.node bk bv bl br true bs) false sz)) =
          some (.node k v a (.node bk bv bl br true bs) false sz) := by
        rw [if_neg (by simp)]
      rw [delMax_step hrot hif]
      have hsz1 : numNodes (RBNode.node bk bv bl br true bs) ≤ N := by
        simp only [numNodes] at hle ⊢
        omega
      obtain ⟨r2, hdr, ⟨c2, hbr2⟩, hio2⟩ :=
        ((ihN (RBNode.node bk bv bl br true bs) hsz1 n).1 hb)
      simp only [right_node]
      rw [hdr]
      simp only [setRight]
      refine ⟨_, rfl, ?_, ?_⟩
      · rcases c2 with _ | _
        · exact balance_bb ha hbr2
        · exact balance_b_redright ha hbr2
      · rw [inorder_balance, inorder_node, hio2]
        conv_rhs => rw [inorder_node,
          dropLast_append (List.cons_ne_nil _ _),
          dropLast_cons_of_ne_nil (inorder_ne_nil (by simp))]

/-!  Sorted in-order listings and key membership: the consequences of BST
ordering that steer the key search in `delete` along the comparisons of
the source. -/

/-- The in-order listing is strictly sorted by key. -/
def SortedP (t : RBNode K V) : Prop :=
  List.Pairwise (fun p q => p.1 < q.1) (inorder t)

theorem sorted_node_inv {l r : RBNode K V} {k : K} {v : V} {c : Bool} {sz : Nat}
    (h : SortedP (RBNode.node k v l r c sz)) :
    SortedP l ∧ SortedP r ∧ (∀ p ∈ inorder l, p.1 < k) ∧ ∀ p ∈ inorder r, k < p.1 := by
  unfold SortedP at h
  rw [inorder_node, List.pairwise_append] at h
  obtain ⟨h1, h2, h3⟩ := h
  rw [List.pairwise_cons] at h2
  exact ⟨h1, h2.2, fun p hp => h3 p hp (k, v) (List.mem_cons_self _ _),
    fun p hp => h2.1 p hp⟩

theorem mem_keys_node {l r : RBNode K V} {k key : K} {v : V} {c : Bool} {sz : Nat} :
    key ∈ (inorder (RBNode.node k v l r c sz)).map Prod.fst ↔
      key ∈ (inorder l).map Prod.fst ∨ key = k ∨ key ∈ (inorder r).map Prod.fst := by
  simp only [inorder_node, List.map_append, List.map_cons, List.mem_append,
    List.mem_cons]

theorem mem_keys_left_of_lt {l r : RBNode K V} {k key : K} {v : V} {c : Bool} {sz : Nat}
    (hs : SortedP (RBNode.node k v l r c sz))
    (hm : key ∈ (inorder (RBNode.node k v l r c sz)).map Prod.fst) (hlt : key < k) :
    key ∈ (inorder l).map Prod.fst := by
  obtain ⟨_, _, _, h4⟩ := sorted_node_inv hs
  rcases mem_keys_node.1 hm with h | h | h
  · exact h
  · rw [h] at hlt
    exact absurd hlt (lt_irrefl k)
  · obtain ⟨p, hp, hpk⟩ := List.mem_map.1 h
    have hk := h4 p hp
    rw [hpk] at hk
    exact absurd hlt (not_lt.2 hk.le)

theorem mem_keys_right_of_gt {l r : RBNode K V} {k key : K} {v : V} {c : Bool} {sz : Nat}
    (hs : SortedP (RBNode.node k v l r c sz))
    (hm : key ∈ (inorder (RBNode.node k v l r c sz)).map Prod.fst) (hgt : k < key) :
    key ∈ (inorder r).map Prod.fst := by
  obtain ⟨_, _, h3, _⟩ := sorted_node_inv hs
  rcases mem_keys_node.1 hm with h | h | h
  · obtain ⟨p, hp, hpk⟩ := List.mem_map.1 h
    have hk := h3 p hp
    rw [hpk] at hk
    exact absurd hgt (not_lt.2 hk.le)
  · rw [h] at hgt
    exact absurd hgt (lt_irrefl k)
  · exact h

theorem compare_beq_zero_true {a b : K} (h : a = b) : (compare a b == 0) = true := by
  rw [beq_iff_eq]
  exact compare_eq_zero_iff.2 h

theorem compare_beq_zero_false {a b : K} (h : a ≠ b) : (compare a b == 0) = false := by
  rw [beq_eq_false_iff_ne]
  intro hq
  exact h (compare_eq_zero_iff.1 hq)

theorem cons_head_tail {L : List (K × V)} {p : K × V} (h : L.head? = some p) :
    p :: L.tail = L := by
  cases L with
  | nil => simp at h
  | cons q M =>
    rw [List.head?_cons] at h
    injection h with h
    rw [h]
    rfl

@[simp] theorem isNil_nil : isNil (RBNode.nil : RBNode K V) = true := rfl

@[simp] theorem isNil_node {l r : RBNode K V} {k : K} {v : V} {c : Bool} {sz : Nat} :
    isNil (RBNode.node k v l r c sz) = false := rfl

/-- The effect of `moveRedRight` on a valid red-rooted tree, with the full
result decomposition recorded (needed to steer the key search in
`delete`): either a colour flip leaving the root key/value in the root and
both subtree listings in place, or a rotation that moves the original root
key/value down into a black right child whose own right subtree keeps the
listing of `r`. -/
theorem moveRedRight_del (k : K) (v : V) (sz : Nat) {l r : RBNode K V} {n : Nat}
    (hl : Bal l false (n + 1)) (hr : Bal r false (n + 1)) (hrl : isRed (left r) = false) :
    (∃ l1 r1, moveRedRight (.node k v l r true sz) = some (.node k v l1 r1 false sz) ∧
      Bal l1 true n ∧ Bal r1 true n ∧ inorder l1 = inorder l ∧ inorder r1 = inorder r) ∨
    (∃ lk lv l1 A B s1 s2, moveRedRight (.node k v l r true sz) =
        some (.node lk lv l1 (.node k v A B false s2) true s1) ∧
      Bal l1 false (n + 1) ∧ Bal A false n ∧ Bal B true n ∧
      inorder l1 ++ (lk, lv) :: inorder A = inorder l ∧ inorder B = inorder r) := by
  obtain ⟨lk, lv, ll, lr, ls, rfl⟩ := bal_black_succ_shape hl
  obtain ⟨rk, rv, rl, rr, rs, rfl⟩ := bal_black_succ_shape hr
  obtain ⟨m1, cl, hn1, hbll, hblr⟩ := bal_black_node_inv hl
  obtain ⟨m2, cr, hn2, hbrl, hbrr⟩ := bal_black_node_inv hr
  have e1 := Nat.succ_injective hn1
  subst e1
  have e2 := Nat.succ_injective hn2
  subst e2
  obtain rfl : cr = false := by simpa [isRed_eq hbrl] using hrl
  rcases cl with _ | _
  · refine Or.inl ⟨RBNode.node lk lv ll lr true ls, RBNode.node rk rv rl rr true rs,
      ?_, Bal.red hbll hblr, Bal.red hbrl hbrr, by simp, by simp⟩
    simp [moveRedRight, isRed_eq hbll]
  · obtain ⟨llk, llv, lll, llr, lls, rfl, hblll, hbllr⟩ := bal_red_shape hbll
    refine Or.inr ⟨lk, lv, RBNode.node llk llv lll llr false lls, lr,
      RBNode.node rk rv rl rr true rs, sz, 1 + size lr + rs, ?_,
      Bal.black hblll hbllr, hblr, Bal.red hbrl hbrr, by simp, by simp⟩
    simp [moveRedRight, rotateRight, flipColors]

/-!  Reduction lemmas for `delete`: resolve the branch taken from
hypothesis equations on the guards. -/

theorem delete_step_left {l r : RBNode K V} {k key : K} {v : V} {c : Bool} {sz : Nat}
    {n1 : RBNode K V} (hlt : compare key k < 0)
    (h1 : (if !(isRed l) then
             if isNil l then none
             else if !(isRed (left l)) then moveRedLeft (.node k v l r c sz)
             else some (.node k v l r c sz)
           else some (.node k v l r c sz)) = some n1) :
    delete (RBNode.node k v l r c sz) key =
      match delete (left n1) key with
      | none => none
      | some l2 => some (balance (setLeft n1 l2)) := by
  rw [delete]
  split
  · split
    · rename_i h1a
      rw [h1] at h1a
      exact absurd h1a (by simp)
    · rename_i n1a h1a
      rw [h1] at h1a
      cases h1a
      rfl
  · rename_i hq
    simp at hq
    exact absurd hlt (not_lt.2 hq)

theorem delete_step_here {l r l1 r1 : RBNode K V} {k k1 key : K} {v v1 : V}
    {c c1 : Bool} {sz s1 : Nat} (hge : ¬ compare key k < 0)
    (h2 : (if isRed l then rotateRight (.node k v l r c sz) else .node k v l r c sz) =
      RBNode.node k1 v1 l1 r1 c1 s1)
    (hz : (compare key k1 == 0 && isNil r1) = true) :
    delete (RBNode.node k v l r c sz) key = some .nil := by
  rw [delete]
  split
  · rename_i hq
    simp at hq
    exact absurd hq hge
  · split
    · rename_i h2a
      rw [h2] at h2a
      exact absurd h2a (by simp)
    · rename_i k1a v1a l1a r1a c1a s1a h2a
      rw [h2] at h2a
      injection h2a with e1 e2 e3 e4 e5 e6
      subst e1
      subst e2
      subst e3
      subst e4
      subst e5
      subst e6
      split
      · rfl
      · rename_i hqz
        rw [hz] at hqz
        exact absurd hqz (by simp)

theorem delete_step_right {l r l1 r1 l2 r2 : RBNode K V} {k k1 k2 key : K}
    {v v1 v2 : V} {c c1 c2 : Bool} {sz s1 s2 : Nat} (hge : ¬ compare key k < 0)
    (h2 : (if isRed l then rotateRight (.node k v l r c sz) else .node k v l r c sz) =
      RBNode.node k1 v1 l1 r1 c1 s1)
    (hz : (compare key k1 == 0 && isNil r1) = false)
    (h3 : (if !(isRed r1) then
             if isNil r1 then none
             else if !(isRed (left r1)) then moveRedRight (.node k1 v1 l1 r1 c1 s1)
             else some (.node k1 v1 l1 r1 c1 s1)
           else some (.node k1 v1 l1 r1 c1 s1)) = some (RBNode.node k2 v2 l2 r2 c2 s2))
    (hne : (compare key k2 == 0) = false) :
    delete (RBNode.node k v l r c sz) key =
      match delete r2 key with
      | none => none
      | some r3 => some (balance (.node k2 v2 l2 r3 c2 s2)) := by
  rw [delete]
  split
  · rename_i hq
    simp at hq
    exact absurd hq hge
  · split
    · rename_i h2a
      rw [h2] at h2a
      exact absurd h2a (by simp)
    · rename_i k1a v1a l1a r1a c1a s1a h2a
      rw [h2] at h2a
      injection h2a with e1 e2 e3 e4 e5 e6
      subst e1
      subst e2
      subst e3
      subst e4
      subst e5
      subst e6
      split
      · rename_i hqz
        rw [hz] at hqz
        exact absurd hqz (by simp)
      · split
        · rename_i h3a
          rw [h3] at h3a
          exact absurd h3a (by simp)
        · rename_i h3a
          rw [h3] at h3a
          exact absurd h3a (by simp)
        · rename_i k2a v2a l2a r2a c2a s2a h3a
          rw [h3] at h3a
          injection h3a with g0
          injection g0 with f1 f2 f3 f4 f5 f6
          subst f1
          subst f2
          subst f3
          subst f4
          subst f5
          subst f6
          split
          · rename_i hqe
            rw [hne] at hqe
            exact absurd hqe (by simp)
          · rfl

theorem delete_step_succ {l r l1 r1 l2 rl2 rr2 q1 q2 : RBNode K V}
    {k k1 k2 rk2 xk key : K} {v v1 v2 rv2 xv : V} {c c1 c2 rc2 q3 : Bool}
    {sz s1 s2 rs2 q4 : Nat} (hge : ¬ compare key k < 0)
    (h2 : (if isRed l then rotateRight (.node k v l r c sz) else .node k v l r c sz) =
      RBNode.node k1 v1 l1 r1 c1 s1)
    (hz : (compare key k1 == 0 && isNil r1) = false)
    (h3 : (if !(isRed r1) then
             if isNil r1 then none
             else if !(isRed (left r1)) then moveRedRight (.node k1 v1 l1 r1 c1 s1)
             else some (.node k1 v1 l1 r1 c1 s1)
           else some (.node k1 v1 l1 r1 c1 s1)) =
      some (RBNode.node k2 v2 l2 (RBNode.node rk2 rv2 rl2 rr2 rc2 rs2) c2 s2))
    (heq0 : (compare key k2 == 0) = true)
    (hmin : min (RBNode.node rk2 rv2 rl2 rr2 rc2 rs2) = RBNode.node xk xv q1 q2 q3 q4) :
    delete (RBNode.node k v l r c sz) key =
      match delMin (RBNode.node rk2 rv2 rl2 rr2 rc2 rs2) with
      | none => none
      | some r3 => some (balance (.node xk xv l2 r3 c2 s2)) := by
  rw [delete]
  split
  · rename_i hq
    simp at hq
    exact absurd hq hge
  · split
    · rename_i h2a
      rw [h2] at h2a
      exact absurd h2a (by simp)
    · rename_i k1a v1a l1a r1a c1a s1a h2a
      rw [h2] at h2a
      injection h2a with e1 e2 e3 e4 e5 e6
      subst e1
      subst e2
      subst e3
      subst e4
      subst e5
      subst e6
      split
      · rename_i hqz
        rw [hz] at hqz
        exact absurd hqz (by simp)
      · split
        · rename_i h3a
          rw [h3] at h3a
          exact absurd h3a (by simp)
        · rename_i h3a
          rw [h3] at h3a
          exact absurd h3a (by simp)
        · rename_i k2a v2a l2a r2a c2a s2a h3a
          rw [h3] at h3a
          injection h3a with g0
          injection g0 with f1 f2 f3 f4 f5 f6
          subst f1
          subst f2
          subst f3
          subst f4
          subst f5
          subst f6
          split
          · split
            · rename_i b1 b2
              exact absurd b1 (by simp)
            · rename_i b1 b2 b3 b4 b5 b6 b7 b8 b9
              injection b8 with p1 p2 p3 p4 p5 p6
              subst p1
              subst p2
              subst p3
              subst p4
              subst p5
              subst p6
              split
              · rename_i hma
                rw [hmin] at hma
                exact absurd hma (by simp)
              · rename_i xka xva w1 w2 w3 w4 hma
                rw [hmin] at hma
                injection hma with y1 y2 y3 y4 y5 y6
                subst y1
                subst y2
                rfl
          · rename_i hqe
            rw [heq0] at hqe
            exact absurd hqe (by simp)


theorem eraseKey_cons_ne {key a : K} {w : V} {L : List (K × V)} (h : a ≠ key) :
    eraseKey key ((a, w) :: L) = (a, w) :: eraseKey key L := by
  simp [eraseKey, h]

theorem eraseKey_cons_eq {key a : K} {w : V} {L : List (K × V)} (h : a = key) :
    eraseKey key ((a, w) :: L) = L := by
  simp [eraseKey, h]

/--  The central invariant-preservation property of `delete` on a tree
that actually contains the key: the three modes of `delMax`, with the
listing effect `eraseKey`.  Mode three is the transient `rotateRight`
shape recursed into after `moveRedRight` rotates (a black root carrying
the original key, a valid black left child and a valid red right child of
equal index), restricted to a search key not on the left. -/
theorem delete_bal : ∀ (N : Nat) (t : RBNode K V) (key : K), numNodes t ≤ N →
    SortedP t → key ∈ (inorder t).map Prod.fst → ∀ n : Nat,
    (Bal t true n → ∃ t', delete t key = some t' ∧ (∃ c', Bal t' c' n) ∧
      inorder t' = eraseKey key (inorder t)) ∧
    (Bal t false n → isRed (left t) = true → ∃ t', delete t key = some t' ∧
      Bal t' false n ∧ inorder t' = eraseKey key (inorder t)) ∧
    (∀ (g : K) (w : V) (a b : RBNode K V) (szb : Nat),
      t = RBNode.node g w a b false szb → Bal a false n → Bal b true n → ¬ key < g →
      ∃ t', delete t key = some t' ∧ Bal t' false (n + 1) ∧
        inorder t' = eraseKey key (inorder t)) := by
  intro N
  induction N with
  | zero =>
    intro t key hle hs hm n
    have ht : t = .nil := by
      rcases t with _ | ⟨k, v, l, r, c, sz⟩
      · rfl
      · simp [numNodes] at hle
    subst ht
    simp at hm
  | succ N ihN =>
    intro t key hle hs hm n
    refine ⟨?_, ?_, ?_⟩
    · -- mode 1: valid red root
      intro h
      obtain ⟨k, v, l, r, sz, rfl, hl, hr⟩ := bal_red_shape h
      obtain ⟨hsl, hsr, hkl, hkr⟩ := sorted_node_inv hs
      by_cases hklt : key < k
      · -- the key lies left of the root
        have hlt : compare key k < 0 := compare_lt_iff.2 hklt
        have hml : key ∈ (inorder l).map Prod.fst := mem_keys_left_of_lt hs hm hklt
        have hlne : l ≠ .nil := by
          intro hq
          rw [hq] at hml
          simp at hml
        obtain ⟨lk, lv, ll, lr, ls, rfl⟩ :
            ∃ lk lv ll lr ls, l = RBNode.node lk lv ll lr false ls := by
          rcases l with _ | ⟨lk, lv, ll, lr, lc, ls⟩
          · exact absurd rfl hlne
          · obtain rfl : lc = false := by simpa using isRed_eq hl
            exact ⟨_, _, _, _, _, rfl⟩
        obtain ⟨m0, clc, hn, hbll, hblr⟩ := bal_black_node_inv hl
        subst hn
        rcases hll : isRed ll with _ | _
        · -- two-node on the path: moveRedLeft
          obtain ⟨m1, hmrl, hio1, ⟨E, hE⟩, hcfg⟩ := moveRedLeft_bal k v sz hl hr hll
          have h1eq : (if !(isRed (RBNode.node lk lv ll lr false ls)) then
                if isNil (RBNode.node lk lv ll lr false ls) then none
                else if !(isRed (left (RBNode.node lk lv ll lr false ls))) then
                  moveRedLeft (RBNode.node k v (RBNode.node lk lv ll lr false ls) r true sz)
                else some (RBNode.node k v (RBNode.node lk lv ll lr false ls) r true sz)
              else some (RBNode.node k v (RBNode.node lk lv ll lr false ls) r true sz)) =
              some m1 := by
            simpa [hll] using hmrl
          rw [delete_step_left hlt h1eq]
          have hnm1 := numNodes_moveRedLeft _ _ hmrl
          rcases hcfg with ⟨k1, v1, l1, r1, s1, rfl, hbl1, hbr1⟩ |
            ⟨k1, v1, l1, r1, s1, rfl, hbl1, hredl1, hbr1⟩
          · -- flip configuration: recurse into a valid red left child
            simp only [left_node] at hE
            have hsz1 : numNodes l1 ≤ N := by
              simp only [numNodes] at hnm1 hle ⊢
              omega
            have hsm1 : SortedP (RBNode.node k1 v1 l1 r1 false s1) := by
              unfold SortedP
              rw [hio1]
              exact hs
            have hml1 : key ∈ (inorder l1).map Prod.fst := by
              rw [hE, List.map_append]
              exact List.mem_append_left _ hml
            obtain ⟨l2, hdl, ⟨c2, hbl2⟩, hio2⟩ :=
              (ihN l1 key hsz1 (sorted_node_inv hsm1).1 hml1 m0).1 hbl1
            simp only [left_node]
            rw [hdl]
            simp only [setLeft]
            refine ⟨_, rfl, ?_, ?_⟩
            · rcases c2 with _ | _
              · exact ⟨_, balance_b_redright hbl2 hbr1⟩
              · exact ⟨_, balance_b_redred hbl2 hbr1⟩
            · rw [inorder_balance, inorder_node, hio2]
              conv_rhs => rw [← hio1, inorder_node]
              rw [eraseKey_append_left hml1]
          · -- rotate-through configuration: recurse mode 2
            simp only [left_node] at hE
            have hsz1 : numNodes l1 ≤ N := by
              simp only [numNodes] at hnm1 hle ⊢
              omega
            have hsm1 : SortedP (RBNode.node k1 v1 l1 r1 true s1) := by
              unfold SortedP
              rw [hio1]
              exact hs
            have hml1 : key ∈ (inorder l1).map Prod.fst := by
              rw [hE, List.map_append]
              exact List.mem_append_left _ hml
            obtain ⟨l2, hdl, hbl2, hio2⟩ :=
              (ihN l1 key hsz1 (sorted_node_inv hsm1).1 hml1 (m0 + 1)).2.1 hbl1 hredl1
            simp only [left_node]
            rw [hdl]
            simp only [setLeft]
            refine ⟨_, rfl, ⟨true, balance_rr hbl2 hbr1⟩, ?_⟩
            rw [inorder_balance, inorder_node, hio2]
            conv_rhs => rw [← hio1, inorder_node]
            rw [eraseKey_append_left hml1]
        · -- left child already has a red left child: no push
          have h1eq : (if !(isRed (RBNode.node lk lv ll lr false ls)) then
                if isNil (RBNode.node lk lv ll lr false ls) then none
                else if !(isRed (left (RBNode.node lk lv ll lr false ls))) then
                  moveRedLeft (RBNode.node k v (RBNode.node lk lv ll lr false ls) r true sz)
                else some (RBNode.node k v (RBNode.node lk lv ll lr false ls) r true sz)
              else some (RBNode.node k v (RBNode.node lk lv ll lr false ls) r true sz)) =
              some (RBNode.node k v (RBNode.node lk lv ll lr false ls) r true sz) := by
            simp [hll]
          rw [delete_step_left hlt h1eq]
          have hsz1 : numNodes (RBNode.node lk lv ll lr false ls) ≤ N := by
            simp only [numNodes] at hle ⊢
            omega
          obtain ⟨l2, hdl, hbl2, hio2⟩ :=
            (ihN (RBNode.node lk lv ll lr false ls) key hsz1 hsl hml (m0 + 1)).2.1 hl
              (by simp [hll])
          simp only [left_node]
          rw [hdl]
          simp only [setLeft]
          refine ⟨_, rfl, ⟨true, balance_rr hbl2 hr⟩, ?_⟩
          rw [inorder_balance, inorder_node, hio2]
          conv_rhs => rw [inorder_node]
          rw [eraseKey_append_left hml]
      · -- the key is at the root or right of it
        have hge : ¬ compare key k < 0 := by
          rw [compare_lt_iff]
          exact hklt
        have hkle : k ≤ key := not_lt.1 hklt
        have h2eq : (if isRed l then
              rotateRight (RBNode.node k v l r true sz)
            else RBNode.node k v l r true sz) = RBNode.node k v l r true sz := by
          rw [if_neg (by simp [isRed_eq hl])]
        rcases r with _ | ⟨rk, rv, rl, rr, rc, rs⟩
        · -- right child nil: the root is the only possible match
          cases hr
          have hlnil := bal_black_zero hl
          subst hlnil
          have hkeq : key = k := by
            rcases mem_keys_node.1 hm with hq | hq | hq
            · simp at hq
            · exact hq
            · simp at hq
          have hz : (compare key k == 0 && isNil (RBNode.nil : RBNode K V)) = true := by
            simp [compare_beq_zero_true hkeq]
          rw [delete_step_here hge h2eq hz]
          exact ⟨.nil, rfl, ⟨false, Bal.nil⟩, by simp [eraseKey, hkeq]⟩
        · obtain rfl : rc = false := by simpa using isRed_eq hr
          obtain ⟨m0, crl, hn, hbrl, hbrr⟩ := bal_black_node_inv hr
          subst hn
          have hz : (compare key k == 0 &&
              isNil (RBNode.node rk rv rl rr false rs)) = false := by simp
          rcases hrl : isRed rl with _ | _
          · -- right child is a 2-node: moveRedRight
            rcases moveRedRight_del k v sz hl hr (by simp [hrl]) with
              ⟨l1, r1, hmrr, hbl1, hbr1, hiol1, hior1⟩ |
              ⟨lk1, lv1, l1, A, B, s1, s2, hmrr, hbl1, hbA, hbB, hioeq, hioB⟩
            · -- flip configuration
              have h3eq : (if !(isRed (RBNode.node rk rv rl rr false rs)) then
                    if isNil (RBNode.node rk rv rl rr false rs) then none
                    else if !(isRed (left (RBNode.node rk rv rl rr false rs))) then
                      moveRedRight (RBNode.node k v l
                        (RBNode.node rk rv rl rr false rs) true sz)
                    else some (RBNode.node k v l
                      (RBNode.node rk rv rl rr false rs) true sz)
                  else some (RBNode.node k v l
                    (RBNode.node rk rv rl rr false rs) true sz)) =
                  some (RBNode.node k v l1 r1 false sz) := by
                simpa [hrl] using hmrr
              have hnm1 := numNodes_moveRedRight _ _ hmrr
              by_cases hkeq : key = k
              · -- delete the root pair through the successor
                have heq0 : (compare key k == 0) = true := compare_beq_zero_true hkeq
                obtain ⟨bk, bv, bl, br, bs, rfl, hbB1, hbB2⟩ := bal_red_shape hbr1
                obtain ⟨xk, xv, q1, q2, q3, q4, hmin, hhead⟩ :=
                  min_spec (RBNode.node bk bv bl br true bs) (by simp)
                rw [delete_step_succ hge h2eq hz h3eq heq0 hmin]
                obtain ⟨r3, hdm, ⟨c3, hbr3⟩, hio3⟩ :=
                  (delMin_bal (numNodes (RBNode.node bk bv bl br true bs)) _ le_rfl m0).1
                    hbr1
                rw [hdm]
                refine ⟨_, rfl, ?_, ?_⟩
                · rcases c3 with _ | _
                  · exact ⟨_, balance_bb hbl1 hbr3⟩
                  · exact ⟨_, balance_b_redred hbl1 hbr3⟩
                · rw [inorder_balance, inorder_node, hio3, cons_head_tail hhead,
                    hiol1, hior1]
                  conv_rhs => rw [inorder_node]
                  rw [eraseKey_append_right (fun p hp => by
                      rw [hkeq]
                      exact (hkl p hp).ne),
                    eraseKey_cons_eq hkeq.symm]
              · -- the key lies right of the root
                have hkgt : k < key := lt_of_le_of_ne hkle (Ne.symm hkeq)
                have hne : (compare key k == 0) = false := compare_beq_zero_false hkeq
                rw [delete_step_right hge h2eq hz h3eq hne]
                have hmr : key ∈ (inorder r1).map Prod.fst := by
                  rw [hior1]
                  exact mem_keys_right_of_gt hs hm hkgt
                have hsr1 : SortedP r1 := by
                  unfold SortedP
                  rw [hior1]
                  exact hsr
                have hszr : numNodes r1 ≤ N := by
                  simp only [numNodes] at hnm1 hle ⊢
                  omega
                obtain ⟨r3, hdr, ⟨c3, hbr3⟩, hio3⟩ :=
                  (ihN r1 key hszr hsr1 hmr m0).1 hbr1
                rw [hdr]
                rw [hior1] at hio3
                refine ⟨_, rfl, ?_, ?_⟩
                · rcases c3 with _ | _
                  · exact ⟨_, balance_bb hbl1 hbr3⟩
                  · exact ⟨_, balance_b_redred hbl1 hbr3⟩
                · rw [inorder_balance, inorder_node, hio3, hiol1]
                  conv_rhs => rw [inorder_node]
                  rw [eraseKey_append_right (fun p hp => ((hkl p hp).trans_le hkle).ne),
                    eraseKey_cons_ne (fun he => hkeq he.symm)]
            · -- rotate configuration: recurse mode 3
              have h3eq : (if !(isRed (RBNode.node rk rv rl rr false rs)) then
                    if isNil (RBNode.node rk rv rl rr false rs) then none
                    else if !(isRed (left (RBNode.node rk rv rl rr false rs))) then
                      moveRedRight (RBNode.node k v l
                        (RBNode.node rk rv rl rr false rs) true sz)
                    else some (RBNode.node k v l
                      (RBNode.node rk rv rl rr false rs) true sz)
                  else some (RBNode.node k v l
                    (RBNode.node rk rv rl rr false rs) true sz)) =
                  some (RBNode.node lk1 lv1 l1
                    (RBNode.node k v A B false s2) true s1) := by
                simpa [hrl] using hmrr
              have hnm1 := numNodes_moveRedRight _ _ hmrr
              have hlk1mem : (lk1, lv1) ∈ inorder l := by
                rw [← hioeq]
                exact List.mem_append_right _ (List.mem_cons_self _ _)
              have hlk1lt : lk1 < k := hkl _ hlk1mem
              have hne : (compare key lk1 == 0) = false :=
                compare_beq_zero_false (by
                  intro he
                  rw [he] at hkle
                  exact absurd hkle (not_le.2 hlk1lt))
              rw [delete_step_right hge h2eq hz h3eq hne]
              have harr : inorder l1 ++ (lk1, lv1) ::
                  inorder (RBNode.node k v A B false s2) =
                  inorder (RBNode.node k v l (RBNode.node rk rv rl rr false rs) true sz) := by
                conv_rhs => rw [inorder_node]
                rw [inorder_node, ← hioeq, hioB]
                simp
              have hsm1 : List.Pairwise (fun p q => p.1 < q.1)
                  (inorder l1 ++ (lk1, lv1) :: inorder (RBNode.node k v A B false s2)) := by
                rw [harr]
                exact hs
              have hsInner : SortedP (RBNode.node k v A B false s2) :=
                (List.pairwise_cons.1 (List.pairwise_append.1 hsm1).2.1).2
              have hmInner : key ∈ (inorder (RBNode.node k v A B false s2)).map Prod.fst := by
                rw [mem_keys_node]
                by_cases hkeq : key = k
                · exact Or.inr (Or.inl hkeq)
                · refine Or.inr (Or.inr ?_)
                  have : key ∈ (inorder (RBNode.node rk rv rl rr false rs)).map Prod.fst :=
                    mem_keys_right_of_gt hs hm (lt_of_le_of_ne hkle (Ne.symm hkeq))
                  rw [hioB]
                  exact this
              have hszI : numNodes (RBNode.node k v A B false s2) ≤ N := by
                simp only [numNodes] at hnm1 hle ⊢
                omega
              obtain ⟨t3, hdt, hbt3, hio3⟩ :=
                (ihN (RBNode.node k v A B false s2) key hszI hsInner hmInner m0).2.2
                  k v A B s2 rfl hbA hbB hklt
              rw [hdt]
              refine ⟨_, rfl, ⟨true, balance_rr hbl1 hbt3⟩, ?_⟩
              rw [inorder_balance, inorder_node, hio3]
              conv_rhs => rw [← harr]
              rw [eraseKey_append_right (fun p hp => by
                  have hpl : p ∈ inorder l := by
                    rw [← hioeq]
                    exact List.mem_append_left _ hp
                  exact ((hkl p hpl).trans_le hkle).ne),
                eraseKey_cons_ne (lt_of_lt_of_le hlk1lt hkle).ne]
          · -- right child has a red left child: no push
            have h3eq : (if !(isRed (RBNode.node rk rv rl rr false rs)) then
                  if isNil (RBNode.node rk rv rl rr false rs) then none
                  else if !(isRed (left (RBNode.node rk rv rl rr false rs))) then
                    moveRedRight (RBNode.node k v l
                      (RBNode.node rk rv rl rr false rs) true sz)
                  else some (RBNode.node k v l
                    (RBNode.node rk rv rl rr false rs) true sz)
                else some (RBNode.node k v l
                  (RBNode.node rk rv rl rr false rs) true sz)) =
                some (RBNode.node k v l (RBNode.node rk rv rl rr false rs) true sz) := by
              simp [hrl]
            by_cases hkeq : key = k
            · -- delete the root pair through the successor
              have heq0 : (compare key k == 0) = true := compare_beq_zero_true hkeq
              obtain ⟨xk, xv, q1, q2, q3, q4, hmin, hhead⟩ :=
                min_spec (RBNode.node rk rv rl rr false rs) (by simp)
              rw [delete_step_succ hge h2eq hz h3eq heq0 hmin]
              obtain ⟨r3, hdm, hbr3, hio3⟩ :=
                (delMin_bal (numNodes (RBNode.node rk rv rl rr false rs)) _ le_rfl
                  (m0 + 1)).2 hr (by simp [hrl])
              rw [hdm]
              refine ⟨_, rfl, ⟨true, balance_rr hl hbr3⟩, ?_⟩
              rw [inorder_balance, inorder_node, hio3, cons_head_tail hhead]
              conv_rhs => rw [inorder_node]
              rw [eraseKey_append_right (fun p hp => by
                  rw [hkeq]
                  exact (hkl p hp).ne),
                eraseKey_cons_eq hkeq.symm]
            · -- the key lies right of the root
              have hkgt : k < key := lt_of_le_of_ne hkle (Ne.symm hkeq)
              have hne : (compare key k == 0) = false := compare_beq_zero_false hkeq
              rw [delete_step_right hge h2eq hz h3eq hne]
              have hmr := mem_keys_right_of_gt hs hm hkgt
              have hszr : numNodes (RBNode.node rk rv rl rr false rs) ≤ N := by
                simp only [numNodes] at hle ⊢
                omega
              obtain ⟨r3, hdr, hbr3, hio3⟩ :=
                (ihN (RBNode.node rk rv rl rr false rs) key hszr hsr hmr (m0 + 1)).2.1
                  hr (by simp [hrl])
              rw [hdr]
              refine ⟨_, rfl, ⟨true, balance_rr hl hbr3⟩, ?_⟩
              rw [inorder_balance, inorder_node, hio3]
              conv_rhs => rw [inorder_node]
              rw [eraseKey_append_right (fun p hp => ((hkl p hp).trans hkgt).ne),
                eraseKey_cons_ne (fun he => hkeq he.symm)]
    · -- mode 2: valid black root with red left child
      intro h hred
      rcases t with _ | ⟨k, v, l, r, c, sz⟩
      · simp at hred
      obtain rfl : c = false := by simpa using isRed_eq h
      obtain ⟨m0, clc, hn, hbl, hbr⟩ := bal_black_node_inv h
      subst hn
      simp only [left_node] at hred
      obtain rfl : clc = true := by
        rw [isRed_eq hbl] at hred
        exact hred
      obtain ⟨lk, lv, ll, lr, ls, rfl, hbll, hblr⟩ := bal_red_shape hbl
      obtain ⟨hsl, hsr, hkl, hkr⟩ := sorted_node_inv hs
      by_cases hklt : key < k
      · -- red left child: descend without pushing
        have hlt : compare key k < 0 := compare_lt_iff.2 hklt
        have hml : key ∈ (inorder (RBNode.node lk lv ll lr true ls)).map Prod.fst :=
          mem_keys_left_of_lt hs hm hklt
        have h1eq : (if !(isRed (RBNode.node lk lv ll lr true ls)) then
              if isNil (RBNode.node lk lv ll lr true ls) then none
              else if !(isRed (left (RBNode.node lk lv ll lr true ls))) then
                moveRedLeft (RBNode.node k v (RBNode.node lk lv ll lr true ls) r false sz)
              else some (RBNode.node k v (RBNode.node lk lv ll lr true ls) r false sz)
            else some (RBNode.node k v (RBNode.node lk lv ll lr true ls) r false sz)) =
            some (RBNode.node k v (RBNode.node lk lv ll lr true ls) r false sz) := by
          simp
        rw [delete_step_left hlt h1eq]
        have hsz1 : numNodes (RBNode.node lk lv ll lr true ls) ≤ N := by
          simp only [numNodes] at hle ⊢
          omega
        obtain ⟨l2, hdl, ⟨c2, hbl2⟩, hio2⟩ :=
          (ihN (RBNode.node lk lv ll lr true ls) key hsz1 hsl hml m0).1 hbl
        simp only [left_node]
        rw [hdl]
        simp only [setLeft]
        refine ⟨_, rfl, balance_bb hbl2 hbr, ?_⟩
        rw [inorder_balance, inorder_node, hio2]
        conv_rhs => rw [inorder_node]
        rw [eraseKey_append_left hml]
      · -- rotate the red left link to the right, recurse mode 1
        have hge : ¬ compare key k < 0 := by
          rw [compare_lt_iff]
          exact hklt
        have hkle : k ≤ key := not_lt.1 hklt
        have h2eq : (if isRed (RBNode.node lk lv ll lr true ls)
              then rotateRight (RBNode.node k v (RBNode.node lk lv ll lr true ls) r false sz)
            else RBNode.node k v (RBNode.node lk lv ll lr true ls) r false sz) =
            RBNode.node lk lv ll
              (RBNode.node k v lr r true (1 + size lr + size r)) false sz := by
          rw [if_pos (by simp)]
          rfl
        have hz : (compare key lk == 0 &&
            isNil (RBNode.node k v lr r true (1 + size lr + size r))) = false := by simp
        have h3eq : (if !(isRed (RBNode.node k v lr r true (1 + size lr + size r))) then
              if isNil (RBNode.node k v lr r true (1 + size lr + size r)) then none
              else if !(isRed (left (RBNode.node k v lr r true (1 + size lr + size r)))) then
                moveRedRight (RBNode.node lk lv ll
                  (RBNode.node k v lr r true (1 + size lr + size r)) false sz)
              else some (RBNode.node lk lv ll
                (RBNode.node k v lr r true (1 + size lr + size r)) false sz)
            else some (RBNode.node lk lv ll
              (RBNode.node k v lr r true (1 + size lr + size r)) false sz)) =
            some (RBNode.node lk lv ll
              (RBNode.node k v lr r true (1 + size lr + size r)) false sz) := by
          simp
        have hlkmem : (lk, lv) ∈ inorder (RBNode.node lk lv ll lr true ls) := by
          rw [inorder_node]
          exact List.mem_append_right _ (List.mem_cons_self _ _)
        have hlklt : lk < k := hkl _ hlkmem
        have hne : (compare key lk == 0) = false :=
          compare_beq_zero_false (by
            intro he
            rw [he] at hkle
            exact absurd hkle (not_le.2 hlklt))
        rw [delete_step_right hge h2eq hz h3eq hne]
        have harr : inorder ll ++ (lk, lv) ::
            inorder (RBNode.node k v lr r true (1 + size lr + size r)) =
            inorder (RBNode.node k v (RBNode.node lk lv ll lr true ls) r false sz) := by
          conv_rhs => rw [inorder_node]
          rw [inorder_node, inorder_node]
          simp
        have hsm1 : List.Pairwise (fun p q => p.1 < q.1)
            (inorder ll ++ (lk, lv) ::
              inorder (RBNode.node k v lr r true (1 + size lr + size r))) := by
          rw [harr]
          exact hs
        have hsInner : SortedP (RBNode.node k v lr r true (1 + size lr + size r)) :=
          (List.pairwise_cons.1 (List.pairwise_append.1 hsm1).2.1).2
        have hmInner : key ∈
            (inorder (RBNode.node k v lr r true (1 + size lr + size r))).map Prod.fst := by
          rw [mem_keys_node]
          by_cases hkeq : key = k
          · exact Or.inr (Or.inl hkeq)
          · exact Or.inr (Or.inr
              (mem_keys_right_of_gt hs hm (lt_of_le_of_ne hkle (Ne.symm hkeq))))
        have hszI : numNodes (RBNode.node k v lr r true (1 + size lr + size r)) ≤ N := by
          simp only [numNodes] at hle ⊢
          omega
        obtain ⟨r3, hdr, ⟨c3, hbr3⟩, hio3⟩ :=
          (ihN (RBNode.node k v lr r true (1 + size lr + size r)) key hszI hsInner
            hmInner m0).1 (Bal.red hblr hbr)
        rw [hdr]
        refine ⟨_, rfl, ?_, ?_⟩
        · rcases c3 with _ | _
          · exact balance_bb hbll hbr3
          · exact balance_b_redright hbll hbr3
        · rw [inorder_balance, inorder_node, hio3]
          conv_rhs => rw [← harr]
          rw [eraseKey_append_right (fun p hp => by
              have hpl : p ∈ inorder (RBNode.node lk lv ll lr true ls) := by
                rw [inorder_node]
                exact List.mem_append_left _ hp
              exact ((hkl p hpl).trans_le hkle).ne),
            eraseKey_cons_ne (lt_of_lt_of_le hlklt hkle).ne]
    · -- mode 3: the transient rotate-right shape, key not on the left
      intro g w a b szb heq hba hbb hnlt
      subst heq
      have hge : ¬ compare key g < 0 := by
        rw [compare_lt_iff]
        exact hnlt
      have hkle : g ≤ key := not_lt.1 hnlt
      obtain ⟨hsl, hsr, hkl, hkr⟩ := sorted_node_inv hs
      have h2eq : (if isRed a then
            rotateRight (RBNode.node g w a b false szb)
          else RBNode.node g w a b false szb) = RBNode.node g w a b false szb := by
        rw [if_neg (by simp [isRed_eq hba])]
      obtain ⟨bk, bv, bl, br, bs, rfl, hbB1, hbB2⟩ := bal_red_shape hbb
      have hz : (compare key g == 0 &&
          isNil (RBNode.node bk bv bl br true bs)) = false := by simp
      have h3eq : (if !(isRed (RBNode.node bk bv bl br true bs)) then
            if isNil (RBNode.node bk bv bl br true bs) then none
            else if !(isRed (left (RBNode.node bk bv bl br true bs))) then
              moveRedRight (RBNode.node g w a
                (RBNode.node bk bv bl br true bs) false szb)
            else some (RBNode.node g w a
              (RBNode.node bk bv bl br true bs) false szb)
          else some (RBNode.node g w a
            (RBNode.node bk bv bl br true bs) false szb)) =
          some (RBNode.node g w a (RBNode.node bk bv bl br true bs) false szb) := by
        simp
      by_cases hkeq : key = g
      · -- delete the root pair through the successor
        have heq0 : (compare key g == 0) = true := compare_beq_zero_true hkeq
        obtain ⟨xk, xv, q1, q2, q3, q4, hmin, hhead⟩ :=
          min_spec (RBNode.node bk bv bl br true bs) (by simp)
        rw [delete_step_succ hge h2eq hz h3eq heq0 hmin]
        obtain ⟨r3, hdm, ⟨c3, hbr3⟩, hio3⟩ :=
          (delMin_bal (numNodes (RBNode.node bk bv bl br true bs)) _ le_rfl n).1 hbb
        rw [hdm]
        refine ⟨_, rfl, ?_, ?_⟩
        · rcases c3 with _ | _
          · exact balance_bb hba hbr3
          · exact balance_b_redright hba hbr3
        · rw [inorder_balance, inorder_node, hio3, cons_head_tail hhead]
          conv_rhs => rw [inorder_node]
          rw [eraseKey_append_right (fun p hp => by
              rw [hkeq]
              exact (hkl p hp).ne),
            eraseKey_cons_eq hkeq.symm]
      · -- the key lies right of the root
        have hkgt : g < key := lt_of_le_of_ne hkle (Ne.symm hkeq)
        have hne : (compare key g == 0) = false := compare_beq_zero_false hkeq
        rw [delete_step_right hge h2eq hz h3eq hne]
        have hmr := mem_keys_right_of_gt hs hm hkgt
        have hszr : numNodes (RBNode.node bk bv bl br true bs) ≤ N := by
          simp only [numNodes] at hle ⊢
          omega
        obtain ⟨r3, hdr, ⟨c3, hbr3⟩, hio3⟩ :=
          (ihN (RBNode.node bk bv bl br true bs) key hszr hsr hmr n).1 hbb
        rw [hdr]
        refine ⟨_, rfl, ?_, ?_⟩
        · rcases c3 with _ | _
          · exact balance_bb hba hbr3
          · exact balance_b_redright hba hbr3
        · rw [inorder_balance, inorder_node, hio3]
          conv_rhs => rw [inorder_node]
          rw [eraseKey_append_right (fun p hp => ((hkl p hp).trans hkgt).ne),
            eraseKey_cons_ne (fun he => hkeq he.symm)]


/-!  Size-consistency is preserved by the mutating operations: every
rebuilt node passes through `balance`, which recomputes the cached size
from its children. -/

theorem rotateRight_ne_nil {l r : RBNode K V} {k : K} {v : V} {c : Bool} {sz : Nat} :
    rotateRight (RBNode.node k v l r c sz) ≠ .nil := by
  rcases l with _ | ⟨lk, lv, ll, lr, lc, ls⟩ <;> simp [rotateRight]

theorem sizeOk_rotateRight {t : RBNode K V} (h : sizeOk t = true) :
    sizeOk (rotateRight t) = true := by
  rcases t with _ | ⟨k, v, _ | ⟨lk, lv, ll, lr, lc, ls⟩, r, c, sz⟩
  · exact h
  · exact h
  · simp only [rotateRight, sizeOk_node, Bool.and_eq_true, beq_iff_eq, size_node] at h ⊢
    obtain ⟨⟨hsz, ⟨⟨hls, hll⟩, hlr⟩⟩, hr⟩ := h
    exact ⟨⟨by omega, hll⟩, ⟨trivial, hlr⟩, hr⟩

theorem delMin_step_mrl_none {k : K} {v : V} {lk : K} {lv : V} {ll lr r : RBNode K V}
    {lc : Bool} {ls sz : Nat} {c : Bool}
    (hcond : (!(isRed (RBNode.node lk lv ll lr lc ls)) && !(isRed ll)) = true)
    (hm : moveRedLeft (.node k v (.node lk lv ll lr lc ls) r c sz) = none) :
    delMin (RBNode.node k v (.node lk lv ll lr lc ls) r c sz) = none := by
  rw [delMin]
  split
  · rfl
  · rename_i n1 h1
    rw [if_pos hcond, hm] at h1
    exact absurd h1 (by simp)

theorem delMax_step_none {l r : RBNode K V} {k : K} {v : V} {c : Bool} {sz : Nat}
    {k0 rk : K} {v0 rv : V} {l0 rl rr : RBNode K V} {c0 rc : Bool} {s0 rs : Nat}
    (hrot : (if isRed l then rotateRight (RBNode.node k v l r c sz)
             else RBNode.node k v l r c sz) =
      RBNode.node k0 v0 l0 (RBNode.node rk rv rl rr rc rs) c0 s0)
    (hif : (if !(isRed (RBNode.node rk rv rl rr rc rs)) && !(isRed rl) then
              moveRedRight (.node k0 v0 l0 (.node rk rv rl rr rc rs) c0 s0)
            else some (.node k0 v0 l0 (.node rk rv rl rr rc rs) c0 s0)) = none) :
    delMax (RBNode.node k v l r c sz) = none := by
  rw [delMax]
  split
  · rename_i h0
    rw [hrot] at h0
  · rename_i k0a v0a l0a r0a c0a s0a h0
    rw [hrot] at h0
    injection h0 with e1 e2 e3 e4 e5 e6
    subst e1
    subst e2
    subst e3
    subst e5
    subst e6
    subst e4
    split
    · rename_i heq hh
      exact absurd heq (by simp)
    · rename_i rk2 rv2 rl2 rr2 rc2 rs2 h02 heq hh
      injection heq with f1 f2 f3 f4 f5 f6
      subst f1
      subst f2
      subst f3
      subst f4
      subst f5
      subst f6
      split
      · rfl
      · rename_i n1a h1
        rw [hif] at h1
        exact absurd h1 (by simp)

theorem delete_step_left_none {l r : RBNode K V} {k key : K} {v : V} {c : Bool} {sz : Nat}
    (hlt : compare key k < 0)
    (h1 : (if !(isRed l) then
             if isNil l then none
             else if !(isRed (left l)) then moveRedLeft (.node k v l r c sz)
             else some (.node k v l r c sz)
           else some (.node k v l r c sz)) = none) :
    delete (RBNode.node k v l r c sz) key = none := by
  rw [delete]
  split
  · split
    · rfl
    · rename_i n1a h1a
      rw [h1] at h1a
      exact absurd h1a (by simp)
  · rename_i hq
    simp at hq
    exact absurd hlt (not_lt.2 hq)

theorem delete_step_h3_none {l r l1 r1 : RBNode K V} {k k1 key : K} {v v1 : V}
    {c c1 : Bool} {sz s1 : Nat} (hge : ¬ compare key k < 0)
    (h2 : (if isRed l then rotateRight (.node k v l r c sz) else .node k v l r c sz) =
      RBNode.node k1 v1 l1 r1 c1 s1)
    (hz : (compare key k1 == 0 && isNil r1) = false)
    (h3 : (if !(isRed r1) then
             if isNil r1 then none
             else if !(isRed (left r1)) then moveRedRight (.node k1 v1 l1 r1 c1 s1)
             else some (.node k1 v1 l1 r1 c1 s1)
           else some (.node k1 v1 l1 r1 c1 s1)) = none) :
    delete (RBNode.node k v l r c sz) key = none := by
  rw [delete]
  split
  · rename_i hq
    simp at hq
    exact absurd hq hge
  · split
    · rename_i h2a
      rw [h2] at h2a
    · rename_i k1a v1a l1a r1a c1a s1a h2a
      rw [h2] at h2a
      injection h2a with e1 e2 e3 e4 e5 e6
      subst e1
      subst e2
      subst e3
      subst e4
      subst e5
      subst e6
      split
      · rename_i hqz
        rw [hz] at hqz
        exact absurd hqz (by simp)
      · split
        · rfl
        · rename_i h3a
          rw [h3] at h3a
        · rename_i k2a v2a l2a r2a c2a s2a h3a
          rw [h3] at h3a
          exact absurd h3a (by simp)

theorem delete_step_h3_somenil {l r l1 r1 : RBNode K V} {k k1 key : K} {v v1 : V}
    {c c1 : Bool} {sz s1 : Nat} (hge : ¬ compare key k < 0)
    (h2 : (if isRed l then rotateRight (.node k v l r c sz) else .node k v l r c sz) =
      RBNode.node k1 v1 l1 r1 c1 s1)
    (hz : (compare key k1 == 0 && isNil r1) = false)
    (h3 : (if !(isRed r1) then
             if isNil r1 then none
             else if !(isRed (left r1)) then moveRedRight (.node k1 v1 l1 r1 c1 s1)
             else some (.node k1 v1 l1 r1 c1 s1)
           else some (.node k1 v1 l1 r1 c1 s1)) = some RBNode.nil) :
    delete (RBNode.node k v l r c sz) key = none := by
  rw [delete]
  split
  · rename_i hq
    simp at hq
    exact absurd hq hge
  · split
    · rename_i h2a
      rw [h2] at h2a
    · rename_i k1a v1a l1a r1a c1a s1a h2a
      rw [h2] at h2a
      injection h2a with e1 e2 e3 e4 e5 e6
      subst e1
      subst e2
      subst e3
      subst e4
      subst e5
      subst e6
      split
      · rename_i hqz
        rw [hz] at hqz
        exact absurd hqz (by simp)
      · split
        · rename_i h3a
          rw [h3] at h3a
        · rfl
        · rename_i k2a v2a l2a r2a c2a s2a h3a
          rw [h3] at h3a
          exact absurd h3a (by simp)

theorem delete_step_succ_r2nil {l r l1 r1 l2 : RBNode K V} {k k1 k2 key : K}
    {v v1 v2 : V} {c c1 c2 : Bool} {sz s1 s2 : Nat} (hge : ¬ compare key k < 0)
    (h2 : (if isRed l then rotateRight (.node k v l r c sz) else .node k v l r c sz) =
      RBNode.node k1 v1 l1 r1 c1 s1)
    (hz : (compare key k1 == 0 && isNil r1) = false)
    (h3 : (if !(isRed r1) then
             if isNil r1 then none
             else if !(isRed (left r1)) then moveRedRight (.node k1 v1 l1 r1 c1 s1)
             else some (.node k1 v1 l1 r1 c1 s1)
           else some (.node k1 v1 l1 r1 c1 s1)) =
      some (RBNode.node k2 v2 l2 RBNode.nil c2 s2))
    (heq0 : (compare key k2 == 0) = true) :
    delete (RBNode.node k v l r c sz) key = none := by
  rw [delete]
  split
  · rename_i hq
    simp at hq
    exact absurd hq hge
  · split
    · rename_i h2a
      rw [h2] at h2a
    · rename_i k1a v1a l1a r1a c1a s1a h2a
      rw [h2] at h2a
      injection h2a with e1 e2 e3 e4 e5 e6
      subst e1
      subst e2
      subst e3
      subst e4
      subst e5
      subst e6
      split
      · rename_i hqz
        rw [hz] at hqz
        exact absurd hqz (by simp)
      · split
        · rename_i h3a
          rw [h3] at h3a
        · rename_i h3a
          rw [h3] at h3a
        · rename_i k2a v2a l2a r2a c2a s2a h3a
          rw [h3] at h3a
          injection h3a with g0
          injection g0 with f1 f2 f3 f4 f5 f6
          subst f1
          subst f2
          subst f3
          subst f4
          subst f5
          subst f6
          split
          · split
            · rfl
            · rename_i b1 b2 b3 b4 b5 b6 b7 b8 b9
              exact absurd b8 (by simp)
          · rename_i hqe
            rw [heq0] at hqe
            exact absurd hqe (by simp)

theorem sizeOk_put {t : RBNode K V} (ht : sizeOk t = true) (key : K) (val : V) :
    sizeOk (put t key val) = true := by
  induction t with
  | nil => simp [put]
  | node k v l r c sz ihl ihr =>
    simp only [sizeOk_node, Bool.and_eq_true] at ht
    obtain ⟨⟨hsz, hl⟩, hr⟩ := ht
    rw [put]
    split_ifs with hc1 hc2
    · exact sizeOk_balance (ihl hl) hr
    · exact sizeOk_balance hl (ihr hr)
    · exact sizeOk_balance hl hr

theorem sizeOk_delMin : ∀ (N : Nat) (t : RBNode K V), numNodes t ≤ N →
    sizeOk t = true → ∀ t', delMin t = some t' → sizeOk t' = true := by
  intro N
  induction N with
  | zero =>
    intro t hle ht t' hd
    have hq : t = .nil := by
      rcases t with _ | ⟨k, v, l, r, c, sz⟩
      · rfl
      · simp [numNodes] at hle
    subst hq
    rw [delMin] at hd
    exact absurd hd (by simp)
  | succ N ihN =>
    intro t hle ht t' hd
    rcases t with _ | ⟨k, v, l, r, c, sz⟩
    · rw [delMin] at hd
      exact absurd hd (by simp)
    rcases l with _ | ⟨lk, lv, ll, lr, lc, ls⟩
    · rw [delMin] at hd
      cases hd
      rfl
    simp only [sizeOk_node, Bool.and_eq_true] at ht
    obtain ⟨⟨hsz, hl⟩, hr⟩ := ht
    rcases hcond : (!(isRed (RBNode.node lk lv ll lr lc ls)) && !(isRed ll)) with _ | _
    · rw [delMin_step_skip hcond] at hd
      rcases hdm : delMin (RBNode.node lk lv ll lr lc ls) with _ | l2
      · rw [hdm] at hd
        exact absurd hd (by simp)
      · rw [hdm] at hd
        cases hd
        have hszl : numNodes (RBNode.node lk lv ll lr lc ls) ≤ N := by
          simp only [numNodes] at hle ⊢
          omega
        exact sizeOk_balance (ihN _ hszl (by
          simp only [sizeOk_node, Bool.and_eq_true]
          exact hl) _ hdm) hr
    · rcases hm : moveRedLeft (RBNode.node k v (RBNode.node lk lv ll lr lc ls) r c sz)
          with _ | m1
      · rw [delMin_step_mrl_none hcond hm] at hd
        exact absurd hd (by simp)
      · rw [delMin_step_mrl hcond hm] at hd
        have hm1 : sizeOk m1 = true := sizeOk_moveRedLeft hm (by
          simp only [sizeOk_node, Bool.and_eq_true]
          exact ⟨⟨hsz, hl⟩, hr⟩)
        have hm1nn := numNodes_moveRedLeft _ _ hm
        rcases m1 with _ | ⟨mk, mv, mL, mR, mc, ms⟩
        · exact absurd rfl (moveRedLeft_ne_nil _ _ hm)
        simp only [left_node, setLeft] at hd
        simp only [sizeOk_node, Bool.and_eq_true] at hm1
        obtain ⟨⟨hms, hmL⟩, hmR⟩ := hm1
        rcases hdm : delMin mL with _ | l2
        · rw [hdm] at hd
          exact absurd hd (by simp)
        · rw [hdm] at hd
          cases hd
          have hszl : numNodes mL ≤ N := by
            simp only [numNodes] at hm1nn hle ⊢
            omega
          exact sizeOk_balance (ihN _ hszl hmL _ hdm) hmR

theorem sizeOk_delMax : ∀ (N : Nat) (t : RBNode K V), numNodes t ≤ N →
    sizeOk t = true → ∀ t', delMax t = some t' → sizeOk t' = true := by
  intro N
  induction N with
  | zero =>
    intro t hle ht t' hd
    have hq : t = .nil := by
      rcases t with _ | ⟨k, v, l, r, c, sz⟩
      · rfl
      · simp [numNodes] at hle
    subst hq
    rw [delMax] at hd
    exact absurd hd (by simp)
  | succ N ihN =>
    intro t hle ht t' hd
    rcases t with _ | ⟨k, v, l, r, c, sz⟩
    · rw [delMax] at hd
      exact absurd hd (by simp)
    rcases h0v : (if isRed l then rotateRight (RBNode.node k v l r c sz)
        else RBNode.node k v l r c sz) with _ | ⟨k0, v0, l0, r0, c0, s0⟩
    · split at h0v
      · exact absurd h0v rotateRight_ne_nil
      · exact absurd h0v (by simp)
    have h0ok : sizeOk (RBNode.node k0 v0 l0 r0 c0 s0) = true := by
      rw [← h0v]
      split
      · exact sizeOk_rotateRight ht
      · exact ht
    have h0nn : numNodes (RBNode.node k0 v0 l0 r0 c0 s0) =
        numNodes (RBNode.node k v l r c sz) := by
      rw [← h0v]
      split
      · exact numNodes_rotateRight _
      · rfl
    rcases r0 with _ | ⟨rk, rv, rl, rr, rc, rs⟩
    · rw [delMax_eq_rightnil h0v] at hd
      cases hd
      rfl
    rcases hifv : (if !(isRed (RBNode.node rk rv rl rr rc rs)) && !(isRed rl) then
          moveRedRight (.node k0 v0 l0 (.node rk rv rl rr rc rs) c0 s0)
        else some (.node k0 v0 l0 (.node rk rv rl rr rc rs) c0 s0)) with _ | n1
    · rw [delMax_step_none h0v hifv] at hd
      exact absurd hd (by simp)
    rw [delMax_step h0v hifv] at hd
    have hn1ok : sizeOk n1 = true := by
      split at hifv
      · exact sizeOk_moveRedRight hifv h0ok
      · cases hifv
        exact h0ok
    have hn1nn : numNodes n1 = numNodes (RBNode.node k0 v0 l0
        (RBNode.node rk rv rl rr rc rs) c0 s0) := by
      split at hifv
      · exact numNodes_moveRedRight _ _ hifv
      · cases hifv
        rfl
    have hn1ne : n1 ≠ .nil := by
      split at hifv
      · exact moveRedRight_ne_nil _ _ hifv
      · cases hifv
        simp
    rcases n1 with _ | ⟨nk, nv, nL, nR, nc, ns⟩
    · exact absurd rfl hn1ne
    simp only [right_node, setRight] at hd
    simp only [sizeOk_node, Bool.and_eq_true] at hn1ok
    obtain ⟨⟨hns, hnL⟩, hnR⟩ := hn1ok
    rcases hdm : delMax nR with _ | r2
    · rw [hdm] at hd
      exact absurd hd (by simp)
    · rw [hdm] at hd
      cases hd
      have hszr : numNodes nR ≤ N := by
        simp only [numNodes] at hn1nn h0nn hle ⊢
        omega
      exact sizeOk_balance hnL (ihN _ hszr hnR _ hdm)

theorem sizeOk_delete : ∀ (N : Nat) (t : RBNode K V) (key : K), numNodes t ≤ N →
    sizeOk t = true → ∀ t', delete t key = some t' → sizeOk t' = true := by
  intro N
  induction N with
  | zero =>
    intro t key hle ht t' hd
    have hq : t = .nil := by
      rcases t with _ | ⟨k, v, l, r, c, sz⟩
      · rfl
      · simp [numNodes] at hle
    subst hq
    rw [delete] at hd
    exact absurd hd (by simp)
  | succ N ihN =>
    intro t key hle ht t' hd
    rcases t with _ | ⟨k, v, l, r, c, sz⟩
    · rw [delete] at hd
      exact absurd hd (by simp)
    by_cases hcmp : compare key k < 0
    · -- the search goes left
      rcases h1v : (if !(isRed l) then
            if isNil l then none
            else if !(isRed (left l)) then
              moveRedLeft (RBNode.node k v l r c sz)
            else some (RBNode.node k v l r c sz)
          else some (RBNode.node k v l r c sz)) with _ | n1
      · rw [delete_step_left_none hcmp h1v] at hd
        exact absurd hd (by simp)
      rw [delete_step_left hcmp h1v] at hd
      have hn1ok : sizeOk n1 = true := by
        split at h1v
        · split at h1v
          · exact absurd h1v (by simp)
          · split at h1v
            · exact sizeOk_moveRedLeft h1v ht
            · cases h1v
              exact ht
        · cases h1v
          exact ht
      have hn1nn : numNodes n1 = numNodes (RBNode.node k v l r c sz) := by
        split at h1v
        · split at h1v
          · exact absurd h1v (by simp)
          · split at h1v
            · exact numNodes_moveRedLeft _ _ h1v
            · cases h1v
              rfl
        · cases h1v
          rfl
      have hn1ne : n1 ≠ .nil := by
        split at h1v
        · split at h1v
          · exact absurd h1v (by simp)
          · split at h1v
            · exact moveRedLeft_ne_nil _ _ h1v
            · cases h1v
              simp
        · cases h1v
          simp
      rcases n1 with _ | ⟨nk, nv, nL, nR, nc, ns⟩
      · exact absurd rfl hn1ne
      simp only [left_node, setLeft] at hd
      simp only [sizeOk_node, Bool.and_eq_true] at hn1ok
      obtain ⟨⟨hns, hnL⟩, hnR⟩ := hn1ok
      rcases hdm : delete nL key with _ | l2
      · rw [hdm] at hd
        exact absurd hd (by simp)
      · rw [hdm] at hd
        cases hd
        have hszl : numNodes nL ≤ N := by
          simp only [numNodes] at hn1nn hle ⊢
          omega
        exact sizeOk_balance (ihN _ _ hszl hnL _ hdm) hnR
    · -- the search stays here or goes right
      rcases h2v : (if isRed l then rotateRight (RBNode.node k v l r c sz)
          else RBNode.node k v l r c sz) with _ | ⟨k1, v1, l1, r1, c1, s1⟩
      · split at h2v
        · exact absurd h2v rotateRight_ne_nil
        · exact absurd h2v (by simp)
      have h2ok : sizeOk (RBNode.node k1 v1 l1 r1 c1 s1) = true := by
        rw [← h2v]
        split
        · exact sizeOk_rotateRight ht
        · exact ht
      have h2nn : numNodes (RBNode.node k1 v1 l1 r1 c1 s1) =
          numNodes (RBNode.node k v l r c sz) := by
        rw [← h2v]
        split
        · exact numNodes_rotateRight _
        · rfl
      rcases hzv : (compare key k1 == 0 && isNil r1) with _ | _
      · -- the guard is false: push or descend right
        rcases h3v : (if !(isRed r1) then
              if isNil r1 then none
              else if !(isRed (left r1)) then
                moveRedRight (RBNode.node k1 v1 l1 r1 c1 s1)
              else some (RBNode.node k1 v1 l1 r1 c1 s1)
            else some (RBNode.node k1 v1 l1 r1 c1 s1)) with _ | n2
        · rw [delete_step_h3_none hcmp h2v hzv h3v] at hd
          exact absurd hd (by simp)
        rcases n2 with _ | ⟨k2, v2, l2, r2, c2, s2⟩
        · rw [delete_step_h3_somenil hcmp h2v hzv h3v] at hd
          exact absurd hd (by simp)
        have hn2ok : sizeOk (RBNode.node k2 v2 l2 r2 c2 s2) = true := by
          split at h3v
          · split at h3v
            · exact absurd h3v (by simp)
            · split at h3v
              · exact sizeOk_moveRedRight h3v h2ok
              · cases h3v
                exact h2ok
          · cases h3v
            exact h2ok
        have hn2nn : numNodes (RBNode.node k2 v2 l2 r2 c2 s2) =
            numNodes (RBNode.node k1 v1 l1 r1 c1 s1) := by
          split at h3v
          · split at h3v
            · exact absurd h3v (by simp)
            · split at h3v
              · exact numNodes_moveRedRight _ _ h3v
              · cases h3v
                rfl
          · cases h3v
            rfl
        simp only [sizeOk_node, Bool.and_eq_true] at hn2ok
        obtain ⟨⟨hn2s, hl2⟩, hr2⟩ := hn2ok
        rcases heqv : (compare key k2 == 0) with _ | _
        · -- descend right
          rw [delete_step_right hcmp h2v hzv h3v heqv] at hd
          rcases hdm : delete r2 key with _ | r3
          · rw [hdm] at hd
            exact absurd hd (by simp)
          · rw [hdm] at hd
            cases hd
            have hszr : numNodes r2 ≤ N := by
              simp only [numNodes] at hn2nn h2nn hle ⊢
              omega
            exact sizeOk_balance hl2 (ihN _ _ hszr hr2 _ hdm)
        · -- replace by the successor
          rcases r2 with _ | ⟨rk2, rv2, rl2, rr2, rc2, rs2⟩
          · rw [delete_step_succ_r2nil hcmp h2v hzv h3v heqv] at hd
            exact absurd hd (by simp)
          obtain ⟨xk, xv, q1, q2, q3, q4, hmin, hhead⟩ :=
            min_spec (RBNode.node rk2 rv2 rl2 rr2 rc2 rs2) (by simp)
          rw [delete_step_succ hcmp h2v hzv h3v heqv hmin] at hd
          rcases hdm : delMin (RBNode.node rk2 rv2 rl2 rr2 rc2 rs2) with _ | r3
          · rw [hdm] at hd
            exact absurd hd (by simp)
          · rw [hdm] at hd
            cases hd
            exact sizeOk_balance hl2
              (sizeOk_delMin (numNodes (RBNode.node rk2 rv2 rl2 rr2 rc2 rs2)) _
                le_rfl hr2 _ hdm)
      · -- key found with a nil right child: drop the node
        rw [delete_step_here hcmp h2v hzv] at hd
        cases hd
        rfl


/-!  Association-list semantics of `get` and `put` over the in-order
listing, used to relate the search path of the source to the stored
pairs. -/

/-- First-match association lookup (specification-side). -/
def lookupKey : List (K × V) → K → Option V
  | [], _ => none
  | (a, w) :: L, key => if a = key then some w else lookupKey L key

/-- Sorted-position insertion with in-place overwrite (specification-side
counterpart of `put`). -/
def insertKey (key : K) (val : V) : List (K × V) → List (K × V)
  | [] => [(key, val)]
  | (a, w) :: L =>
    if key < a then (key, val) :: (a, w) :: L
    else if a < key then (a, w) :: insertKey key val L
    else (a, val) :: L

/-- Adapt an optional lookup result to the `Except` convention of `get`. -/
def exceptOf : Option V → Except STError V
  | some w => .ok w
  | none => .error .absentKey

theorem lookup_none_of_forall {L : List (K × V)} {key : K}
    (h : ∀ p ∈ L, p.1 ≠ key) : lookupKey L key = none := by
  induction L with
  | nil => rfl
  | cons p L ih =>
    obtain ⟨a, w⟩ := p
    rw [lookupKey, if_neg (h (a, w) (List.mem_cons_self _ _))]
    exact ih fun q hq => h q (List.mem_cons_of_mem _ hq)

theorem lookup_append_some {A B : List (K × V)} {key : K} {w : V}
    (h : lookupKey A key = some w) : lookupKey (A ++ B) key = some w := by
  induction A with
  | nil => exact absurd h (by simp [lookupKey])
  | cons p A ih =>
    obtain ⟨a, u⟩ := p
    rw [lookupKey] at h
    rw [List.cons_append, lookupKey]
    split at h
    · rename_i he
      rw [if_pos he]
      exact h
    · rename_i he
      rw [if_neg he]
      exact ih h

theorem lookup_append_none {A B : List (K × V)} {key : K}
    (h : lookupKey A key = none) : lookupKey (A ++ B) key = lookupKey B key := by
  induction A with
  | nil => rfl
  | cons p A ih =>
    obtain ⟨a, u⟩ := p
    rw [lookupKey] at h
    rw [List.cons_append, lookupKey]
    split at h
    · exact absurd h (by simp)
    · rename_i he
      rw [if_neg he]
      exact ih h

theorem lookup_eq_none_iff {L : List (K × V)} {key : K} :
    lookupKey L key = none ↔ key ∉ L.map Prod.fst := by
  induction L with
  | nil => simp [lookupKey]
  | cons p L ih =>
    obtain ⟨a, w⟩ := p
    by_cases he : a = key
    · subst he
      simp [lookupKey]
    · rw [lookupKey, if_neg he]
      simp only [List.map_cons, List.mem_cons]
      rw [ih]
      constructor
      · rintro hq (h1 | h2)
        · exact he h1.symm
        · exact hq h2
      · intro hq h2
        exact hq (Or.inr h2)

/-- On a sorted listing, `get` is association lookup on the in-order
pairs. -/
theorem get_eq_lookup {t : RBNode K V} (hs : SortedP t) (key : K) :
    get t key = exceptOf (lookupKey (inorder t) key) := by
  induction t with
  | nil => rfl
  | node k v l r c sz ihl ihr =>
    obtain ⟨hsl, hsr, hbl, hbr⟩ := sorted_node_inv hs
    rw [get, inorder_node]
    by_cases h1 : key < k
    · rw [if_pos (compare_lt_iff.2 h1), ihl hsl]
      have hC : lookupKey ((k, v) :: inorder r) key = none := by
        rw [lookupKey, if_neg (Ne.symm h1.ne)]
        exact lookup_none_of_forall fun p hp => (Ne.symm (h1.trans (hbr p hp)).ne)
      cases hA : lookupKey (inorder l) key with
      | some w => rw [lookup_append_some hA]
      | none => rw [lookup_append_none hA, hC]
    · rw [if_neg (by rw [compare_lt_iff]; exact h1)]
      by_cases h2 : k < key
      · rw [if_pos (compare_gt_iff.2 h2), ihr hsr]
        have hA : lookupKey (inorder l) key = none :=
          lookup_none_of_forall fun p hp => ((hbl p hp).trans h2).ne
        rw [lookup_append_none hA, lookupKey, if_neg h2.ne]
      · have he : k = key := le_antisymm (not_lt.1 h1) (not_lt.1 h2)
        rw [if_neg (by rw [compare_gt_iff]; exact h2)]
        have hA : lookupKey (inorder l) key = none :=
          lookup_none_of_forall fun p hp => (he ▸ (hbl p hp)).ne
        rw [lookup_append_none hA, lookupKey, if_pos he]
        rfl

theorem insertKey_append_lt {A B : List (K × V)} {key k : K} {val v : V} (h : key < k) :
    insertKey key val (A ++ (k, v) :: B) = insertKey key val A ++ (k, v) :: B := by
  induction A with
  | nil => simp [insertKey, h]
  | cons p A ih =>
    obtain ⟨a, w⟩ := p
    rw [List.cons_append, insertKey, insertKey]
    by_cases h1 : key < a
    · rw [if_pos h1, if_pos h1, List.cons_append, List.cons_append]
    · rw [if_neg h1, if_neg h1]
      by_cases h2 : a < key
      · rw [if_pos h2, if_pos h2, ih, List.cons_append]
      · rw [if_neg h2, if_neg h2, List.cons_append]

theorem insertKey_append_gt {A B : List (K × V)} {key k : K} {val v : V} (h : k < key)
    (hA : ∀ p ∈ A, p.1 < key) :
    insertKey key val (A ++ (k, v) :: B) = A ++ (k, v) :: insertKey key val B := by
  induction A with
  | nil => simp [insertKey, lt_asymm h, h]
  | cons p A ih =>
    obtain ⟨a, w⟩ := p
    have ha : a < key := hA (a, w) (List.mem_cons_self _ _)
    rw [List.cons_append, insertKey, if_neg (lt_asymm ha), if_pos ha,
      ih fun q hq => hA q (List.mem_cons_of_mem _ hq), List.cons_append]

theorem insertKey_append_eq {A B : List (K × V)} {key k : K} {val v : V} (h : key = k)
    (hA : ∀ p ∈ A, p.1 < key) :
    insertKey key val (A ++ (k, v) :: B) = A ++ (k, val) :: B := by
  induction A with
  | nil =>
    subst h
    simp [insertKey, lt_irrefl]
  | cons p A ih =>
    obtain ⟨a, w⟩ := p
    have ha : a < key := hA (a, w) (List.mem_cons_self _ _)
    rw [List.cons_append, insertKey, if_neg (lt_asymm ha), if_pos ha,
      ih fun q hq => hA q (List.mem_cons_of_mem _ hq), List.cons_append]

/-- On a sorted listing, `put` implements sorted insertion with overwrite
on the in-order pairs. -/
theorem put_inorder {t : RBNode K V} (hs : SortedP t) (key : K) (val : V) :
    inorder (put t key val) = insertKey key val (inorder t) := by
  induction t with
  | nil => rfl
  | node k v l r c sz ihl ihr =>
    obtain ⟨hsl, hsr, hbl, hbr⟩ := sorted_node_inv hs
    rw [put]
    split_ifs with h1 h2
    · rw [compare_lt_iff] at h1
      rw [inorder_balance, inorder_node, ihl hsl, inorder_node, insertKey_append_lt h1]
    · rw [compare_gt_iff] at h2
      rw [inorder_balance, inorder_node, ihr hsr, inorder_node,
        insertKey_append_gt h2 fun p hp => (hbl p hp).trans h2]
    · rw [compare_lt_iff] at h1
      rw [compare_gt_iff] at h2
      have he : key = k := le_antisymm (not_lt.1 h2) (not_lt.1 h1)
      rw [inorder_balance, inorder_node, inorder_node,
        insertKey_append_eq he fun p hp => by
          have hx := hbl p hp
          rw [← he] at hx
          exact hx]

theorem lookup_insertKey_self {L : List (K × V)} (key : K) (val : V) :
    lookupKey (insertKey key val L) key = some val := by
  induction L with
  | nil => simp [insertKey, lookupKey]
  | cons p L ih =>
    obtain ⟨a, w⟩ := p
    rw [insertKey]
    by_cases h1 : key < a
    · rw [if_pos h1, lookupKey, if_pos rfl]
    · rw [if_neg h1]
      by_cases h2 : a < key
      · rw [if_pos h2, lookupKey, if_neg h2.ne, ih]
      · have he : a = key := le_antisymm (not_lt.1 h1) (not_lt.1 h2)
        rw [if_neg h2, lookupKey, if_pos he]

theorem mem_insertKey {L : List (K × V)} {q : K × V} {key : K} {val : V}
    (hq : q ∈ insertKey key val L) : q = (key, val) ∨ q ∈ L := by
  induction L with
  | nil =>
    rw [insertKey] at hq
    rcases List.mem_singleton.1 hq with rfl
    exact Or.inl rfl
  | cons p L ih =>
    obtain ⟨a, w⟩ := p
    rw [insertKey] at hq
    split_ifs at hq with h1 h2
    · rcases List.mem_cons.1 hq with rfl | hq2
      · exact Or.inl rfl
      · exact Or.inr hq2
    · rcases List.mem_cons.1 hq with rfl | hq2
      · exact Or.inr (List.mem_cons_self _ _)
      · rcases ih hq2 with h | h
        · exact Or.inl h
        · exact Or.inr (List.mem_cons_of_mem _ h)
    · rcases List.mem_cons.1 hq with rfl | hq2
      · exact Or.inl (by
          have he : a = key := le_antisymm (not_lt.1 h1) (not_lt.1 h2)
          rw [he])
      · exact Or.inr (List.mem_cons_of_mem _ hq2)

theorem sortedP_insertKey {L : List (K × V)} {key : K} {val : V}
    (h : List.Pairwise (fun p q => p.1 < q.1) L) :
    List.Pairwise (fun p q => p.1 < q.1) (insertKey key val L) := by
  induction L with
  | nil => simp [insertKey]
  | cons p L ih =>
    obtain ⟨a, w⟩ := p
    rw [List.pairwise_cons] at h
    obtain ⟨ha, hL⟩ := h
    rw [insertKey]
    by_cases h1 : key < a
    · rw [if_pos h1]
      refine List.Pairwise.cons ?_ (List.Pairwise.cons ha hL)
      intro q hq
      rcases List.mem_cons.1 hq with rfl | hq2
      · exact h1
      · exact h1.trans (ha q hq2)
    · rw [if_neg h1]
      by_cases h2 : a < key
      · rw [if_pos h2]
        refine List.Pairwise.cons ?_ (ih hL)
        intro q hq
        rcases mem_insertKey hq with rfl | hq2
        · exact h2
        · exact ha q hq2
      · have he : a = key := le_antisymm (not_lt.1 h1) (not_lt.1 h2)
        rw [if_neg h2]
        exact List.Pairwise.cons (fun q hq => he ▸ ha q hq) hL

theorem lookup_eraseKey_self {L : List (K × V)} {key : K}
    (h : List.Pairwise (fun p q => p.1 < q.1) L) :
    lookupKey (eraseKey key L) key = none := by
  induction L with
  | nil => rfl
  | cons p L ih =>
    obtain ⟨a, w⟩ := p
    rw [List.pairwise_cons] at h
    obtain ⟨ha, hL⟩ := h
    rw [eraseKey]
    by_cases he : a = key
    · rw [if_pos he]
      refine lookup_none_of_forall fun q hq => ?_
      have hx := ha q hq
      rw [he] at hx
      exact hx.ne' 
    · rw [if_neg he, lookupKey, if_neg he]
      exact ih hL

theorem balance_ne_nil {l r : RBNode K V} {k : K} {v : V} {c : Bool} {sz : Nat} :
    balance (RBNode.node k v l r c sz) ≠ .nil := by
  intro hq
  have he := inorder_balance (RBNode.node k v l r c sz)
  rw [hq] at he
  simp [inorder_node] at he

theorem put_ne_nil (t : RBNode K V) (key : K) (val : V) : put t key val ≠ .nil := by
  rcases t with _ | ⟨k, v, l, r, c, sz⟩
  · rw [put]
    simp
  · rw [put]
    split_ifs <;> exact balance_ne_nil


/-!  Invariant preservation by `put` and small `blacken` bookkeeping. -/

@[simp] theorem inorder_blacken (t : RBNode K V) : inorder (blacken t) = inorder t := by
  rcases t with _ | ⟨k, v, l, r, c, sz⟩ <;> rfl

@[simp] theorem sizeOk_blacken (t : RBNode K V) : sizeOk (blacken t) = sizeOk t := by
  rcases t with _ | ⟨k, v, l, r, c, sz⟩ <;> rfl

/-- The balance preservation property of `put`: on a valid black-rooted
tree the result is valid with either root color at the same index; on a
valid red-rooted tree the result is valid red or has a red root with a red
left child over valid subtrees (fixed by the caller). -/
theorem put_bal (key : K) (val : V) : ∀ (t : RBNode K V) (n : Nat),
    (Bal t false n → Bal (put t key val) false n ∨ Bal (put t key val) true n) ∧
    (Bal t true n → Bal (put t key val) true n ∨ RedRed (put t key val) n) := by
  intro t
  induction t with
  | nil =>
    intro n
    constructor
    · intro h
      cases h
      right
      rw [put]
      exact Bal.red Bal.nil Bal.nil
    · intro h
      cases h
  | node k1 v1 l r c sz ihl ihr =>
    intro n
    constructor
    · intro h
      obtain rfl : c = false := by simpa using isRed_eq h
      obtain ⟨m, cl, hn, hl, hr⟩ := bal_black_node_inv h
      subst hn
      rw [put]
      split_ifs with h1 h2
      · rcases cl with _ | _
        · rcases (ihl m).1 hl with hb | hb
          · exact Or.inl (balance_bb hb hr)
          · exact Or.inl (balance_bb hb hr)
        · rcases (ihl m).2 hl with hb | hb
          · exact Or.inl (balance_bb hb hr)
          · exact Or.inr (balance_b_rrleft hb hr)
      · rcases cl with _ | _
        · rcases (ihr m).1 hr with hb | hb
          · exact Or.inl (balance_bb hl hb)
          · exact Or.inl (balance_b_redright hl hb)
        · rcases (ihr m).1 hr with hb | hb
          · exact Or.inl (balance_bb hl hb)
          · exact Or.inr (balance_b_redred hl hb)
      · exact Or.inl (balance_bb hl hr)
    · intro h
      obtain ⟨hc, hl, hr⟩ := bal_red_node_inv h
      subst hc
      rw [put]
      split_ifs with h1 h2
      · rcases (ihl n).1 hl with hb | hb
        · exact Or.inl (balance_rr hb hr)
        · exact Or.inr (balance_r_redleft hb hr)
      · rcases (ihr n).1 hr with hb | hb
        · exact Or.inl (balance_rr hl hb)
        · exact Or.inr (balance_r_redright hl hb)
      · exact Or.inl (balance_rr hl hr)

theorem sortedP_put {t : RBNode K V} (hs : SortedP t) (key : K) (val : V) :
    SortedP (put t key val) := by
  unfold SortedP
  rw [put_inorder hs]
  exact sortedP_insertKey hs

/-- `Put` preserves validity outright: whatever `put` leaves at the root,
the final blackening restores a valid black root. -/
theorem Put_bal {t : RBNode K V} {c : Bool} {n : Nat} (h : Bal t c n) (key : K) (val : V) :
    ∃ m, Bal (Put t key val) false m := by
  rw [Put]
  rcases c with _ | _
  · rcases (put_bal key val t n).1 h with hb | hb
    · rw [blacken_bal_black hb]
      exact ⟨n, hb⟩
    · exact ⟨n + 1, blacken_bal_red hb⟩
  · rcases (put_bal key val t n).2 h with hb | hb
    · exact ⟨n + 1, blacken_bal_red hb⟩
    · exact ⟨n + 1, blacken_redred hb⟩

/-- `Contains` decides key membership on a sorted tree. -/
theorem contains_iff_mem {t : RBNode K V} (hs : SortedP t) (key : K) :
    Contains t key = true ↔ key ∈ (inorder t).map Prod.fst := by
  rw [Contains, Get, get_eq_lookup hs]
  cases hL : lookupKey (inorder t) key with
  | some w =>
    simp only [exceptOf]
    constructor
    · intro _
      by_contra hq
      rw [lookup_eq_none_iff.2 hq] at hL
      exact absurd hL (by simp)
    · intro _
      trivial
  | none =>
    simp only [exceptOf]
    constructor
    · intro hq
      exact absurd hq (by simp)
    · intro hq
      exact absurd (lookup_eq_none_iff.1 hL) (fun hx => hx hq)

theorem eraseKey_sublist (key : K) : ∀ L : List (K × V), (eraseKey key L).Sublist L := by
  intro L
  induction L with
  | nil => exact List.Sublist.refl _
  | cons p L ih =>
    rw [eraseKey]
    split
    · exact List.sublist_cons_self _ _
    · exact List.Sublist.cons₂ _ ih


/-!  The §3 data-model invariant in proof form, its preservation by the
four public mutating operations, and its equivalence with the executable
full-tree-walk checkers. -/

/-- Sorted listing, size consistency, and balance at some root color and
index. -/
def Inv (t : RBNode K V) : Prop :=
  SortedP t ∧ sizeOk t = true ∧ ∃ c n, Bal t c n

theorem Inv_nil : Inv (RBNode.nil : RBNode K V) :=
  ⟨List.Pairwise.nil, rfl, false, 0, Bal.nil⟩

theorem isEmpty_iff_nil {t : RBNode K V} (h : sizeOk t = true) :
    IsEmpty t = true ↔ t = .nil := by
  rcases t with _ | ⟨k, v, l, r, c, sz⟩
  · simp [IsEmpty, Size, size]
  · simp only [sizeOk_node, Bool.and_eq_true, beq_iff_eq] at h
    constructor
    · intro hq
      rw [IsEmpty, Size] at hq
      simp at hq
      obtain ⟨⟨h1, _⟩, _⟩ := h
      omega
    · intro hq
      exact absurd hq (by simp)

theorem Put_inv {t : RBNode K V} (h : Inv t) (key : K) (val : V) : Inv (Put t key val) := by
  obtain ⟨hs, hsz, c, n, hb⟩ := h
  refine ⟨?_, ?_, ?_⟩
  · unfold SortedP
    rw [Put, inorder_blacken, put_inorder hs]
    exact sortedP_insertKey hs
  · rw [Put, sizeOk_blacken]
    exact sizeOk_put hsz key val
  · obtain ⟨m, hm⟩ := Put_bal hb key val
    exact ⟨false, m, hm⟩

/-- `Delete` under the invariant: it never fails (no nil dereference); an
absent key leaves the tree unchanged with `ErrAbsentKey`; a present key
removes exactly that pair and preserves the invariant. -/
theorem Delete_spec {t : RBNode K V} (h : Inv t) (key : K) :
    ∃ t2 e, Delete t key = some (t2, e) ∧ Inv t2 ∧
      ((Contains t key = false ∧ t2 = t ∧ e = some STError.absentKey) ∨
       (Contains t key = true ∧ e = none ∧ inorder t2 = eraseKey key (inorder t))) := by
  obtain ⟨hs, hsz, c0, n, hb⟩ := h
  by_cases hC : Contains t key = true
  · have hmem := (contains_iff_mem hs key).1 hC
    rcases t with _ | ⟨k, v, l, r, c1, sz⟩
    · simp at hmem
    obtain rfl : c1 = c0 := by simpa using isRed_eq hb
    have hDeq : Delete (RBNode.node k v l r c1 sz) key =
        match delete (if !(isRed l) && !(isRed r) then RBNode.node k v l r red sz
          else RBNode.node k v l r c1 sz) key with
        | none => none
        | some t2 => some (t2, none) := by
      rw [Delete.eq_def, if_neg (by simp [hC])]
    rw [hDeq]
    by_cases hcond : (!(isRed l) && !(isRed r)) = true
    · rw [if_pos hcond]
      simp only [Bool.and_eq_true, Bool.not_eq_true'] at hcond
      have hrb : ∃ m, Bal (RBNode.node k v l r red sz) true m := by
        rcases c1 with _ | _
        · obtain ⟨m, cl, hn, hl, hr⟩ := bal_black_node_inv hb
          obtain rfl : cl = false := by
            rw [isRed_eq hl] at hcond
            exact hcond.1
          exact ⟨m, Bal.red hl hr⟩
        · exact ⟨n, hb⟩
      obtain ⟨m, hrb⟩ := hrb
      obtain ⟨t2, hd, ⟨c2, hb2⟩, hio⟩ :=
        (delete_bal (numNodes (RBNode.node k v l r red sz))
          (RBNode.node k v l r red sz) key le_rfl hs hmem m).1 hrb
      rw [hd]
      refine ⟨t2, none, rfl, ⟨?_, ?_, c2, m, hb2⟩, Or.inr ⟨hC, rfl, hio⟩⟩
      · unfold SortedP
        rw [hio]
        exact List.Pairwise.sublist (eraseKey_sublist key _) hs
      · exact sizeOk_delete (numNodes (RBNode.node k v l r red sz)) _ key le_rfl hsz _ hd
    · rw [if_neg hcond]
      have hcf : c1 = false := by
        rcases c1 with _ | _
        · rfl
        · obtain ⟨_, hl, hr⟩ := bal_red_node_inv hb
          exact absurd (by simp [isRed_eq hl, isRed_eq hr] :
            (!(isRed l) && !(isRed r)) = true) hcond
      subst hcf
      have hlred : isRed l = true := by
        obtain ⟨m, cl, hn, hl, hr⟩ := bal_black_node_inv hb
        rcases hq : isRed l with _ | _
        · exact absurd (by simp [hq, isRed_eq hr] :
            (!(isRed l) && !(isRed r)) = true) hcond
        · rfl
      obtain ⟨t2, hd, hb2, hio⟩ :=
        (delete_bal (numNodes (RBNode.node k v l r false sz))
          (RBNode.node k v l r false sz) key le_rfl hs hmem n).2.1 hb
          (by simpa using hlred)
      rw [hd]
      refine ⟨t2, none, rfl, ⟨?_, ?_, false, n, hb2⟩, Or.inr ⟨hC, rfl, hio⟩⟩
      · unfold SortedP
        rw [hio]
        exact List.Pairwise.sublist (eraseKey_sublist key _) hs
      · exact sizeOk_delete (numNodes (RBNode.node k v l r false sz)) _ key le_rfl hsz _ hd
  · rw [Delete.eq_def, if_pos (by simp [Bool.not_eq_true] at hC ⊢; exact hC)]
    exact ⟨t, some .absentKey, rfl, ⟨hs, hsz, c0, n, hb⟩,
      Or.inl ⟨by simpa using hC, rfl, rfl⟩⟩

/-- `DelMin` under the invariant: it never fails; an empty table reports
`ErrEmptySymbolTable` unchanged; otherwise the smallest pair is removed
and the invariant is preserved. -/
theorem DelMin_spec {t : RBNode K V} (h : Inv t) :
    ∃ t2 e, DelMin t = some (t2, e) ∧ Inv t2 ∧
      ((t = .nil ∧ t2 = t ∧ e = some STError.emptySymbolTable) ∨
       (t ≠ .nil ∧ e = none ∧ inorder t2 = (inorder t).tail)) := by
  obtain ⟨hs, hsz, c0, n, hb⟩ := h
  by_cases hE : IsEmpty t = true
  · rw [DelMin.eq_def, if_pos hE]
    have ht := (isEmpty_iff_nil hsz).1 hE
    exact ⟨t, some .emptySymbolTable, rfl, ⟨hs, hsz, c0, n, hb⟩, Or.inl ⟨ht, rfl, rfl⟩⟩
  · have htne : t ≠ .nil := fun hq => hE ((isEmpty_iff_nil hsz).2 hq)
    rcases t with _ | ⟨k, v, l, r, c1, sz⟩
    · exact absurd rfl htne
    obtain rfl : c1 = c0 := by simpa using isRed_eq hb
    have hDeq : DelMin (RBNode.node k v l r c1 sz) =
        match delMin (if !(isRed l) && !(isRed r) then RBNode.node k v l r red sz
          else RBNode.node k v l r c1 sz) with
        | none => none
        | some t2 => some (if IsEmpty t2 then t2 else blacken t2, none) := by
      rw [DelMin.eq_def, if_neg hE]
    rw [hDeq]
    have hpack : ∃ t2, delMin (if !(isRed l) && !(isRed r) then RBNode.node k v l r red sz
          else RBNode.node k v l r c1 sz) = some t2 ∧ (∃ c2 m, Bal t2 c2 m) ∧
          inorder t2 = (inorder (RBNode.node k v l r c1 sz)).tail := by
      by_cases hcond : (!(isRed l) && !(isRed r)) = true
      · rw [if_pos hcond]
        simp only [Bool.and_eq_true, Bool.not_eq_true'] at hcond
        have hrb : ∃ m, Bal (RBNode.node k v l r red sz) true m := by
          rcases c1 with _ | _
          · obtain ⟨m, cl, hn, hl, hr⟩ := bal_black_node_inv hb
            obtain rfl : cl = false := by
              rw [isRed_eq hl] at hcond
              exact hcond.1
            exact ⟨m, Bal.red hl hr⟩
          · exact ⟨n, hb⟩
        obtain ⟨m, hrb⟩ := hrb
        obtain ⟨t2, hd, ⟨c2, hb2⟩, hio⟩ :=
          (delMin_bal (numNodes (RBNode.node k v l r red sz))
            (RBNode.node k v l r red sz) le_rfl m).1 hrb
        exact ⟨t2, hd, ⟨c2, m, hb2⟩, hio⟩
      · rw [if_neg hcond]
        have hcf : c1 = false := by
          rcases c1 with _ | _
          · rfl
          · obtain ⟨_, hl, hr⟩ := bal_red_node_inv hb
            exact absurd (by simp [isRed_eq hl, isRed_eq hr] :
              (!(isRed l) && !(isRed r)) = true) hcond
        subst hcf
        have hlred : isRed l = true := by
          obtain ⟨m, cl, hn, hl, hr⟩ := bal_black_node_inv hb
          rcases hq : isRed l with _ | _
          · exact absurd (by simp [hq, isRed_eq hr] :
              (!(isRed l) && !(isRed r)) = true) hcond
          · rfl
        obtain ⟨t2, hd, hb2, hio⟩ :=
          (delMin_bal (numNodes (RBNode.node k v l r false sz))
            (RBNode.node k v l r false sz) le_rfl n).2 hb (by simpa using hlred)
        exact ⟨t2, hd, ⟨false, n, hb2⟩, hio⟩
    obtain ⟨t2, hd, ⟨c2, m, hb2⟩, hio⟩ := hpack
    have hsz2 : sizeOk t2 = true := by
      by_cases hcond : (!(isRed l) && !(isRed r)) = true
      · rw [if_pos hcond] at hd
        exact sizeOk_delMin (numNodes (RBNode.node k v l r red sz)) _ le_rfl hsz _ hd
      · rw [if_neg hcond] at hd
        exact sizeOk_delMin (numNodes (RBNode.node k v l r c1 sz)) _ le_rfl hsz _ hd
    have hs2 : SortedP t2 := by
      unfold SortedP
      rw [hio]
      exact List.Pairwise.sublist (List.tail_sublist _) hs
    rw [hd]
    refine ⟨if IsEmpty t2 then t2 else blacken t2, none, rfl, ?_, Or.inr ⟨htne, rfl, ?_⟩⟩
    · split
      · exact ⟨hs2, hsz2, c2, m, hb2⟩
      · refine ⟨by unfold SortedP; rw [inorder_blacken]; exact hs2, by
          rw [sizeOk_blacken]; exact hsz2, ?_⟩
        rcases c2 with _ | _
        · rw [blacken_bal_black hb2]
          exact ⟨false, m, hb2⟩
        · exact ⟨false, m + 1, blacken_bal_red hb2⟩
    · split
      · exact hio
      · rw [inorder_blacken]
        exact hio

/-- `DelMax` under the invariant, symmetric to `DelMin`. -/
theorem DelMax_spec {t : RBNode K V} (h : Inv t) :
    ∃ t2 e, DelMax t = some (t2, e) ∧ Inv t2 ∧
      ((t = .nil ∧ t2 = t ∧ e = some STError.emptySymbolTable) ∨
       (t ≠ .nil ∧ e = none ∧ inorder t2 = (inorder t).dropLast)) := by
  obtain ⟨hs, hsz, c0, n, hb⟩ := h
  by_cases hE : IsEmpty t = true
  · rw [DelMax.eq_def, if_pos hE]
    have ht := (isEmpty_iff_nil hsz).1 hE
    exact ⟨t, some .emptySymbolTable, rfl, ⟨hs, hsz, c0, n, hb⟩, Or.inl ⟨ht, rfl, rfl⟩⟩
  · have htne : t ≠ .nil := fun hq => hE ((isEmpty_iff_nil hsz).2 hq)
    rcases t with _ | ⟨k, v, l, r, c1, sz⟩
    · exact absurd rfl htne
    obtain rfl : c1 = c0 := by simpa using isRed_eq hb
    have hDeq : DelMax (RBNode.node k v l r c1 sz) =
        match delMax (if !(isRed l) && !(isRed r) then RBNode.node k v l r red sz
          else RBNode.node k v l r c1 sz) with
        | none => none
        | some t2 => some (if IsEmpty t2 then t2 else blacken t2, none) := by
      rw [DelMax.eq_def, if_neg hE]
    rw [hDeq]
    have hpack : ∃ t2, delMax (if !(isRed l) && !(isRed r) then RBNode.node k v l r red sz
          else RBNode.node k v l r c1 sz) = some t2 ∧ (∃ c2 m, Bal t2 c2 m) ∧
          inorder t2 = (inorder (RBNode.node k v l r c1 sz)).dropLast := by
      by_cases hcond : (!(isRed l) && !(isRed r)) = true
      · rw [if_pos hcond]
        simp only [Bool.and_eq_true, Bool.not_eq_true'] at hcond
        have hrb : ∃ m, Bal (RBNode.node k v l r red sz) true m := by
          rcases c1 with _ | _
          · obtain ⟨m, cl, hn, hl, hr⟩ := bal_black_node_inv hb
            obtain rfl : cl = false := by
              rw [isRed_eq hl] at hcond
              exact hcond.1
            exact ⟨m, Bal.red hl hr⟩
          · exact ⟨n, hb⟩
        obtain ⟨m, hrb⟩ := hrb
        obtain ⟨t2, hd, ⟨c2, hb2⟩, hio⟩ :=
          (delMax_bal (numNodes (RBNode.node k v l r red sz))
            (RBNode.node k v l r red sz) le_rfl m).1 hrb
        exact ⟨t2, hd, ⟨c2, m, hb2⟩, hio⟩
      · rw [if_neg hcond]
        have hcf : c1 = false := by
          rcases c1 with _ | _
          · rfl
          · obtain ⟨_, hl, hr⟩ := bal_red_node_inv hb
            exact absurd (by simp [isRed_eq hl, isRed_eq hr] :
              (!(isRed l) && !(isRed r)) = true) hcond
        subst hcf
        have hlred : isRed l = true := by
          obtain ⟨m, cl, hn, hl, hr⟩ := bal_black_node_inv hb
          rcases hq : isRed l with _ | _
          · exact absurd (by simp [hq, isRed_eq hr] :
              (!(isRed l) && !(isRed r)) = true) hcond
          · rfl
        obtain ⟨t2, hd, hb2, hio⟩ :=
          (delMax_bal (numNodes (RBNode.node k v l r false sz))
            (RBNode.node k v l r false sz) le_rfl n).2.1 hb (by simpa using hlred)
        exact ⟨t2, hd, ⟨false, n, hb2⟩, hio⟩
    obtain ⟨t2, hd, ⟨c2, m, hb2⟩, hio⟩ := hpack
    have hsz2 : sizeOk t2 = true := by
      by_cases hcond : (!(isRed l) && !(isRed r)) = true
      · rw [if_pos hcond] at hd
        exact sizeOk_delMax (numNodes (RBNode.node k v l r red sz)) _ le_rfl hsz _ hd
      · rw [if_neg hcond] at hd
        exact sizeOk_delMax (numNodes (RBNode.node k v l r c1 sz)) _ le_rfl hsz _ hd
    have hs2 : SortedP t2 := by
      unfold SortedP
      rw [hio]
      exact List.Pairwise.sublist (List.dropLast_sublist _) hs
    rw [hd]
    refine ⟨if IsEmpty t2 then t2 else blacken t2, none, rfl, ?_, Or.inr ⟨htne, rfl, ?_⟩⟩
    · split
      · exact ⟨hs2, hsz2, c2, m, hb2⟩
      · refine ⟨by unfold SortedP; rw [inorder_blacken]; exact hs2, by
          rw [sizeOk_blacken]; exact hsz2, ?_⟩
        rcases c2 with _ | _
        · rw [blacken_bal_black hb2]
          exact ⟨false, m, hb2⟩
        · exact ⟨false, m + 1, blacken_bal_red hb2⟩
    · split
      · exact hio
      · rw [inorder_blacken]
        exact hio

theorem runOp_inv {t : RBNode K V} (h : Inv t) (op : Op K V) :
    ∃ t2, runOp t op = some t2 ∧ Inv t2 := by
  rcases op with ⟨key, val⟩ | key | _ | _
  · exact ⟨Put t key val, rfl, Put_inv h key val⟩
  · obtain ⟨t2, e, hd, h2, _⟩ := Delete_spec h key
    exact ⟨t2, by rw [runOp, hd]; rfl, h2⟩
  · obtain ⟨t2, e, hd, h2, _⟩ := DelMin_spec h
    exact ⟨t2, by rw [runOp, hd]; rfl, h2⟩
  · obtain ⟨t2, e, hd, h2, _⟩ := DelMax_spec h
    exact ⟨t2, by rw [runOp, hd]; rfl, h2⟩

theorem foldlM_runOp_inv : ∀ (ops : List (Op K V)) (t : RBNode K V), Inv t →
    ∃ t2, List.foldlM runOp t ops = some t2 ∧ Inv t2 := by
  intro ops
  induction ops with
  | nil =>
    intro t h
    exact ⟨t, rfl, h⟩
  | cons op ops ih =>
    intro t h
    obtain ⟨t1, h1, hinv1⟩ := runOp_inv h op
    obtain ⟨t2, h2, hinv2⟩ := ih t1 hinv1
    refine ⟨t2, ?_, hinv2⟩
    rw [List.foldlM_cons, h1]
    exact h2

theorem run_inv (ops : List (Op K V)) : ∃ t, run ops = some t ∧ Inv t :=
  foldlM_runOp_inv ops .nil Inv_nil

/-!  `Inv` implies the executable §3 checkers. -/

theorem allKeys_eq_true_iff {p : K → Bool} : ∀ {t : RBNode K V},
    allKeys p t = true ↔ ∀ q ∈ inorder t, p q.1 = true := by
  intro t
  induction t with
  | nil => simp [allKeys]
  | node k v l r c sz ihl ihr =>
    rw [allKeys]
    simp only [Bool.and_eq_true, ihl, ihr, inorder_node, List.mem_append, List.mem_cons]
    constructor
    · rintro ⟨⟨hk, hL⟩, hR⟩ q (hq | hq | hq)
      · exact hL q hq
      · subst hq
        exact hk
      · exact hR q hq
    · intro hq
      exact ⟨⟨hq (k, v) (Or.inr (Or.inl rfl)), fun q h2 => hq q (Or.inl h2)⟩,
        fun q h2 => hq q (Or.inr (Or.inr h2))⟩

theorem ordered_of_sorted : ∀ {t : RBNode K V}, SortedP t → ordered t = true := by
  intro t
  induction t with
  | nil => intro _; rfl
  | node k v l r c sz ihl ihr =>
    intro hs
    obtain ⟨hsl, hsr, hbl, hbr⟩ := sorted_node_inv hs
    rw [ordered]
    simp only [Bool.and_eq_true]
    refine ⟨⟨⟨?_, ?_⟩, ihl hsl⟩, ihr hsr⟩
    · rw [allKeys_eq_true_iff]
      intro q hq
      simpa using hbl q hq
    · rw [allKeys_eq_true_iff]
      intro q hq
      simpa using hbr q hq

theorem bal_checks : ∀ {t : RBNode K V} {c : Bool} {n : Nat}, Bal t c n →
    noRedRight t = true ∧ noRedRedLeft t = true ∧ bhOk t = true ∧
      blackHeight t = n + (if c then 1 else 0) := by
  intro t
  induction t with
  | nil =>
    intro c n h
    cases h
    exact ⟨rfl, rfl, rfl, rfl⟩
  | node k v l r col sz ihl ihr =>
    intro c n h
    rcases col with _ | _
    · obtain rfl : c = false := by simpa using isRed_eq h
      obtain ⟨m, cl, hn, hl, hr⟩ := bal_black_node_inv h
      subst hn
      obtain ⟨h1l, h2l, h3l, h4l⟩ := ihl hl
      obtain ⟨h1r, h2r, h3r, h4r⟩ := ihr hr
      refine ⟨?_, ?_, ?_, ?_⟩
      · rw [noRedRight]
        simp [isRed_eq hr, h1l, h1r]
      · rw [noRedRedLeft]
        simp [h2l, h2r]
      · rw [bhOk]
        rcases cl with _ | _
        · simp [isRed_eq hl, isRed_eq hr, h3l, h3r, h4l, h4r]
        · simp [isRed_eq hl, isRed_eq hr, h3l, h3r, h4l, h4r]
      · rw [blackHeight]
        rcases cl with _ | _
        · simp [isRed_eq hl, h4l]
        · simp [isRed_eq hl, h4l]
    · obtain rfl : c = true := by simpa using isRed_eq h
      obtain ⟨_, hl, hr⟩ := bal_red_node_inv h
      obtain ⟨h1l, h2l, h3l, h4l⟩ := ihl hl
      obtain ⟨h1r, h2r, h3r, h4r⟩ := ihr hr
      refine ⟨?_, ?_, ?_, ?_⟩
      · rw [noRedRight]
        simp [isRed_eq hr, h1l, h1r]
      · rw [noRedRedLeft]
        simp [isRed_eq hl, h2l, h2r]
      · rw [bhOk]
        simp [isRed_eq hl, isRed_eq hr, h3l, h3r, h4l, h4r]
      · rw [blackHeight]
        simp [isRed_eq hl, h4l]

theorem invariants_of_inv {t : RBNode K V} (h : Inv t) : invariants t = true := by
  obtain ⟨hs, hsz, c, n, hb⟩ := h
  obtain ⟨h1, h2, h3, _⟩ := bal_checks hb
  rw [invariants]
  simp [ordered_of_sorted hs, hsz, h1, h2, h3]


/-!  Order statistics: `rank` counts strictly smaller stored keys and
signals absence; `selectRecursive` indexes the in-order listing. -/

theorem size_eq_length {t : RBNode K V} (h : sizeOk t = true) :
    size t = (inorder t).length := by
  induction t with
  | nil => rfl
  | node k v l r c sz ihl ihr =>
    simp only [sizeOk_node, Bool.and_eq_true, beq_iff_eq] at h
    obtain ⟨⟨h1, h2⟩, h3⟩ := h
    rw [size_node, inorder_node, List.length_append, List.length_cons, h1,
      ihl h2, ihr h3]
    omega

theorem rank_spec {t : RBNode K V} (hs : SortedP t) (hz : sizeOk t = true) (key : K) :
    rank t key = ((inorder t).countP (fun p => decide (p.1 < key)),
      if key ∈ (inorder t).map Prod.fst then none else some STError.absentKey) := by
  induction t with
  | nil => simp [rank, List.countP_nil]
  | node k v l r c sz ihl ihr =>
    obtain ⟨hsl, hsr, hbl, hbr⟩ := sorted_node_inv hs
    simp only [sizeOk_node, Bool.and_eq_true, beq_iff_eq] at hz
    obtain ⟨⟨hz1, hz2⟩, hz3⟩ := hz
    rw [rank, inorder_node]
    by_cases h1 : key < k
    · rw [if_pos (compare_lt_iff.2 h1), ihl hsl hz2]
      have hcr : ((k, v) :: inorder r).countP (fun p => decide (p.1 < key)) = 0 := by
        rw [List.countP_eq_zero]
        intro p hp
        rcases List.mem_cons.1 hp with rfl | hp2
        · simp [lt_asymm h1]
        · simp [lt_asymm (h1.trans (hbr p hp2))]
      have hmm : (key ∈ (List.map Prod.fst (inorder l ++ (k, v) :: inorder r))) ↔
          key ∈ List.map Prod.fst (inorder l) := by
        rw [List.map_append, List.mem_append]
        constructor
        · rintro (hq | hq)
          · exact hq
          · exfalso
            simp only [List.map_cons, List.mem_cons] at hq
            rcases hq with rfl | hq2
            · exact absurd h1 (lt_irrefl _)
            · obtain ⟨p, hp, hpk⟩ := List.mem_map.1 hq2
              have := hbr p hp
              rw [hpk] at this
              exact absurd (h1.trans this) (lt_irrefl _)
        · exact Or.inl
      rw [List.countP_append, hcr]
      rw [Prod.mk.injEq]
      refine ⟨rfl, ?_⟩
      by_cases hm : key ∈ List.map Prod.fst (inorder l)
      · rw [if_pos hm, if_pos (hmm.2 hm)]
      · rw [if_neg hm, if_neg (fun hq => hm (hmm.1 hq))]
    · by_cases h2 : k < key
      · rw [if_neg (by rw [compare_lt_iff]; exact h1),
          if_pos (compare_gt_iff.2 h2), ihr hsr hz3]
        have hca : (inorder l).countP (fun p => decide (p.1 < key)) =
            (inorder l).length := by
          rw [List.countP_eq_length]
          intro p hp
          simp [(hbl p hp).trans h2]
        have hmm : (key ∈ List.map Prod.fst (inorder l ++ (k, v) :: inorder r)) ↔
            key ∈ List.map Prod.fst (inorder r) := by
          rw [List.map_append, List.mem_append]
          constructor
          · rintro (hq | hq)
            · exfalso
              obtain ⟨p, hp, hpk⟩ := List.mem_map.1 hq
              have := (hbl p hp).trans h2
              rw [hpk] at this
              exact absurd this (lt_irrefl _)
            · simp only [List.map_cons, List.mem_cons] at hq
              rcases hq with rfl | hq2
              · exact absurd h2 (lt_irrefl _)
              · exact hq2
          · intro hq
            exact Or.inr (by simp only [List.map_cons, List.mem_cons]; exact Or.inr hq)
        rw [List.countP_append, List.countP_cons, hca]
        rw [Prod.mk.injEq]
        refine ⟨?_, ?_⟩
        · have hd : (decide ((k, v).1 < key) : Bool) = true := by simp [h2]
          rw [hd, if_pos rfl, size_eq_length hz2]
          omega
        · by_cases hm : key ∈ List.map Prod.fst (inorder r)
          · rw [if_pos hm, if_pos (hmm.2 hm)]
          · rw [if_neg hm, if_neg (fun hq => hm (hmm.1 hq))]
      · have he : key = k := le_antisymm (not_lt.1 h2) (not_lt.1 h1)
        rw [if_neg (by rw [compare_lt_iff]; exact h1),
          if_neg (by rw [compare_gt_iff]; exact h2)]
        have hca : (inorder l).countP (fun p => decide (p.1 < key)) =
            (inorder l).length := by
          rw [List.countP_eq_length]
          intro p hp
          simp [he ▸ (hbl p hp)]
        have hcr : ((k, v) :: inorder r).countP (fun p => decide (p.1 < key)) = 0 := by
          rw [List.countP_eq_zero]
          intro p hp
          rcases List.mem_cons.1 hp with rfl | hp2
          · simp [he]
          · have hx := hbr p hp2
            simp [he, asymm hx]
        rw [List.countP_append, hca, hcr]
        rw [Prod.mk.injEq]
        refine ⟨by rw [size_eq_length hz2]; omega, ?_⟩
        rw [if_pos]
        rw [List.map_append, List.mem_append]
        exact Or.inr (by simp [he])

theorem selectRecursive_spec {t : RBNode K V} (hz : sizeOk t = true) :
    ∀ i : Nat, i < size t →
      selectRecursive t i = ((inorder t)[i]?).map Prod.fst := by
  induction t with
  | nil =>
    intro i hi
    simp [size] at hi
  | node k v l r c sz ihl ihr =>
    intro i hi
    simp only [sizeOk_node, Bool.and_eq_true, beq_iff_eq] at hz
    obtain ⟨⟨hz1, hz2⟩, hz3⟩ := hz
    rw [selectRecursive, inorder_node]
    by_cases h1 : size l > i
    · rw [if_pos h1, ihl hz2 i h1]
      rw [size_eq_length hz2] at h1
      rw [List.getElem?_append, if_pos h1]
    · rw [if_neg h1]
      by_cases h2 : size l < i
      · rw [if_pos h2]
        have hlen : (inorder l).length ≤ i := by
          rw [← size_eq_length hz2]
          omega
        rw [List.getElem?_append_right hlen]
        have hstep : i - (inorder l).length = (i - size l - 1) + 1 := by
          rw [← size_eq_length hz2]
          omega
        rw [hstep, List.getElem?_cons_succ]
        refine ihr hz3 _ ?_
        rw [size_node] at hi
        omega
      · have he : size l = i := by omega
        rw [if_neg h2]
        have hlen : (inorder l).length ≤ i := by
          rw [← size_eq_length hz2]
          omega
        rw [List.getElem?_append_right hlen]
        have hstep : i - (inorder l).length = 0 := by
          rw [← size_eq_length hz2]
          omega
        rw [hstep, List.getElem?_cons_zero]
        rfl


theorem compare_le_iff [LinearOrder K] {a b : K} : compare a b ≤ 0 ↔ a ≤ b := by
  unfold compare
  split_ifs with h1 h2
  · simp [le_of_lt h1]
  · simp [not_le.2 h2]
  · simp [le_antisymm (not_lt.1 h2) (not_lt.1 h1)]

theorem compare_ge_iff [LinearOrder K] {a b : K} : compare a b ≥ 0 ↔ b ≤ a := by
  unfold compare
  split_ifs with h1 h2
  · simp [not_le.2 h1]
  · simp [le_of_lt h2]
  · simp [le_antisymm (not_lt.1 h1) (not_lt.1 h2)]

/-!  Duality of `rank` and `select` on a sorted listing. -/

theorem sorted_countP_getElem {L : List (K × V)}
    (h : List.Pairwise (fun p q => p.1 < q.1) L) :
    ∀ (i : Nat) (hi : i < L.length),
      L.countP (fun p => decide (p.1 < (L[i]).1)) = i := by
  induction L with
  | nil =>
    intro i hi
    simp at hi
  | cons p L ih =>
    obtain ⟨a, w⟩ := p
    rw [List.pairwise_cons] at h
    obtain ⟨ha, hL⟩ := h
    intro i hi
    cases i with
    | zero =>
      rw [List.getElem_cons_zero, List.countP_cons]
      have hz : L.countP (fun p => decide (p.1 < (a, w).1)) = 0 := by
        rw [List.countP_eq_zero]
        intro q hq
        simp [asymm (ha q hq)]
      simp [hz]
    | succ j =>
      rw [List.getElem_cons_succ, List.countP_cons]
      have hj : j < L.length := by
        rw [List.length_cons] at hi
        omega
      have hlt : (a, w).1 < (L[j]).1 := ha _ (L.getElem_mem hj)
      rw [ih hL j hj]
      simp [hlt]

theorem sorted_getElem_countP {L : List (K × V)} {key : K}
    (h : List.Pairwise (fun p q => p.1 < q.1) L)
    (hm : key ∈ L.map Prod.fst) :
    (L[L.countP (fun p => decide (p.1 < key))]?).map Prod.fst = some key := by
  induction L with
  | nil => simp at hm
  | cons p L ih =>
    obtain ⟨a, w⟩ := p
    rw [List.pairwise_cons] at h
    obtain ⟨ha, hL⟩ := h
    by_cases he : key = a
    · subst he
      have hz : ((key, w) :: L).countP (fun p => decide (p.1 < key)) = 0 := by
        rw [List.countP_eq_zero]
        intro q hq
        rcases List.mem_cons.1 hq with rfl | hq2
        · simp
        · simp [asymm (ha q hq2)]
      rw [hz, List.getElem?_cons_zero]
      rfl
    · have hm2 : key ∈ L.map Prod.fst := by
        simp only [List.map_cons, List.mem_cons] at hm
        rcases hm with rfl | hm2
        · exact absurd rfl he
        · exact hm2
      have halt : a < key := by
        obtain ⟨q, hq, hqk⟩ := List.mem_map.1 hm2
        have := ha q hq
        rw [hqk] at this
        exact this
      rw [List.countP_cons]
      have hd : (decide ((a, w).1 < key) : Bool) = true := by simp [halt]
      rw [hd, if_pos rfl, List.getElem?_cons_succ]
      exact ih hL hm2

/-!  `iterator` with an always-true consumer lists the stored pairs whose
keys lie in `[lo, hi]`, and the associated counting identities. -/

theorem iterator_true_spec {t : RBNode K V} (hs : SortedP t) (lo hi : K) :
    iterator (fun _ _ => true) t lo hi =
      (inorder t).filter (fun p => decide (lo ≤ p.1) && decide (p.1 ≤ hi)) := by
  induction t with
  | nil => rfl
  | node k v l r c sz ihl ihr =>
    obtain ⟨hsl, hsr, hbl, hbr⟩ := sorted_node_inv hs
    have e1 : (if compare lo k < 0 then iterator (fun _ _ => true) l lo hi else []) =
        (inorder l).filter (fun p => decide (lo ≤ p.1) && decide (p.1 ≤ hi)) := by
      by_cases h1 : lo < k
      · rw [if_pos (compare_lt_iff.2 h1), ihl hsl]
      · rw [if_neg (by rw [compare_lt_iff]; exact h1)]
        symm
        rw [List.filter_eq_nil_iff]
        intro p hp
        have hx := (hbl p hp).trans_le (not_lt.1 h1)
        simp [not_le.2 hx]
    have e2 : (if compare hi k > 0 then iterator (fun _ _ => true) r lo hi else []) =
        (inorder r).filter (fun p => decide (lo ≤ p.1) && decide (p.1 ≤ hi)) := by
      by_cases h2 : k < hi
      · rw [if_pos (compare_gt_iff.2 h2), ihr hsr]
      · rw [if_neg (by rw [compare_gt_iff]; exact h2)]
        symm
        rw [List.filter_eq_nil_iff]
        intro p hp
        have hx : hi < p.1 := (not_lt.1 h2).trans_lt (hbr p hp)
        simp [not_le.2 hx]
    rw [iterator, inorder_node, List.filter_append]
    simp only []
    by_cases hm : lo ≤ k ∧ k ≤ hi
    · rw [if_pos ⟨compare_le_iff.2 hm.1, compare_ge_iff.2 hm.2⟩, if_pos trivial, e1, e2,
        List.filter_cons_of_pos (by simp [hm.1, hm.2])]
    · rw [if_neg (fun hq => hm ⟨compare_le_iff.1 hq.1, compare_ge_iff.1 hq.2⟩), e1, e2,
        List.filter_cons_of_neg (by
          simp only [Bool.and_eq_true, decide_eq_true_eq]
          exact fun hq => hm hq)]

theorem count_range_split {L : List (K × V)} {lo hi : K} (h : lo ≤ hi) :
    L.countP (fun p => decide (lo ≤ p.1) && decide (p.1 ≤ hi)) +
      L.countP (fun p => decide (p.1 < lo)) =
    L.countP (fun p => decide (p.1 < hi)) +
      L.countP (fun p => decide (p.1 = hi)) := by
  induction L with
  | nil => rfl
  | cons p L ih =>
    obtain ⟨a, w⟩ := p
    simp only [List.countP_cons]
    rcases lt_trichotomy a lo with hc | hc | hc
    · have h4 : a < hi := hc.trans_le h
      simp [not_le.2 hc, hc, h4, ne_of_lt h4]
      omega
    · subst hc
      rcases lt_or_eq_of_le h with hg | hg
      · simp [le_refl, le_of_lt hg, lt_irrefl, hg, ne_of_lt hg]
        omega
      · subst hg
        simp [le_refl, lt_irrefl]
        omega
    · rcases lt_trichotomy a hi with hg | hg | hg
      · simp [le_of_lt hc, le_of_lt hg, not_lt.2 (le_of_lt hc), hg, ne_of_lt hg]
        omega
      · subst hg
        simp [le_of_lt hc, le_refl, not_lt.2 (le_of_lt hc), lt_irrefl]
        omega
      · simp [not_le.2 hg, not_lt.2 (le_of_lt hc), not_lt.2 (le_of_lt hg), ne_of_gt hg]
        omega

theorem sorted_countP_eq_indicator {L : List (K × V)} {hi : K}
    (h : List.Pairwise (fun p q => p.1 < q.1) L) :
    L.countP (fun p => decide (p.1 = hi)) =
      if hi ∈ L.map Prod.fst then 1 else 0 := by
  induction L with
  | nil => simp
  | cons p L ih =>
    obtain ⟨a, w⟩ := p
    rw [List.pairwise_cons] at h
    obtain ⟨ha, hL⟩ := h
    rw [List.countP_cons]
    by_cases he : a = hi
    · subst he
      have hz : L.countP (fun p => decide (p.1 = a)) = 0 := by
        rw [List.countP_eq_zero]
        intro q hq
        simp [(ha q hq).ne']
      simp [hz]
    · rw [ih hL]
      have hmm : (hi ∈ List.map Prod.fst ((a, w) :: L)) ↔ hi ∈ List.map Prod.fst L := by
        simp only [List.map_cons, List.mem_cons]
        constructor
        · rintro (rfl | hq)
          · exact absurd rfl he
          · exact hq
        · exact Or.inr
      by_cases hm : hi ∈ List.map Prod.fst L
      · rw [if_pos hm, if_pos (hmm.2 hm)]
        simp [he]
      · rw [if_neg hm, if_neg (fun hq => hm (hmm.1 hq))]
        simp [he]

/-!  Frame behaviour of `put` on a key that is already present: on a valid
tree the recomputed sizes coincide with the cached ones and no rotation or
flip fires, so only the stored value changes. -/

theorem size_strip (t : RBNode K V) : size (strip t) = size t := by
  rcases t with _ | ⟨k, v, l, r, c, sz⟩ <;> rfl

theorem isRed_strip (t : RBNode K V) : isRed (strip t) = isRed t := by
  rcases t with _ | ⟨k, v, l, r, c, sz⟩ <;> rfl

theorem left_strip (t : RBNode K V) : left (strip t) = strip (left t) := by
  rcases t with _ | ⟨k, v, l, r, c, sz⟩ <;> rfl

theorem strip_blacken (t : RBNode K V) : strip (blacken t) = blacken (strip t) := by
  rcases t with _ | ⟨k, v, l, r, c, sz⟩ <;> rfl

theorem blacken_of_black {t : RBNode K V} (h : isRed t = false) : blacken t = t := by
  rcases t with _ | ⟨k, v, l, r, c, sz⟩
  · rfl
  · simp only [isRed] at h
    rw [blacken, h]
    rfl

theorem noRedRedLeft_head {t : RBNode K V} (h : noRedRedLeft t = true) :
    (isRed t && isRed (left t)) = false := by
  rcases t with _ | ⟨k, v, l, r, c, sz⟩
  · rfl
  · simp only [noRedRedLeft, Bool.and_eq_true, Bool.not_eq_true'] at h
    simpa [isRed, left] using h.1.1

theorem balance_id {k : K} {v : V} {l r : RBNode K V} {c : Bool} {sz : Nat}
    (hr : isRed r = false) (hll : (isRed l && isRed (left l)) = false) :
    balance (RBNode.node k v l r c sz) = .node k v l r c (1 + size l + size r) := by
  rw [balance_node]
  simp [hr, hll, withSize]

theorem put_strip {t : RBNode K V} (hs : SortedP t) (hz : sizeOk t = true)
    (hrr : noRedRight t = true) (hrl : noRedRedLeft t = true)
    {key : K} (hm : key ∈ (inorder t).map Prod.fst) (val : V) :
    strip (put t key val) = strip t := by
  induction t with
  | nil => simp [inorder] at hm
  | node k v l r c sz ihl ihr =>
    obtain ⟨hsl, hsr, hbl, hbr⟩ := sorted_node_inv hs
    simp only [sizeOk_node, Bool.and_eq_true, beq_iff_eq] at hz
    obtain ⟨⟨hsz, hzl⟩, hzr⟩ := hz
    simp only [noRedRight, Bool.and_eq_true, Bool.not_eq_true'] at hrr
    obtain ⟨⟨hredr, hrrl⟩, hrrr⟩ := hrr
    simp only [noRedRedLeft, Bool.and_eq_true, Bool.not_eq_true'] at hrl
    obtain ⟨⟨hclr, hrll⟩, hrlr⟩ := hrl
    rw [put]
    rcases lt_trichotomy key k with hlt | heq | hgt
    · rw [if_pos (compare_lt_iff.2 hlt)]
      have hml : key ∈ (inorder l).map Prod.fst := by
        rcases mem_keys_node.1 hm with hq | hq | hq
        · exact hq
        · rw [hq] at hlt
          exact absurd hlt (lt_irrefl k)
        · obtain ⟨q, hq2, hqk⟩ := List.mem_map.1 hq
          have hx := hbr q hq2
          rw [hqk] at hx
          exact absurd (hlt.trans hx) (lt_irrefl key)
      have ih := ihl hsl hzl hrrl hrll hml
      have e1 : isRed (put l key val) = isRed l := by
        rw [← isRed_strip, ih, isRed_strip]
      have e2 : isRed (left (put l key val)) = isRed (left l) := by
        rw [← isRed_strip, ← left_strip, ih, left_strip, isRed_strip]
      have hsize : size (put l key val) = size l := by
        rw [← size_strip, ih, size_strip]
      rw [balance_id hredr (by rw [e1, e2]; exact noRedRedLeft_head hrll)]
      simp only [strip]
      rw [ih, hsize, hsz]
    · rw [if_neg (by rw [compare_lt_iff]; rw [heq]; exact lt_irrefl k),
        if_neg (by rw [compare_gt_iff]; rw [heq]; exact lt_irrefl k)]
      rw [balance_id hredr (noRedRedLeft_head hrll)]
      simp only [strip]
      rw [hsz]
    · rw [if_neg (by rw [compare_lt_iff]; exact asymm hgt),
        if_pos (compare_gt_iff.2 hgt)]
      have hmr : key ∈ (inorder r).map Prod.fst := by
        rcases mem_keys_node.1 hm with hq | hq | hq
        · obtain ⟨q, hq2, hqk⟩ := List.mem_map.1 hq
          have hx := hbl q hq2
          rw [hqk] at hx
          exact absurd (hgt.trans hx) (lt_irrefl k)
        · rw [hq] at hgt
          exact absurd hgt (lt_irrefl k)
        · exact hq
      have ih := ihr hsr hzr hrrr hrlr hmr
      have e1 : isRed (put r key val) = isRed r := by
        rw [← isRed_strip, ih, isRed_strip]
      have hsize : size (put r key val) = size r := by
        rw [← size_strip, ih, size_strip]
      rw [balance_id (by rw [e1]; exact hredr) (noRedRedLeft_head hrll)]
      simp only [strip]
      rw [ih, hsize, hsz]


/-!  Reduction of `Select` on an in-range index. -/

theorem Select_in_range {t : RBNode K V} (hz : sizeOk t = true) {i : Nat}
    (hi : i < size t) :
    Select t (i : Int) = ((inorder t)[i]?).map (fun p => Except.ok p.1) := by
  rw [Select]
  rw [if_neg ?hc]
  case hc =>
    simp only [Bool.or_eq_true, decide_eq_true_eq]
    push_neg
    refine ⟨Int.natCast_nonneg i, ?_⟩
    show (i : Int) < ((size t : Nat) : Int)
    exact_mod_cast hi
  rw [Int.toNat_natCast, selectRecursive_spec hz i hi]
  cases hx : (inorder t)[i]? <;> rfl

/-!  The ten claims. -/

/-- C1: every sequence of `Put`, `Delete`, `DelMin`, `DelMax` starting from
the empty tree yields a tree satisfying the data-model invariants: BST
ordering, size consistency, no red right link, no red node with a red left
child, and black-height uniformity (all as full-tree executable checks). -/
theorem run_preserves_invariants (ops : List (Op K V)) :
    ∃ t, run ops = some t ∧ invariants t = true := by
  obtain ⟨t, h1, h2⟩ := run_inv ops
  exact ⟨t, h1, invariants_of_inv h2⟩

/-- Reduction of the `Delete` wrapper on a present key: the absent-key
fast path is not taken and the root is reddened when both children are
black, exactly as in the source. -/
theorem Delete_node_present {l r : RBNode K V} {k key : K} {v : V} {c : Bool} {sz : Nat}
    (hC : Contains (RBNode.node k v l r c sz) key = true) :
    Delete (RBNode.node k v l r c sz) key =
      match delete (if !(isRed l) && !(isRed r) then RBNode.node k v l r red sz
        else RBNode.node k v l r c sz) key with
      | none => none
      | some t2 => some (t2, none) := by
  rw [Delete.eq_def, if_neg (by simp [hC])]

/-- C2 counterexample: inserting keys 0, 1, 2, 3 into the empty tree (a
tree satisfying all data-model invariants) and then deleting key 0 — a
present key, so `Delete` succeeds — leaves a tree whose root is red:
`Delete` does not re-blacken the root, contradicting the claim that after
every mutating operation a non-empty tree has a black root. -/
theorem delete_leaves_red_root_counterexample :
    invariants (Put (Put (Put (Put (.nil : RBNode Nat Nat) 0 0) 1 1) 2 2) 3 3) = true ∧
    ∃ t2, Delete (Put (Put (Put (Put (.nil : RBNode Nat Nat) 0 0) 1 1) 2 2) 3 3) 0 =
        some (t2, none) ∧ isRed t2 = true := by
  have e3 : delete (RBNode.node 0 0 (.nil : RBNode Nat Nat) .nil true 1) 0 = some .nil :=
    delete_step_here (by decide) rfl (by decide)
  have h1a : (if !(isRed (RBNode.node 0 0 (.nil : RBNode Nat Nat) .nil true 1)) then
      if isNil (RBNode.node 0 0 (.nil : RBNode Nat Nat) .nil true 1) then none
      else if !(isRed (left (RBNode.node 0 0 (.nil : RBNode Nat Nat) .nil true 1))) then
        moveRedLeft (RBNode.node 1 1 (RBNode.node 0 0 .nil .nil true 1)
          (.nil : RBNode Nat Nat) false 2)
      else some (RBNode.node 1 1 (RBNode.node 0 0 .nil .nil true 1)
        (.nil : RBNode Nat Nat) false 2)
    else some (RBNode.node 1 1 (RBNode.node 0 0 .nil .nil true 1)
      (.nil : RBNode Nat Nat) false 2)) =
      some (RBNode.node 1 1 (RBNode.node 0 0 .nil .nil true 1)
        (.nil : RBNode Nat Nat) false 2) := rfl
  have s2 := delete_step_left (show compare (0 : Nat) 1 < 0 by decide) h1a
  have e2 : delete (RBNode.node 1 1 (RBNode.node 0 0 .nil .nil true 1)
      (.nil : RBNode Nat Nat) false 2) 0 = some (RBNode.node 1 1 .nil .nil false 1) := by
    rw [s2]
    simp only [left]
    rw [e3]
    rfl
  have h1b : (if !(isRed (RBNode.node 0 0 (.nil : RBNode Nat Nat) .nil false 1)) then
      if isNil (RBNode.node 0 0 (.nil : RBNode Nat Nat) .nil false 1) then none
      else if !(isRed (left (RBNode.node 0 0 (.nil : RBNode Nat Nat) .nil false 1))) then
        moveRedLeft (RBNode.node 1 1 (RBNode.node 0 0 .nil .nil false 1)
          (RBNode.node 3 3 (RBNode.node 2 2 .nil .nil true 1) .nil false 2) true 4)
      else some (RBNode.node 1 1 (RBNode.node 0 0 .nil .nil false 1)
        (RBNode.node 3 3 (RBNode.node 2 2 .nil .nil true 1) .nil false 2) true 4)
    else some (RBNode.node 1 1 (RBNode.node 0 0 .nil .nil false 1)
      (RBNode.node 3 3 (RBNode.node 2 2 .nil .nil true 1) .nil false 2) true 4)) =
      some (RBNode.node 2 2 (RBNode.node 1 1 (RBNode.node 0 0 .nil .nil true 1) .nil false 2)
        (RBNode.node 3 3 .nil .nil false 1) true 4) := rfl
  have s1 := delete_step_left (show compare (0 : Nat) 1 < 0 by decide) h1b
  have e1 : delete (RBNode.node 1 1 (RBNode.node 0 0 .nil .nil false 1)
      (RBNode.node 3 3 (RBNode.node 2 2 .nil .nil true 1) .nil false 2) true 4) 0 =
      some (RBNode.node 2 2 (RBNode.node 1 1 .nil .nil false 1)
        (RBNode.node 3 3 .nil .nil false 1) true 3) := by
    rw [s1]
    simp only [left]
    rw [e2]
    rfl
  have hput : Put (Put (Put (Put (.nil : RBNode Nat Nat) 0 0) 1 1) 2 2) 3 3 =
      RBNode.node 1 1 (RBNode.node 0 0 .nil .nil false 1)
        (RBNode.node 3 3 (RBNode.node 2 2 .nil .nil true 1) .nil false 2) false 4 := rfl
  have hif : (if !(isRed (RBNode.node 0 0 (.nil : RBNode Nat Nat) .nil false 1)) &&
      !(isRed (RBNode.node 3 3 (RBNode.node 2 2 .nil .nil true 1) .nil false 2)) then
      RBNode.node 1 1 (RBNode.node 0 0 .nil .nil false 1)
        (RBNode.node 3 3 (RBNode.node 2 2 .nil .nil true 1) .nil false 2) red 4
    else RBNode.node 1 1 (RBNode.node 0 0 .nil .nil false 1)
      (RBNode.node 3 3 (RBNode.node 2 2 .nil .nil true 1) .nil false 2) false 4) =
      RBNode.node 1 1 (RBNode.node 0 0 .nil .nil false 1)
        (RBNode.node 3 3 (RBNode.node 2 2 .nil .nil true 1) .nil false 2) true 4 := rfl
  refine ⟨rfl, RBNode.node 2 2 (RBNode.node 1 1 .nil .nil false 1)
    (RBNode.node 3 3 .nil .nil false 1) true 3, ?_, rfl⟩
  rw [hput, Delete_node_present (by decide), hif, e1]

/-- C3: deleting a key that is not present (also from the empty tree)
returns the `AbsentKey` error and leaves the tree completely unchanged —
the very same tree value is returned, so `Size` and `Iterator` output are
identical before and after the failed call. -/
theorem delete_absent_noop {t : RBNode K V} (hs : SortedP t) {key : K}
    (hk : key ∉ (inorder t).map Prod.fst) :
    ∃ t2, Delete t key = some (t2, some STError.absentKey) ∧ t2 = t ∧
      Size t2 = Size t ∧
      ∀ yield : K → V → Bool, Iterator yield t2 = Iterator yield t := by
  have hc : Contains t key = false := by
    cases hcc : Contains t key with
    | false => rfl
    | true => exact absurd ((contains_iff_mem hs key).1 hcc) hk
  refine ⟨t, ?_, rfl, rfl, fun _ => rfl⟩
  rw [Delete.eq_def, if_pos (by rw [hc]; rfl)]

/-- C4: round-trip — `Get key` right after `Put key val` returns `val`;
and on a tree containing `key`, a successful `Delete key` followed by
`Get key` yields the `AbsentKey` error. -/
theorem put_get_delete_roundtrip {t : RBNode K V} (h : Inv t) (key : K) (val : V) :
    Get (Put t key val) key = Except.ok val ∧
    (Contains t key = true →
      ∃ t2, Delete t key = some (t2, none) ∧
        Get t2 key = Except.error STError.absentKey) := by
  obtain ⟨hs, hz, c0, n, hb⟩ := h
  constructor
  · have hsp : SortedP (Put t key val) := by
      unfold SortedP
      rw [Put, inorder_blacken, put_inorder hs]
      exact sortedP_insertKey hs
    rw [Get, get_eq_lookup hsp, Put, inorder_blacken, put_inorder hs,
      lookup_insertKey_self]
    rfl
  · intro hcont
    obtain ⟨t2, e, hd, hinv2, hcase⟩ := Delete_spec ⟨hs, hz, c0, n, hb⟩ key
    rcases hcase with ⟨hcf, -, -⟩ | ⟨-, rfl, hio⟩
    · rw [hcont] at hcf
      exact absurd hcf (by simp)
    · refine ⟨t2, hd, ?_⟩
      obtain ⟨hs2, -, -⟩ := hinv2
      rw [Get, get_eq_lookup hs2, hio, lookup_eraseKey_self hs]
      rfl

/-- C5 counterexample: on the three-key tree {0, 1, 2} (all invariants
hold), `Iterator` driven by a consumer that returns `false` on its very
first invocation still invokes the consumer a second time: the invocation
list is `[(0,0), (1,1)]` although the consumer answered `false` on every
invocation.  The claimed early-exit contract (yield never invoked again
after returning false) does not hold of the source. -/
theorem iterator_ignores_early_exit_counterexample :
    invariants (Put (Put (Put (.nil : RBNode Nat Nat) 0 0) 1 1) 2 2) = true ∧
    Iterator (fun _ _ => false) (Put (Put (Put (.nil : RBNode Nat Nat) 0 0) 1 1) 2 2) =
      [(0, 0), (1, 1)] ∧
    ∀ p ∈ [((0 : Nat), (0 : Nat)), (1, 1)], (fun (_ _ : Nat) => false) p.1 p.2 = false := by
  exact ⟨rfl, rfl, by decide⟩

/-- C6: order-statistics duality on a valid tree — for every index
`i < Size`, `Select i` succeeds with a key whose `Rank` is exactly
`(i, no error)`; and for every key the tree contains,
`Select (Rank key)` succeeds and returns that very key. -/
theorem rank_select_duality {t : RBNode K V} (h : Inv t) :
    (∀ i : Nat, i < Size t →
      ∃ key, Select t (i : Int) = some (Except.ok key) ∧ Rank t key = (i, none)) ∧
    (∀ key : K, Contains t key = true →
      Select t (((Rank t key).1 : Int)) = some (Except.ok key)) := by
  obtain ⟨hs, hz, -⟩ := h
  constructor
  · intro i hi
    have hisz : i < size t := hi
    have hlen : i < (inorder t).length := by rwa [← size_eq_length hz]
    refine ⟨((inorder t)[i]).1, ?_, ?_⟩
    · rw [Select_in_range hz hisz, List.getElem?_eq_getElem hlen]
      rfl
    · rw [Rank, rank_spec hs hz, sorted_countP_getElem hs i hlen,
        if_pos (List.mem_map.2 ⟨_, (inorder t).getElem_mem hlen, rfl⟩)]
  · intro key hk
    have hm := (contains_iff_mem hs key).1 hk
    have hge := sorted_getElem_countP hs hm
    have hr1 : (Rank t key).1 = (inorder t).countP (fun p => decide (p.1 < key)) := by
      rw [Rank, rank_spec hs hz]
    have hjlen : (inorder t).countP (fun p => decide (p.1 < key)) <
        (inorder t).length := by
      by_contra hq
      rw [List.getElem?_eq_none (not_lt.1 hq)] at hge
      simp at hge
    have hjsz : (inorder t).countP (fun p => decide (p.1 < key)) < size t := by
      rwa [size_eq_length hz]
    rw [hr1, Select_in_range hz hjsz]
    cases hx : (inorder t)[(inorder t).countP (fun p => decide (p.1 < key))]? with
    | none =>
      rw [hx] at hge
      simp at hge
    | some q =>
      rw [hx] at hge
      simp at hge
      simp [hge]

/-- C7: range consistency on a valid tree — `RangeSize lo hi` equals the
number of pairs a fully-consuming `RangeIterator lo hi` yields, which is
the number of stored keys in `[lo, hi]`; and when `lo > hi` the size is 0
and the iteration is empty. -/
theorem range_size_matches_range_iterator {t : RBNode K V} (h : Inv t) (lo hi : K) :
    RangeSize t lo hi = ((RangeIterator (fun _ _ => true) t lo hi).length : Int) ∧
    (RangeIterator (fun _ _ => true) t lo hi).length =
      (inorder t).countP (fun p => decide (lo ≤ p.1) && decide (p.1 ≤ hi)) ∧
    (hi < lo → RangeSize t lo hi = 0 ∧
      RangeIterator (fun _ _ => true) t lo hi = []) := by
  obtain ⟨hs, hz, -⟩ := h
  by_cases hgt : hi < lo
  · have hcg : compare lo hi > 0 := compare_gt_iff.2 hgt
    have hri : RangeIterator (fun _ _ => true) t lo hi = [] := by
      rw [RangeIterator, if_pos hcg]
    have hrs : RangeSize t lo hi = 0 := by
      rw [RangeSize, if_pos hcg]
    have hcz : (inorder t).countP
        (fun p => decide (lo ≤ p.1) && decide (p.1 ≤ hi)) = 0 := by
      rw [List.countP_eq_zero]
      intro p hp
      simp only [Bool.and_eq_true, decide_eq_true_eq, not_and]
      intro h1 h2
      exact absurd (h1.trans h2) (not_le.2 hgt)
    refine ⟨?_, ?_, fun _ => ⟨hrs, hri⟩⟩
    · rw [hrs, hri]
      rfl
    · rw [hri, hcz]
      rfl
  · have hle : lo ≤ hi := not_lt.1 hgt
    have hcg : ¬ compare lo hi > 0 := by
      rw [compare_gt_iff]
      exact hgt
    have hri : RangeIterator (fun _ _ => true) t lo hi =
        (inorder t).filter (fun p => decide (lo ≤ p.1) && decide (p.1 ≤ hi)) := by
      rw [RangeIterator, if_neg hcg, iterator_true_spec hs]
    have hlen : (RangeIterator (fun _ _ => true) t lo hi).length =
        (inorder t).countP (fun p => decide (lo ≤ p.1) && decide (p.1 ≤ hi)) := by
      rw [hri, List.countP_eq_length_filter]
    refine ⟨?_, hlen, fun hq => absurd hq hgt⟩
    rw [RangeSize, if_neg hcg, hlen]
    have e1 : (Rank t hi).1 = (inorder t).countP (fun p => decide (p.1 < hi)) := by
      rw [Rank, rank_spec hs hz]
    have e2 : (Rank t lo).1 = (inorder t).countP (fun p => decide (p.1 < lo)) := by
      rw [Rank, rank_spec hs hz]
    have e3 : (if (Rank t hi).2 = none then (1 : Int) else 0) =
        ((inorder t).countP (fun p => decide (p.1 = hi)) : Int) := by
      rw [Rank, rank_spec hs hz, sorted_countP_eq_indicator hs]
      by_cases hmem : hi ∈ (inorder t).map Prod.fst
      · simp [hmem]
      · simp [hmem]
    have hkey : (inorder t).countP (fun p => decide (lo ≤ p.1) && decide (p.1 ≤ hi)) +
          (inorder t).countP (fun p => decide (p.1 < lo)) =
        (inorder t).countP (fun p => decide (p.1 < hi)) +
          (inorder t).countP (fun p => decide (p.1 = hi)) :=
      count_range_split hle
    rw [e1, e2, e3]
    omega

/-- C8: `Rank key` succeeds (returns a nil error) exactly when the key is
present; its count component is the number of stored keys strictly smaller
than `key`; on an absent key it fails with the `AbsentKey` error. -/
theorem rank_succeeds_iff_present {t : RBNode K V} (h : Inv t) (key : K) :
    ((Rank t key).2 = none ↔ Contains t key = true) ∧
    (Rank t key).1 = (inorder t).countP (fun p => decide (p.1 < key)) ∧
    (Contains t key = false → (Rank t key).2 = some STError.absentKey) := by
  obtain ⟨hs, hz, -⟩ := h
  have hr := rank_spec hs hz key
  have hcm := contains_iff_mem hs key
  by_cases hmem : key ∈ (inorder t).map Prod.fst
  · refine ⟨⟨fun _ => hcm.2 hmem, fun _ => ?_⟩, ?_, fun hc => ?_⟩
    · rw [Rank, hr]
      simp [hmem]
    · rw [Rank, hr]
    · rw [← Bool.not_eq_true] at hc
      exact absurd (hcm.2 hmem) hc
  · refine ⟨⟨fun h2 => ?_, fun hc => absurd (hcm.1 hc) hmem⟩, ?_, fun _ => ?_⟩
    · rw [Rank, hr] at h2
      simp [hmem] at h2
    · rw [Rank, hr]
    · rw [Rank, hr]
      simp [hmem]

/-- C9: putting a value at a key the tree already contains overwrites the
stored value in place — the key-color-size skeleton (`strip`) of the tree
is unchanged, so no node is created or removed, no color or cached size
field changes, and `Size` is unchanged (hence repeated `Put` with the same
key never grows the tree).  Stated on a valid tree with a black root, the
data model of the specification. -/
theorem put_overwrite_frame {t : RBNode K V} (h : Inv t) (hb : isRed t = false)
    {key : K} (hk : Contains t key = true) (val : V) :
    strip (Put t key val) = strip t ∧ Size (Put t key val) = Size t := by
  obtain ⟨hs, hz, c0, n, hbal⟩ := h
  obtain ⟨hrr, hrl, -, -⟩ := bal_checks hbal
  have hm := (contains_iff_mem hs key).1 hk
  have hps := put_strip hs hz hrr hrl hm val
  have hmain : strip (Put t key val) = strip t := by
    rw [Put, strip_blacken, hps, blacken_of_black (by rw [isRed_strip]; exact hb)]
  refine ⟨hmain, ?_⟩
  have h2 := congrArg size hmain
  rw [size_strip, size_strip] at h2
  exact h2

/-- C10: on a valid tree the deletion entry points never hit a nil
dereference: `Delete` (any key — present or absent), `DelMin` and `DelMax`
(also on the empty tree, where they return an error) all return a result
instead of panicking. -/
theorem deletion_never_panics {t : RBNode K V} (h : Inv t) :
    (∀ key : K, ∃ p, Delete t key = some p) ∧
    (∃ p, DelMin t = some p) ∧ (∃ p, DelMax t = some p) := by
  refine ⟨fun key => ?_, ?_, ?_⟩
  · obtain ⟨t2, e, hd, -⟩ := Delete_spec h key
    exact ⟨(t2, e), hd⟩
  · obtain ⟨t2, e, hd, -⟩ := DelMin_spec h
    exact ⟨(t2, e), hd⟩
  · obtain ⟨t2, e, hd, -⟩ := DelMax_spec h
    exact ⟨(t2, e), hd⟩

/-!  Concrete witnesses for the hypothesis-bearing claim theorems. -/

theorem delete_absent_noop_witness :
    ∃ t2, Delete (Put (Put (.nil : RBNode Nat Nat) 0 0) 2 2) 1 =
        some (t2, some STError.absentKey) ∧
      t2 = Put (Put (.nil : RBNode Nat Nat) 0 0) 2 2 ∧
      Size t2 = Size (Put (Put (.nil : RBNode Nat Nat) 0 0) 2 2) ∧
      ∀ yield : Nat → Nat → Bool,
        Iterator yield t2 = Iterator yield (Put (Put (.nil : RBNode Nat Nat) 0 0) 2 2) :=
  delete_absent_noop (Put_inv (Put_inv Inv_nil 0 0) 2 2).1 (by decide)

theorem put_get_delete_roundtrip_witness :
    Get (Put (Put (.nil : RBNode Nat Nat) 0 0) 0 7) 0 = Except.ok 7 ∧
    ∃ t2, Delete (Put (.nil : RBNode Nat Nat) 0 0) 0 = some (t2, none) ∧
      Get t2 0 = Except.error STError.absentKey := by
  have h := put_get_delete_roundtrip (Put_inv Inv_nil 0 0) 0 7
  exact ⟨h.1, h.2 (by decide)⟩

theorem rank_select_duality_witness :
    (∃ key, Select (Put (Put (.nil : RBNode Nat Nat) 0 0) 1 1) ((1 : Nat) : Int) =
        some (Except.ok key) ∧
      Rank (Put (Put (.nil : RBNode Nat Nat) 0 0) 1 1) key = (1, none)) ∧
    Select (Put (Put (.nil : RBNode Nat Nat) 0 0) 1 1)
        (((Rank (Put (Put (.nil : RBNode Nat Nat) 0 0) 1 1) 0).1 : Int)) =
      some (Except.ok 0) := by
  have h := rank_select_duality (Put_inv (Put_inv Inv_nil 0 0) 1 1)
  exact ⟨h.1 1 (by decide), h.2 0 (by decide)⟩

theorem range_size_matches_range_iterator_witness :
    RangeSize (Put (Put (.nil : RBNode Nat Nat) 0 0) 1 1) 0 1 =
      ((RangeIterator (fun _ _ => true)
        (Put (Put (.nil : RBNode Nat Nat) 0 0) 1 1) 0 1).length : Int) ∧
    (RangeIterator (fun _ _ => true)
        (Put (Put (.nil : RBNode Nat Nat) 0 0) 1 1) 0 1).length =
      (inorder (Put (Put (.nil : RBNode Nat Nat) 0 0) 1 1)).countP
        (fun p => decide (0 ≤ p.1) && decide (p.1 ≤ 1)) := by
  have h := range_size_matches_range_iterator (Put_inv (Put_inv Inv_nil 0 0) 1 1) 0 1
  exact ⟨h.1, h.2.1⟩

theorem rank_succeeds_iff_present_witness :
    ((Rank (Put (Put (.nil : RBNode Nat Nat) 0 0) 1 1) 5).2 = none ↔
      Contains (Put (Put (.nil : RBNode Nat Nat) 0 0) 1 1) 5 = true) ∧
    (Rank (Put (Put (.nil : RBNode Nat Nat) 0 0) 1 1) 5).1 =
      (inorder (Put (Put (.nil : RBNode Nat Nat) 0 0) 1 1)).countP
        (fun p => decide (p.1 < 5)) ∧
    (Rank (Put (Put (.nil : RBNode Nat Nat) 0 0) 1 1) 5).2 =
      some STError.absentKey := by
  have h := rank_succeeds_iff_present (Put_inv (Put_inv Inv_nil 0 0) 1 1) 5
  exact ⟨h.1, h.2.1, h.2.2 (by decide)⟩

theorem put_overwrite_frame_witness :
    strip (Put (Put (Put (.nil : RBNode Nat Nat) 0 0) 1 1) 1 9) =
      strip (Put (Put (.nil : RBNode Nat Nat) 0 0) 1 1) ∧
    Size (Put (Put (Put (.nil : RBNode Nat Nat) 0 0) 1 1) 1 9) =
      Size (Put (Put (.nil : RBNode Nat Nat) 0 0) 1 1) :=
  put_overwrite_frame (Put_inv (Put_inv Inv_nil 0 0) 1 1) (by decide) (by decide) 9

theorem deletion_never_panics_witness :
    (∃ p, Delete (Put (.nil : RBNode Nat Nat) 0 0) 3 = some p) ∧
    (∃ p, DelMin (Put (.nil : RBNode Nat Nat) 0 0) = some p) ∧
    (∃ p, DelMax (Put (.nil : RBNode Nat Nat) 0 0) = some p) := by
  have h := deletion_never_panics (Put_inv Inv_nil 0 0)
  exact ⟨h.1 3, h.2.1, h.2.2⟩


end RBNode

end Search
